import Mathlib

/-!
# keytap2-gui: peak detection, cross-correlation, similarity map, alignment, clustering

A shallow embedding of the signal-processing core of `keytap2-gui.cpp`
(`findKeyPresses`, `calcSum`, `calcCC`, `findBestCC`, `calculateSimilartyMap`,
`clusterG`, `adjustKeyPresses`) together with theorems about it.

Numeric model.
* `TSample` (`int32_t`), `TSum`, `TSum2`, `TOffset`, `TKeyPressPosition` (`int64_t`),
  `TClusterId` (`int32_t`) and `int` indices are embedded as `Int`.  The products of two
  samples in `calcSum` and `calcCC` are `int32_t` products in the source, widened to
  `int64_t` only when they are added to a sum: they are embedded with the two's-complement
  wrap `wrap32` (signed overflow is undefined behaviour in C++; the compiled program
  wraps).  A product can wrap as soon as a sample exceeds `46340` in absolute value; the
  theorems that compare `calcCC` with the mathematical correlation carry that bound as a
  hypothesis (`SmallWindow`, `SmallSamples`).  The `int64_t` sums are unbounded here: with
  samples of that size an `int64_t` sum, or a product of two sums, stays below `2^63` on
  windows shorter than `2^16` samples, and the windows of the program have at most
  `2 * 2400` samples.
* `TCC` (`double`) is embedded as an arbitrary linearly ordered field `R`
  (exact arithmetic: the rounding of `double` operations is not part of the embedding, and
  the constant `0.4` of `clusterG` is the rational `2/5`).  The only non-field operation of
  the source, `sqrt`, is an explicit argument of the functions that use it; the theorems
  assume that it is an exact square root on the non-negative numbers.  IEEE results that are
  not numbers (`0/0`, division by zero, the root of a negative number) are made explicit as
  `none`.  Theorems about the value of a correlation or of the cohesion test of `clusterG`
  are statements about this exact evaluation.
* A `stWaveformView` is a pointer into a sample buffer plus a length.  It is
  embedded as the buffer, the index of the first sample of the view in the buffer,
  and the length.  Reads outside the buffer (undefined behaviour in C++) read `0`.
-/

namespace Keytap

/-! ## Data model -/

abbrev TSample := Int
abbrev TWaveform := List TSample

/-- The struct `stParameters`, without its last field `thresholdClustering`: the core
functions never read it from the struct, `clusterG` receives it as the argument
`threshold`. -/
structure stParameters where
  keyPressWidth_samples : Int := 256
  sampleRate : Int := 24000
  offsetFromPeak : Int := keyPressWidth_samples / 2
  alignWindow : Int := 256

/-- The struct `stMatch`. -/
structure stMatch (R : Type) where
  cc : R
  offset : Int

/-- The struct `stWaveformView`: `samples` points at index `off` of `buf`. -/
structure stWaveformView where
  buf : TWaveform
  off : Int
  n : Int

/-- The read `samples[is]` of a view. -/
def stWaveformView.samples (v : stWaveformView) (is : Int) : TSample :=
  if 0 ≤ v.off + is then v.buf.getD (v.off + is).toNat 0 else 0

/-- The pointer arithmetic `{ samples + d, len }`. -/
def stWaveformView.shift (v : stWaveformView) (d : Int) (len : Int) : stWaveformView :=
  { buf := v.buf, off := v.off + d, n := len }

/-- The two-argument `getView(waveform, idx)`. -/
def getView (waveform : TWaveform) (idx : Int) : stWaveformView :=
  { buf := waveform, off := idx, n := (waveform.length : Int) - idx }

/-- The struct `stKeyPressData`. -/
structure stKeyPressData (R : Type) where
  waveform : stWaveformView
  pos : Int
  ccAvg : R
  cid : Int

/-- The struct `stKeyPressCollection`: a vector of key presses plus `nClusters`. -/
structure stKeyPressCollection (R : Type) where
  presses : List (stKeyPressData R)
  nClusters : Int

abbrev TSimilarityMap (R : Type) := List (List (stMatch R))

/-- The read `v[i]` of a vector at an `int` index (`d` outside the vector). -/
def vget {α : Type} (v : List α) (i : Int) (d : α) : α :=
  if 0 ≤ i then v.getD i.toNat d else d

/-- The write `v[i] = x` of a vector at an `int` index. -/
def vset {α : Type} (v : List α) (i : Int) (x : α) : List α :=
  if 0 ≤ i then v.set i.toNat x else v

/-- The call `v.resize(n)` on a vector of samples: keep a prefix, pad with zeros. -/
def vresize (v : TWaveform) (n : Int) : TWaveform :=
  v.take n.toNat ++ List.replicate (n.toNat - v.length) 0

/-! ## `findKeyPresses` -/

section Peak

variable {R : Type} [LinearOrderedField R]

/-- The local state of the main loop of `findKeyPresses`. -/
structure PeakState (R : Type) where
  rbBegin : Int
  rbAverage : R
  rbSamples : List R
  que : List Int
  res : List (stKeyPressData R)
  waveformThreshold : TWaveform

/-- The vector `waveformAbs` of `findKeyPresses`. -/
def waveformAbs (waveform : stWaveformView) : List Int :=
  (List.range waveform.n.toNat).map (fun (i : Nat) => |waveform.samples (i : Int)|)

/-- The ring-buffer block at the top of the loop body (executed when `i - k/2 >= 0`). -/
def rbUpdate (wabs : List Int) (s : PeakState R) (i : Int) : PeakState R :=
  let size : R := (s.rbSamples.length : R)
  let avg1 := s.rbAverage * size
  let avg2 := avg1 - vget s.rbSamples s.rbBegin 0
  let acur : R := ((vget wabs i 0 : Int) : R)
  let rb := vset s.rbSamples s.rbBegin acur
  let avg3 := avg2 + acur
  let avg4 := avg3 / size
  let b := s.rbBegin + 1
  { s with rbBegin := if b ≥ (s.rbSamples.length : Int) then 0 else b,
           rbAverage := avg4, rbSamples := rb }

/-- The loop `while (!que.empty() && waveformAbs[i] >= waveformAbs[que.back()]) que.pop_back()`. -/
def popBack (wabs : List Int) (i : Int) (que : List Int) : List Int :=
  que.rdropWhile (fun j => decide (vget wabs i 0 ≥ vget wabs j 0))

/-- The loop `while (!que.empty() && que.front() <= i - k) que.pop_front()`. -/
def popFront (i k : Int) (que : List Int) : List Int :=
  que.dropWhile (fun j => decide (j ≤ i - k))

/-- One iteration of the main loop of `findKeyPresses`, for loop index `i`. -/
def findKeyPressesStep (waveform : stWaveformView) (wabs : List Int)
    (thresholdBackground : R) (k : Int) (s : PeakState R) (i : Int) : PeakState R :=
  let s1 := if i - k / 2 ≥ 0 then rbUpdate wabs s i else s
  if i < k then
    { s1 with que := popBack wabs i s1.que ++ [i] }
  else
    let que := popBack wabs i (popFront i k s1.que) ++ [i]
    let itest := i - k / 2
    let res :=
      if itest ≥ 2 * k ∧ itest < waveform.n - 2 * k ∧ que.headI = itest then
        let acur : R := ((vget wabs itest 0 : Int) : R)
        if acur > thresholdBackground * s1.rbAverage then
          s1.res ++ [{ waveform := waveform, pos := itest, ccAvg := 0, cid := -1 }]
        else s1.res
      else s1.res
    { s1 with que := que, res := res,
              waveformThreshold := vset s1.waveformThreshold itest (vget wabs que.headI 0) }

/-- The state before the first iteration: `res.clear()`, `waveformThreshold.resize(n)`,
`rbSamples(8*historySize, 0.0)` and `que(k)`, a deque of `k` zeros. -/
def findKeyPressesInit (waveform : stWaveformView) (waveformThreshold : TWaveform)
    (k : Int) : PeakState R :=
  { rbBegin := 0, rbAverage := 0, rbSamples := List.replicate (8 * k).toNat 0,
    que := List.replicate k.toNat 0, res := [],
    waveformThreshold := vresize waveformThreshold waveform.n }

/-- The state after the first `m` iterations (`i = 0, ..., m - 1`) of the main loop. -/
def findKeyPressesLoop (waveform : stWaveformView) (waveformThreshold : TWaveform)
    (thresholdBackground : R) (k : Int) (m : Nat) : PeakState R :=
  (List.range m).foldl
    (fun (s : PeakState R) (i : Nat) =>
      findKeyPressesStep waveform (waveformAbs waveform) thresholdBackground k s (i : Int))
    (findKeyPressesInit waveform waveformThreshold k)

/-- The function `findKeyPresses(waveform, res, waveformThreshold, thresholdBackground,
historySize)`: the new contents of `res` and of `waveformThreshold`. -/
def findKeyPresses (waveform : stWaveformView) (res : stKeyPressCollection R)
    (waveformThreshold : TWaveform) (thresholdBackground : R) (historySize : Int) :
    stKeyPressCollection R × TWaveform :=
  let s := findKeyPressesLoop waveform waveformThreshold thresholdBackground historySize
    waveform.n.toNat
  ({ presses := s.res, nClusters := res.nClusters }, s.waveformThreshold)

/-- The positions of the strokes of a collection, in order. -/
def positions (c : stKeyPressCollection R) : List Int :=
  c.presses.map (fun e => e.pos)

end Peak

/-! ## `calcSum`, `calcCC`, `findBestCC` -/

section CrossCorrelation

variable {R : Type} [LinearOrderedField R]

/-- The value of an `int32_t` expression whose mathematical value is `x`: the
representative of `x` modulo `2^32` in `[-2^31, 2^31)`. -/
def wrap32 (x : Int) : Int :=
  (x + 2147483648) % 4294967296 - 2147483648

/-- The function `calcSum(waveform)`: the sum of the samples and the sum of their squares.
The square `a0*a0` is an `int32_t` product, added to the `int64_t` sum `sum2`. -/
def calcSum (waveform : stWaveformView) : Int × Int :=
  (List.range waveform.n.toNat).foldl
    (fun (acc : Int × Int) (is : Nat) =>
      let a0 := waveform.samples (is : Int)
      (acc.1 + a0, acc.2 + wrap32 (a0 * a0)))
    (0, 0)

/-- The accumulation loop of `calcCC`: `(sum1, sum12, sum01)` over the first `n` samples.
The products `a1*a1` and `a0*a1` are `int32_t` products, added to `int64_t` sums. -/
def calcCCSums (waveform0 waveform1 : stWaveformView) (n : Int) : Int × Int × Int :=
  (List.range n.toNat).foldl
    (fun (acc : Int × Int × Int) (is : Nat) =>
      let a0 := waveform0.samples (is : Int)
      let a1 := waveform1.samples (is : Int)
      (acc.1 + a1, acc.2.1 + wrap32 (a1 * a1), acc.2.2 + wrap32 (a0 * a1)))
    (0, 0, 0)

/-- The function `calcCC(waveform0, waveform1, sum0, sum02)`.

The result `nom / sqrt(den2a * den2b)` is a number exactly when `den2a * den2b > 0`;
otherwise IEEE arithmetic produces a NaN or an infinity, which is `none` here.  When
`sum0`, `sum02` are the sums of `waveform0` (the only way the source calls `calcCC`) and no
product of two samples overflows, the undefined result is the NaN `0/0`, see
`calcCC_undefined_nom_zero`.  The value is the exact quotient: the rounding of the `double`
division and root is not part of the embedding. -/
def calcCC (sqrt : R → R) (waveform0 waveform1 : stWaveformView) (sum0 sum02 : Int) :
    Option R :=
  let n := min waveform0.n waveform1.n
  let sums := calcCCSums waveform0 waveform1 n
  let sum1 := sums.1
  let sum12 := sums.2.1
  let sum01 := sums.2.2
  let nom : R := ((sum01 * n - sum0 * sum1 : Int) : R)
  let den2a : R := ((sum02 * n - sum0 * sum0 : Int) : R)
  let den2b : R := ((sum12 * n - sum1 * sum1 : Int) : R)
  if 0 < den2a * den2b then some (nom / sqrt (den2a * den2b)) else none

/-- One iteration of the offset loop of `findBestCC`; a NaN never compares greater. -/
def findBestCCStep (sqrt : R → R) (waveform0 waveform1 : stWaveformView) (alignWindow : Int)
    (sum0 sum02 : Int) (best : R × Int) (o : Nat) : R × Int :=
  match calcCC sqrt waveform0 (waveform1.shift (o : Int) waveform0.n) sum0 sum02 with
  | some cc => if cc > best.1 then (cc, (o : Int) - alignWindow) else best
  | none => best

/-- The function `findBestCC(waveform0, waveform1, alignWindow)`: `(bestcc, besto)`. -/
def findBestCC (sqrt : R → R) (waveform0 waveform1 : stWaveformView) (alignWindow : Int) :
    R × Int :=
  let sums := calcSum waveform0
  (List.range (2 * alignWindow).toNat).foldl
    (findBestCCStep sqrt waveform0 waveform1 alignWindow sums.1 sums.2)
    (-1, -1)

end CrossCorrelation

/-! ## `calculateSimilartyMap` -/

section Similarity

variable {R : Type} [LinearOrderedField R]

/-- The read `keyPresses[i]` (a stroke of an empty view outside the vector). -/
def kpAt (keyPresses : List (stKeyPressData R)) (i : Nat) : stKeyPressData R :=
  keyPresses.getD i
    { waveform := { buf := [], off := 0, n := 0 }, pos := 0, ccAvg := 0, cid := -1 }

/-- The read `sim[i][j]` of a similarity map. -/
def simAt (sim : TSimilarityMap R) (i j : Nat) : stMatch R :=
  (sim.getD i []).getD j { cc := 0, offset := 0 }

/-- The write `res[i][j] = m`. -/
def simSet (res : TSimilarityMap R) (i j : Nat) (m : stMatch R) : TSimilarityMap R :=
  res.set i ((res.getD i []).set j m)

/-- The state that `calculateSimilartyMap` mutates: the strokes and the matrix. -/
structure SimState (R : Type) where
  keyPresses : List (stKeyPressData R)
  res : TSimilarityMap R

/-- The body of the inner loop over `j` of `calculateSimilartyMap`, row `i`. -/
def similarityInner (sqrt : R → R) (params : stParameters) (i : Nat) (s : SimState R)
    (j : Nat) : SimState R :=
  if i = j then s
  else
    let w := params.keyPressWidth_samples
    let alignWindow := params.alignWindow
    let k0 := kpAt s.keyPresses i
    let k1 := kpAt s.keyPresses j
    let best := findBestCC sqrt
      (k0.waveform.shift (k0.pos + params.offsetFromPeak) (2 * w))
      (k1.waveform.shift (k1.pos + params.offsetFromPeak - alignWindow)
        (2 * w + 2 * alignWindow))
      alignWindow
    { keyPresses := s.keyPresses.set i { k0 with ccAvg := k0.ccAvg + best.1 },
      res := simSet s.res i j { cc := best.1, offset := best.2 } }

/-- The body of the outer loop over `i` of `calculateSimilartyMap`.  The accumulator `avgcc`
is a reference to `keyPresses[i].ccAvg`.  (For `nPresses = 1` the source divides by zero;
the theorems about `ccAvg` are for `nPresses >= 2`.) -/
def similarityOuter (sqrt : R → R) (params : stParameters) (nPresses : Nat) (s : SimState R)
    (i : Nat) : SimState R :=
  let s1 : SimState R := { s with res := simSet s.res i i { cc := 1, offset := 0 } }
  let s2 := (List.range nPresses).foldl (similarityInner sqrt params i) s1
  let k0 := kpAt s2.keyPresses i
  { s2 with keyPresses :=
      s2.keyPresses.set i { k0 with ccAvg := k0.ccAvg / (((nPresses : Int) - 1 : Int) : R) } }

/-- The function `calculateSimilartyMap(params, keyPresses, res)`: the strokes (with
their new `ccAvg`) and the new matrix `res`. -/
def calculateSimilartyMap (sqrt : R → R) (params : stParameters)
    (keyPresses : stKeyPressCollection R) : stKeyPressCollection R × TSimilarityMap R :=
  let nPresses := keyPresses.presses.length
  let res0 : TSimilarityMap R :=
    List.replicate nPresses (List.replicate nPresses { cc := 0, offset := 0 })
  let s := (List.range nPresses).foldl (similarityOuter sqrt params nPresses)
    { keyPresses := keyPresses.presses, res := res0 }
  ({ keyPresses with presses := s.keyPresses }, s.res)

end Similarity

/-! ## `clusterG` and `adjustKeyPresses` -/

section Cluster

variable {R : Type} [LinearOrderedField R]

/-- The local struct `Pair` of `clusterG` and `adjustKeyPresses`. -/
structure Pair (R : Type) where
  i : Nat
  j : Nat
  cc : R

/-- The vector `ccpairs` before sorting: all pairs `i < j < n`, row by row. -/
def ccPairs (sim : TSimilarityMap R) (n : Nat) : List (Pair R) :=
  (List.range (n - 1)).flatMap
    (fun i => (List.range' (i + 1) (n - (i + 1))).map
      (fun j => { i := i, j := j, cc := (simAt sim i j).cc }))

/-- A model of `std::sort(ccpairs.begin(), ccpairs.end())` with `operator<` being
`cc > a.cc`: descending by `cc`.  `std::sort` leaves the order of pairs of equal `cc`
unspecified; this model keeps them in their original order. -/
def sortPairs (pairs : List (Pair R)) : List (Pair R) :=
  pairs.insertionSort (fun a b => a.cc ≥ b.cc)

/-- The read `keyPresses[k].cid`. -/
def cidAt (keyPresses : List (stKeyPressData R)) (k : Nat) : Int :=
  (kpAt keyPresses k).cid

/-- The six accumulators of the cohesion test of `clusterG`. -/
structure MergeSums (R : Type) where
  nsum : Int
  nsumi : Int
  nsumj : Int
  sumcc : R
  sumcci : R
  sumccj : R

/-- The body of the loop over `q` in the cohesion test, for fixed `k`. -/
def mergeSumsStep (sim : TSimilarityMap R) (keyPresses : List (stKeyPressData R))
    (ci cj : Int) (k : Nat) (acc : MergeSums R) (q : Nat) : MergeSums R :=
  if q = k then acc
  else
    let ck := cidAt keyPresses k
    let cq := cidAt keyPresses q
    let a1 : MergeSums R :=
      if (ck = ci ∨ ck = cj) ∧ (cq = ci ∨ cq = cj) then
        { acc with sumcc := acc.sumcc + (simAt sim k q).cc, nsum := acc.nsum + 1 }
      else acc
    let a2 : MergeSums R :=
      if ck = ci ∧ cq = ci then
        { a1 with sumcci := a1.sumcci + (simAt sim k q).cc, nsumi := a1.nsumi + 1 }
      else a1
    if ck = cj ∧ cq = cj then
      { a2 with sumccj := a2.sumccj + (simAt sim k q).cc, nsumj := a2.nsumj + 1 }
    else a2

/-- The double loop over `k` and `q` of the cohesion test. -/
def mergeSums (sim : TSimilarityMap R) (keyPresses : List (stKeyPressData R)) (n : Nat)
    (ci cj : Int) : MergeSums R :=
  (List.range n).foldl
    (fun (acc : MergeSums R) (k : Nat) =>
      (List.range n).foldl (mergeSumsStep sim keyPresses ci cj k) acc)
    { nsum := 0, nsumi := 0, nsumj := 0, sumcc := 0, sumcci := 0, sumccj := 0 }

/-- The cohesion test `sumcc > 0.4*(sumcci + sumccj)` after the three divisions, evaluated
in exact arithmetic: the sums and quotients are exact and the constant `0.4` is the rational
`2/5` (the source adds and divides in `double` and compares with the `double` nearest to
`0.4`, so it can decide differently when the two sides agree to within rounding).
Whenever the pair loop reaches the test, `nsum >= 2`, see `clusterLoop_merge_iff`. -/
def mergeAccepted (sim : TSimilarityMap R) (keyPresses : List (stKeyPressData R)) (n : Nat)
    (ci cj : Int) : Prop :=
  let s := mergeSums sim keyPresses n ci cj
  let sumcc := s.sumcc / (s.nsum : R)
  let sumcci := if s.nsumi > 0 then s.sumcci / (s.nsumi : R) else s.sumcci
  let sumccj := if s.nsumj > 0 then s.sumccj / (s.nsumj : R) else s.sumccj
  sumcc > 2 / 5 * (sumcci + sumccj)

instance (sim : TSimilarityMap R) (keyPresses : List (stKeyPressData R)) (n : Nat)
    (ci cj : Int) : Decidable (mergeAccepted sim keyPresses n ci cj) := by
  unfold mergeAccepted
  infer_instance

/-- The relabelling loop `if (ck == ci || ck == cj) ck = cnew` over all strokes. -/
def relabel (keyPresses : List (stKeyPressData R)) (ci cj cnew : Int) :
    List (stKeyPressData R) :=
  keyPresses.map (fun e => if e.cid = ci ∨ e.cid = cj then { e with cid := cnew } else e)

/-- The loop over the sorted pairs of `clusterG`, on the strokes and `nclusters`. -/
def clusterLoop (sim : TSimilarityMap R) (threshold : R) (n : Nat) :
    List (Pair R) → List (stKeyPressData R) × Int → List (stKeyPressData R) × Int
  | [], st => st
  | curpair :: rest, st =>
    if curpair.cc < threshold then st
    else
      let ci := cidAt st.1 curpair.i
      let cj := cidAt st.1 curpair.j
      if ci = cj then clusterLoop sim threshold n rest st
      else if mergeAccepted sim st.1 n ci cj then
        clusterLoop sim threshold n rest (relabel st.1 ci cj (min ci cj), st.2 - 1)
      else clusterLoop sim threshold n rest st

/-- The initial labelling `keyPresses[i].cid = i + 1`. -/
def initCids (keyPresses : List (stKeyPressData R)) : List (stKeyPressData R) :=
  List.zipWith (fun (e : stKeyPressData R) (i : Nat) => { e with cid := (i : Int) + 1 })
    keyPresses (List.range keyPresses.length)

/-- The function `clusterG` after the call of `std::sort`, given the sorted vector: the
state that a call which returns leaves.  Of the diagnostic `printf` loop before the pair
loop only the indices it reads are part of the embedding, as `topPairsReads`; with fewer
than ten pairs the loop reads outside the vector, and for `n <= 1` (an empty vector) the
source does not return at all, see `clusterG_top_pairs_read_out_of_bounds`. -/
def clusterGFrom (sorted : List (Pair R)) (sim : TSimilarityMap R)
    (keyPresses : stKeyPressCollection R) (threshold : R) : stKeyPressCollection R :=
  let n := keyPresses.presses.length
  let st := clusterLoop sim threshold n sorted (initCids keyPresses.presses, (n : Int))
  { presses := st.1, nClusters := st.2 }

/-- The function `clusterG(sim, keyPresses, threshold)`. -/
def clusterG (sim : TSimilarityMap R) (keyPresses : stKeyPressCollection R) (threshold : R) :
    stKeyPressCollection R :=
  clusterGFrom (sortPairs (ccPairs sim keyPresses.presses.length)) sim keyPresses threshold

/-- The state of the pair loop of `adjustKeyPresses`. -/
structure AdjustState (R : Type) where
  keyPresses : List (stKeyPressData R)
  used : List Bool
  nused : Int

/-- The body of the pair loop of `adjustKeyPresses` between the `continue` test and the
`break` test: one position is adjusted and the two strokes are marked as used. -/
def adjustStep (sim : TSimilarityMap R) (st : AdjustState R) (curpair : Pair R) :
    AdjustState R :=
  let k0 := curpair.i
  let k1 := curpair.j
  let kp :=
    if st.used.getD k1 false = false then
      st.keyPresses.set k1
        { kpAt st.keyPresses k1 with
          pos := (kpAt st.keyPresses k1).pos + (simAt sim k0 k1).offset }
    else
      st.keyPresses.set k0
        { kpAt st.keyPresses k0 with
          pos := (kpAt st.keyPresses k0).pos - (simAt sim k0 k1).offset }
  let used1 := if st.used.getD k0 false = false then st.used.set k0 true else st.used
  let nused1 := if st.used.getD k0 false = false then st.nused + 1 else st.nused
  let used2 := if used1.getD k1 false = false then used1.set k1 true else used1
  let nused2 := if used1.getD k1 false = false then nused1 + 1 else nused1
  { keyPresses := kp, used := used2, nused := nused2 }

/-- The pair loop of `adjustKeyPresses`. -/
def adjustLoop (sim : TSimilarityMap R) (n : Nat) :
    List (Pair R) → AdjustState R → AdjustState R
  | [], st => st
  | curpair :: rest, st =>
    if st.used.getD curpair.i false = true ∧ st.used.getD curpair.j false = true then
      adjustLoop sim n rest st
    else if (adjustStep sim st curpair).nused = (n : Int) then adjustStep sim st curpair
    else adjustLoop sim n rest (adjustStep sim st curpair)

/-- The function `adjustKeyPresses` after the call of `std::sort`, given the sorted vector. -/
def adjustKeyPressesFrom (sorted : List (Pair R)) (keyPresses : stKeyPressCollection R)
    (sim : TSimilarityMap R) : stKeyPressCollection R :=
  let n := keyPresses.presses.length
  let st := adjustLoop sim n sorted
    { keyPresses := keyPresses.presses, used := List.replicate n false, nused := 0 }
  { keyPresses with presses := st.keyPresses }

/-- The function `adjustKeyPresses(params, keyPresses, sim)` (`params` is not read). -/
def adjustKeyPresses (keyPresses : stKeyPressCollection R) (sim : TSimilarityMap R) :
    stKeyPressCollection R :=
  adjustKeyPressesFrom (sortPairs (ccPairs sim keyPresses.presses.length)) keyPresses sim

end Cluster

/-! ## Specification-level definitions used by the theorems -/

/-- The order of the deque: indices increase and values strictly decrease from front to
back. -/
def DequeRel (a : Int → Int) (x y : Int) : Prop := x < y ∧ a y < a x

/-- The invariant of the deque after the iteration for index `i`, with window `[lo, i]`. -/
def DequeInv (a : Int → Int) (lo i : Int) (q : List Int) : Prop :=
  q.Pairwise (DequeRel a) ∧ (∀ x ∈ q, lo ≤ x ∧ x ≤ i) ∧
    ∀ j, lo ≤ j → j ≤ i → ∃ x ∈ q, j ≤ x ∧ a j ≤ a x


/-- The assumption on the `sqrt` argument: an exact square root on the non-negative
numbers. -/
def IsSqrt {R : Type} [LinearOrderedField R] (sqrt : R → R) : Prop :=
  ∀ x : R, 0 ≤ x → 0 ≤ sqrt x ∧ sqrt x * sqrt x = x

/-- A window (the first `n` samples of a view) whose samples have absolute value at most
`46340`, the largest amplitude at which no `int32_t` product of two samples overflows
(`46340^2 < 2^31 <= 46341^2`).  Every waveform that `readFromFile` loads is normalised to
amplitude `32000` and satisfies it. -/
def SmallWindow (v : stWaveformView) (n : Int) : Prop :=
  ∀ is : Int, 0 ≤ is → is < n → |v.samples is| ≤ 46340

/-- A sample buffer whose samples all have absolute value at most `46340`. -/
def SmallSamples (buf : TWaveform) : Prop :=
  ∀ x ∈ buf, |x| ≤ 46340

instance (buf : TWaveform) : Decidable (SmallSamples buf) := by
  unfold SmallSamples
  infer_instance

/-- The numerator `n * sum(f g) - sum(f) * sum(g)` of the correlation of the first `N`
values of two integer sequences. -/
def covN (N : Nat) (f g : Nat → Int) : Int :=
  (N : Int) * (∑ i in Finset.range N, f i * g i) -
    (∑ i in Finset.range N, f i) * (∑ i in Finset.range N, g i)

/-- The pair `(bestcc, bestoffset)` that `calculateSimilartyMap` computes for the ordered
pair of strokes `(i, j)`: the call of `findBestCC` in its inner loop. -/
def bestMatch {R : Type} [LinearOrderedField R] (sqrt : R → R) (params : stParameters)
    (keyPresses : List (stKeyPressData R)) (i j : Nat) : R × Int :=
  findBestCC sqrt
    ((kpAt keyPresses i).waveform.shift ((kpAt keyPresses i).pos + params.offsetFromPeak)
      (2 * params.keyPressWidth_samples))
    ((kpAt keyPresses j).waveform.shift
      ((kpAt keyPresses j).pos + params.offsetFromPeak - params.alignWindow)
      (2 * params.keyPressWidth_samples + 2 * params.alignWindow))
    params.alignWindow

/-- Two stroke vectors that differ at most in the `ccAvg` fields. -/
def SameGeom {R : Type} [LinearOrderedField R] (kp kp' : List (stKeyPressData R)) : Prop :=
  kp'.length = kp.length ∧
    ∀ t, (kpAt kp' t).waveform = (kpAt kp t).waveform ∧ (kpAt kp' t).pos = (kpAt kp t).pos ∧
      (kpAt kp' t).cid = (kpAt kp t).cid

/-- The sum of the off-diagonal correlations of row `i` over the columns `j < m`. -/
def rowSum {R : Type} [LinearOrderedField R] (sqrt : R → R) (params : stParameters)
    (keyPresses : List (stKeyPressData R)) (i m : Nat) : R :=
  ∑ j in (Finset.range m).filter (fun j => j ≠ i), (bestMatch sqrt params keyPresses i j).1

/-- The entry the source stores at `res[i][j]`: `(1, 0)` on the diagonal, the result of
`findBestCC` elsewhere. -/
def simEntry {R : Type} [LinearOrderedField R] (sqrt : R → R) (params : stParameters)
    (keyPresses : List (stKeyPressData R)) (i j : Nat) : stMatch R :=
  if j = i then { cc := 1, offset := 0 }
  else { cc := (bestMatch sqrt params keyPresses i j).1,
         offset := (bestMatch sqrt params keyPresses i j).2 }

/-- The arithmetic mean of `matrix[i][j].cc` over the `n - 1` columns `j ≠ i`. -/
def rowMean {R : Type} [LinearOrderedField R] (sim : TSimilarityMap R) (n i : Nat) : R :=
  (∑ j in (Finset.range n).filter (fun j => j ≠ i), (simAt sim i j).cc) / ((n : R) - 1)

/-! ### Concrete inputs of the witnesses -/

/-- A 44-sample waveform with the template `[1, 3, 2, 5]` at indices 10 and 30. -/
def twoTemplates : TWaveform :=
  [0, 0, 0, 0, 0, 0, 0, 0, 0, 0, 1, 3, 2, 5, 0, 0, 0, 0, 0, 0, 0, 0,
   0, 0, 0, 0, 0, 0, 0, 0, 1, 3, 2, 5, 0, 0, 0, 0, 0, 0, 0, 0, 0, 0]

/-- Two strokes on `twoTemplates`, the first at the first template (position 10), the second
5 samples after the second template (position 35), both with `ccAvg = a`. -/
def twoStrokes (R : Type) [LinearOrderedField R] (a : R) : stKeyPressCollection R :=
  { presses := [{ waveform := getView twoTemplates 0, pos := 10, ccAvg := a, cid := -1 },
                { waveform := getView twoTemplates 0, pos := 35, ccAvg := a, cid := -1 }],
    nClusters := 0 }

/-- The parameters of the witnesses: window of `2 * 2` samples at the peak, alignment
window 6. -/
def smallParams : stParameters :=
  { keyPressWidth_samples := 2, offsetFromPeak := 0, alignWindow := 6 }

/-- The number of distinct `cid` values among the strokes. -/
def distinctCids {R : Type} (keyPresses : List (stKeyPressData R)) : Nat :=
  (keyPresses.map (fun e => e.cid)).toFinset.card

/-- All ordered pairs `(k, q)` of stroke indices, in the order of the double loop. -/
def allPairs (n : Nat) : List (Nat × Nat) :=
  (List.range n).flatMap (fun k => (List.range n).map (fun q => (k, q)))

/-- The average of `matrix[k][q].cc` over a list of index pairs (`0` for no pair). -/
def avgCC {R : Type} [LinearOrderedField R] (sim : TSimilarityMap R) (P : List (Nat × Nat)) :
    R :=
  if P.length = 0 then 0
  else (P.map (fun kq => (simAt sim kq.1 kq.2).cc)).sum / (P.length : R)

/-- The pairs of distinct strokes `k`, `q` that both lie in the cluster with label `c`. -/
def withinPairs {R : Type} [LinearOrderedField R] (keyPresses : List (stKeyPressData R))
    (n : Nat) (c : Int) : List (Nat × Nat) :=
  (allPairs n).filter
    (fun kq => decide (kq.2 ≠ kq.1 ∧ cidAt keyPresses kq.1 = c ∧ cidAt keyPresses kq.2 = c))

/-- The pairs of distinct strokes `k`, `q` that both lie in the union of the clusters with
labels `ci` and `cj`. -/
def unionPairs {R : Type} [LinearOrderedField R] (keyPresses : List (stKeyPressData R))
    (n : Nat) (ci cj : Int) : List (Nat × Nat) :=
  (allPairs n).filter
    (fun kq => decide (kq.2 ≠ kq.1 ∧
      (cidAt keyPresses kq.1 = ci ∨ cidAt keyPresses kq.1 = cj) ∧
      (cidAt keyPresses kq.2 = ci ∨ cidAt keyPresses kq.2 = cj)))

/-- The cross-block pairs of the claim: pairs of the union that are not both in `C_i` and
not both in `C_j`. -/
def crossPairs {R : Type} [LinearOrderedField R] (keyPresses : List (stKeyPressData R))
    (n : Nat) (ci cj : Int) : List (Nat × Nat) :=
  (unionPairs keyPresses n ci cj).filter
    (fun kq => decide (¬ (cidAt keyPresses kq.1 = ci ∧ cidAt keyPresses kq.2 = ci) ∧
      ¬ (cidAt keyPresses kq.1 = cj ∧ cidAt keyPresses kq.2 = cj)))

/-- The read `keyPresses[k].pos`. -/
def posAt {R : Type} [LinearOrderedField R] (keyPresses : List (stKeyPressData R)) (k : Nat) :
    Int :=
  (kpAt keyPresses k).pos

/-- Three strokes (at positions 10, 20, 30 of an empty waveform; `clusterG` and
`adjustKeyPresses` read no samples). -/
def threeStrokes : stKeyPressCollection ℚ :=
  { presses := [{ waveform := getView [] 0, pos := 10, ccAvg := 0, cid := -1 },
                { waveform := getView [] 0, pos := 20, ccAvg := 0, cid := -1 },
                { waveform := getView [] 0, pos := 30, ccAvg := 0, cid := -1 }],
    nClusters := 0 }

/-- A symmetric similarity matrix for three strokes: strokes 0 and 1 correlate fully,
stroke 2 correlates with stroke 0 at `0.6` and with stroke 1 at `0`. -/
def threeSim : TSimilarityMap ℚ :=
  [[{ cc := 1, offset := 0 }, { cc := 1, offset := 2 }, { cc := 3 / 5, offset := -1 }],
   [{ cc := 1, offset := -2 }, { cc := 1, offset := 0 }, { cc := 0, offset := 4 }],
   [{ cc := 3 / 5, offset := 1 }, { cc := 0, offset := -4 }, { cc := 1, offset := 0 }]]

/-- A similarity matrix for two strokes with correlation `0.4` and offset `-5`. -/
def twoSim : TSimilarityMap ℚ :=
  [[{ cc := 1, offset := 0 }, { cc := 2 / 5, offset := -5 }],
   [{ cc := 2 / 5, offset := 5 }, { cc := 1, offset := 0 }]]

/-! ### Definitions for the claims on bounds, reads, and cluster structure -/

/-- Parameters with an empty alignment window (`alignWindow = 0`). -/
def zeroWindowParams : stParameters :=
  { keyPressWidth_samples := 2, offsetFromPeak := 0, alignWindow := 0 }

/-- A similarity matrix for two strokes that correlate fully (`cc = 1` in both directions). -/
def twoEqualSim : TSimilarityMap ℚ :=
  [[{ cc := 1, offset := 0 }, { cc := 1, offset := 0 }],
   [{ cc := 1, offset := 0 }, { cc := 1, offset := 0 }]]

/-- The indices at which the diagnostic loop of `clusterG`,
`for (int i = 0; i < 10; ++i) printf(..., ccpairs[i].i, ccpairs[i].j, ccpairs[i].cc)`,
reads the sorted vector `ccpairs`: `0, ..., 9`, whatever the size of the vector. -/
def topPairsReads : List Nat := List.range 10

/-- The test waveform of 12,000 samples: zero except for samples of value 32000 at the
indices 2000, 6000 and 10000. -/
def impulseWaveform : TWaveform :=
  (List.range 12000).map
    (fun (i : Nat) => if i = 2000 ∨ i = 6000 ∨ i = 10000 then (32000 : Int) else 0)

/-- The graph of above-threshold pairs on the strokes `0, ..., n - 1`: `a` and `b` are
adjacent when the matrix entry of the pair, read as `clusterG` reads it (row = smaller
index), is at least the threshold. -/
def aboveEdge {R : Type} [LinearOrderedField R] (sim : TSimilarityMap R) (threshold : R)
    (n : Nat) (a b : Nat) : Prop :=
  (a < b ∧ b < n ∧ threshold ≤ (simAt sim a b).cc) ∨
  (b < a ∧ a < n ∧ threshold ≤ (simAt sim b a).cc)

/-- A similarity matrix for three strokes in which every entry has `cc = 1`. -/
def threeEqualSim : TSimilarityMap ℚ :=
  [[{ cc := 1, offset := 0 }, { cc := 1, offset := 0 }, { cc := 1, offset := 0 }],
   [{ cc := 1, offset := 0 }, { cc := 1, offset := 0 }, { cc := 1, offset := 0 }],
   [{ cc := 1, offset := 0 }, { cc := 1, offset := 0 }, { cc := 1, offset := 0 }]]

/-- The reads `samples[is]` of `calcSum(waveform)`, each as the buffer and the index into
the buffer. -/
def calcSumReads (waveform : stWaveformView) : List (TWaveform × Int) :=
  (List.range waveform.n.toNat).map
    (fun (is : Nat) => (waveform.buf, waveform.off + (is : Int)))

/-- The reads `samples0[is]` and `samples1[is]` of `calcCC(waveform0, waveform1, ...)`. -/
def calcCCReads (waveform0 waveform1 : stWaveformView) : List (TWaveform × Int) :=
  (List.range (min waveform0.n waveform1.n).toNat).flatMap
    (fun (is : Nat) =>
      [(waveform0.buf, waveform0.off + (is : Int)), (waveform1.buf, waveform1.off + (is : Int))])

/-- The reads of `findBestCC(waveform0, waveform1, alignWindow)`: those of `calcSum` and of
the call of `calcCC` for every offset `o`. -/
def findBestCCReads (waveform0 waveform1 : stWaveformView) (alignWindow : Int) :
    List (TWaveform × Int) :=
  calcSumReads waveform0 ++
    (List.range (2 * alignWindow).toNat).flatMap
      (fun (o : Nat) => calcCCReads waveform0 (waveform1.shift (o : Int) waveform0.n))

/-- The sample reads of `calculateSimilartyMap(params, keyPresses, res)`: those of the call
of `findBestCC` for every `i` and every `j != i`.  (The function changes no `waveform` and
no `pos` while it runs, only `ccAvg`.) -/
def calculateSimilartyMapReads {R : Type} [LinearOrderedField R] (params : stParameters)
    (keyPresses : List (stKeyPressData R)) : List (TWaveform × Int) :=
  (List.range keyPresses.length).flatMap (fun (i : Nat) =>
    (List.range keyPresses.length).flatMap (fun (j : Nat) =>
      if i = j then []
      else
        let w := params.keyPressWidth_samples
        let alignWindow := params.alignWindow
        let k0 := kpAt keyPresses i
        let k1 := kpAt keyPresses j
        findBestCCReads
          (k0.waveform.shift (k0.pos + params.offsetFromPeak) (2 * w))
          (k1.waveform.shift (k1.pos + params.offsetFromPeak - alignWindow)
            (2 * w + 2 * alignWindow))
          alignWindow))

/-- A waveform of 14 samples with two peaks, at the indices 4 and 8. -/
def twoPeaks : TWaveform := [0, 0, 0, 0, 9, 0, 0, 0, 7, 0, 0, 0, 0, 0]

/-- Parameters with a window of `2 * 1` samples at the peak and alignment window 1. -/
def tinyParams : stParameters :=
  { keyPressWidth_samples := 1, offsetFromPeak := 0, alignWindow := 1 }

/-- The three integers of the last block of `calcCC`: `nom`, `den2a` and `den2b`, before
they are converted to `double`. -/
def calcCCTerms (waveform0 waveform1 : stWaveformView) (sum0 sum02 : Int) : Int × Int × Int :=
  let n := min waveform0.n waveform1.n
  let sums := calcCCSums waveform0 waveform1 n
  (sums.2.2 * n - sum0 * sums.1, sum02 * n - sum0 * sum0, sums.2.1 * n - sums.1 * sums.1)

/-- A waveform with samples of amplitude 50000, whose squares do not fit `int32_t`. -/
def loudWaveform : TWaveform := [0, 50000, 0, -50000, -1, 0]

/-- Two strokes on `loudWaveform`, at the positions 1 and 3. -/
def loudStrokes (R : Type) [LinearOrderedField R] : stKeyPressCollection R :=
  { presses := [{ waveform := getView loudWaveform 0, pos := 1, ccAvg := 0, cid := -1 },
                { waveform := getView loudWaveform 0, pos := 3, ccAvg := 0, cid := -1 }],
    nClusters := 0 }

/-- A waveform with the template `[50000, 0]` at the indices 1 and 3. -/
def loudTemplates : TWaveform := [0, 50000, 0, 50000, 0, 0]

/-- Two strokes on `loudTemplates`, at the positions 1 and 3 of the two templates. -/
def loudTemplateStrokes (R : Type) [LinearOrderedField R] : stKeyPressCollection R :=
  { presses := [{ waveform := getView loudTemplates 0, pos := 1, ccAvg := 0, cid := -1 },
                { waveform := getView loudTemplates 0, pos := 3, ccAvg := 0, cid := -1 }],
    nClusters := 0 }
section PeakProofs
variable {R : Type} [LinearOrderedField R]

theorem rbUpdate_res (wabs : List Int) (s : PeakState R) (i : Int) :
    (rbUpdate wabs s i).res = s.res := rfl

theorem rbUpdate_que (wabs : List Int) (s : PeakState R) (i : Int) :
    (rbUpdate wabs s i).que = s.que := rfl

/-- One iteration either leaves `res` alone or appends a stroke at `i - k/2`, and the
latter only inside the margin. -/
theorem findKeyPressesStep_res (waveform : stWaveformView) (wabs : List Int) (thr : R)
    (k : Int) (s : PeakState R) (i : Int) :
    (findKeyPressesStep waveform wabs thr k s i).res = s.res ∨
    ((findKeyPressesStep waveform wabs thr k s i).res =
        s.res ++ [{ waveform := waveform, pos := i - k / 2, ccAvg := 0, cid := -1 }] ∧
      2 * k ≤ i - k / 2 ∧ i - k / 2 < waveform.n - 2 * k) := by
  unfold findKeyPressesStep
  simp only []
  split_ifs <;> first | exact Or.inl rfl | exact Or.inr ⟨rfl, by tauto, by tauto⟩

theorem findKeyPressesLoop_succ (waveform : stWaveformView) (wt : TWaveform) (thr : R)
    (k : Int) (m : Nat) :
    findKeyPressesLoop waveform wt thr k (m + 1) =
      findKeyPressesStep waveform (waveformAbs waveform) thr k
        (findKeyPressesLoop waveform wt thr k m) (m : Int) := by
  simp [findKeyPressesLoop, List.range_succ, List.foldl_append]

/-- Loop invariant for the emitted positions. -/
theorem findKeyPressesLoop_positions (waveform : stWaveformView) (wt : TWaveform) (thr : R)
    (k : Int) (m : Nat) :
    ((findKeyPressesLoop waveform wt thr k m).res.map (fun e => e.pos)).Pairwise (· < ·) ∧
    ∀ p ∈ (findKeyPressesLoop waveform wt thr k m).res.map (fun e => e.pos),
      2 * k ≤ p ∧ p < waveform.n - 2 * k ∧ p < (m : Int) - k / 2 := by
  induction m with
  | zero => simp [findKeyPressesLoop, findKeyPressesInit]
  | succ m ih =>
    rw [findKeyPressesLoop_succ]
    rcases findKeyPressesStep_res waveform (waveformAbs waveform) thr k
      (findKeyPressesLoop waveform wt thr k m) (m : Int) with h | ⟨h, h2, h3⟩
    · rw [h]
      refine ⟨ih.1, fun p hp => ?_⟩
      have := ih.2 p hp
      push_cast
      omega
    · rw [h]
      simp only [List.map_append, List.map_cons, List.map_nil]
      constructor
      · rw [List.pairwise_append]
        refine ⟨ih.1, List.pairwise_singleton _ _, ?_⟩
        intro a ha b hb
        simp only [List.mem_singleton] at hb
        subst hb
        have := ih.2 a ha
        show a < (m : Int) - k / 2
        omega
      · intro p hp
        rw [List.mem_append, List.mem_singleton] at hp
        rcases hp with hp | hp
        · have := ih.2 p hp
          push_cast
          omega
        · subst hp
          show 2 * k ≤ (m : Int) - k / 2 ∧ (m : Int) - k / 2 < waveform.n - 2 * k ∧
            (m : Int) - k / 2 < ((m + 1 : Nat) : Int) - k / 2
          push_cast
          omega

/-- Claim C1. For every waveform view of length `n`, every background threshold and every
history size `k >= 1`, the positions of the strokes returned by `findKeyPresses` are
strictly increasing in output order and each position `p` satisfies `2k <= p < n - 2k`. -/
theorem findKeyPresses_positions_increasing_in_margin (waveform : stWaveformView)
    (res : stKeyPressCollection R) (waveformThreshold : TWaveform) (thresholdBackground : R)
    (k : Int) (_hk : 1 ≤ k) :
    (positions (findKeyPresses waveform res waveformThreshold thresholdBackground k).1).Pairwise
        (· < ·) ∧
    ∀ p ∈ positions (findKeyPresses waveform res waveformThreshold thresholdBackground k).1,
      2 * k ≤ p ∧ p < waveform.n - 2 * k := by
  have h := findKeyPressesLoop_positions waveform waveformThreshold thresholdBackground k
    waveform.n.toNat
  exact ⟨h.1, fun p hp => ⟨(h.2 p hp).1, (h.2 p hp).2.1⟩⟩

end PeakProofs

/-! ### The monotonic deque -/

section Deque

theorem mem_dropWhile_of_false {α : Type} (p : α → Bool) :
    ∀ (l : List α) (x : α), x ∈ l → p x = false → x ∈ l.dropWhile p
  | [], _, hx, _ => by simp at hx
  | h :: t, x, hx, hp => by
    by_cases hh : p h = true
    · rw [List.dropWhile_cons_of_pos hh]
      rcases List.mem_cons.1 hx with rfl | hx
      · simp [hp] at hh
      · exact mem_dropWhile_of_false p t x hx hp
    · rw [List.dropWhile_cons_of_neg hh]
      exact hx

theorem false_of_mem_dropWhile {α : Type} (r : α → α → Prop) (p : α → Bool)
    (hr : ∀ x y, r x y → p x = false → p y = false) :
    ∀ (l : List α), l.Pairwise r → ∀ x ∈ l.dropWhile p, p x = false
  | [], _, x, hx => by simp at hx
  | h :: t, hl, x, hx => by
    by_cases hh : p h = true
    · rw [List.dropWhile_cons_of_pos hh] at hx
      exact false_of_mem_dropWhile r p hr t (List.Pairwise.of_cons hl) x hx
    · rw [List.dropWhile_cons_of_neg hh] at hx
      have hh : p h = false := by simpa using hh
      rcases List.mem_cons.1 hx with rfl | hx
      · exact hh
      · exact hr h x (List.rel_of_pairwise_cons hl hx) hh

theorem mem_rdropWhile_of_false {α : Type} (p : α → Bool) (l : List α) (x : α)
    (hx : x ∈ l) (hp : p x = false) : x ∈ l.rdropWhile p := by
  unfold List.rdropWhile
  rw [List.mem_reverse]
  exact mem_dropWhile_of_false p _ x (List.mem_reverse.2 hx) hp

theorem false_of_mem_rdropWhile {α : Type} (r : α → α → Prop) (p : α → Bool)
    (hr : ∀ x y, r x y → p y = false → p x = false) (l : List α) (hl : l.Pairwise r) :
    ∀ x ∈ l.rdropWhile p, p x = false := by
  intro x hx
  unfold List.rdropWhile at hx
  rw [List.mem_reverse] at hx
  refine false_of_mem_dropWhile (fun a b => r b a) p (fun a b h => hr b a h) l.reverse ?_ x hx
  exact List.pairwise_reverse.2 hl

theorem rdropWhile_sublist {α : Type} (p : α → Bool) (l : List α) :
    (l.rdropWhile p).Sublist l := by
  unfold List.rdropWhile
  have h := (List.dropWhile_sublist p (l := l.reverse)).reverse
  simpa using h

theorem popBack_eq (wabs : List Int) (i : Int) (q : List Int) :
    popBack wabs i q = q.rdropWhile (fun j => decide (vget wabs j 0 ≤ vget wabs i 0)) := rfl

/-- Pushing index `i` after the back-pop loop re-establishes the invariant. -/
theorem dequeInv_push (wabs : List Int) (lo i : Int) (q : List Int) (hlo : lo ≤ i)
    (hp : q.Pairwise (DequeRel (fun j => vget wabs j 0)))
    (hm : ∀ x ∈ q, lo ≤ x ∧ x < i)
    (hc : ∀ j, lo ≤ j → j < i → ∃ x ∈ q, j ≤ x ∧ vget wabs j 0 ≤ vget wabs x 0) :
    DequeInv (fun j => vget wabs j 0) lo i (popBack wabs i q ++ [i]) := by
  have hsub := rdropWhile_sublist (fun j => decide (vget wabs j 0 ≤ vget wabs i 0)) q
  have hkeep := false_of_mem_rdropWhile (DequeRel (fun j => vget wabs j 0))
    (fun j => decide (vget wabs j 0 ≤ vget wabs i 0))
    (by
      intro x y hxy hy
      simp only [decide_eq_false_iff_not, not_le] at hy ⊢
      exact lt_trans hy hxy.2) q hp
  rw [popBack_eq]
  refine ⟨?_, ?_, ?_⟩
  · rw [List.pairwise_append]
    refine ⟨hp.sublist hsub, List.pairwise_singleton _ _, ?_⟩
    intro x hx y hy
    rw [List.mem_singleton] at hy
    subst hy
    have h1 := hkeep x hx
    simp only [decide_eq_false_iff_not, not_le] at h1
    exact ⟨(hm x (hsub.subset hx)).2, h1⟩
  · intro x hx
    rw [List.mem_append, List.mem_singleton] at hx
    rcases hx with hx | rfl
    · have := hm x (hsub.subset hx)
      omega
    · omega
  · intro j hj1 hj2
    by_cases hji : j = i
    · subst hji
      exact ⟨j, by simp, le_refl _, le_refl _⟩
    · obtain ⟨x, hx, hjx, hax⟩ := hc j hj1 (by omega)
      by_cases hd : vget wabs x 0 ≤ vget wabs i 0
      · exact ⟨i, by simp, hj2, le_trans hax hd⟩
      · refine ⟨x, ?_, hjx, hax⟩
        rw [List.mem_append]
        left
        exact mem_rdropWhile_of_false _ q x hx (by simpa using hd)

/-- The front-pop loop restricts the invariant to the narrower window. -/
theorem dequeInv_popFront (a : Int → Int) (lo i i1 k : Int) (q : List Int)
    (h : DequeInv a lo i q) :
    (popFront i1 k q).Pairwise (DequeRel a) ∧
    (∀ x ∈ popFront i1 k q, i1 - k + 1 ≤ x ∧ x ≤ i) ∧
    ∀ j, lo ≤ j → i1 - k + 1 ≤ j → j ≤ i → ∃ x ∈ popFront i1 k q, j ≤ x ∧ a j ≤ a x := by
  obtain ⟨hp, hm, hc⟩ := h
  have hsub : (popFront i1 k q).Sublist q := List.dropWhile_sublist _
  have hkeep := false_of_mem_dropWhile (DequeRel a) (fun j => decide (j ≤ i1 - k))
    (by
      intro x y hxy hx
      simp only [decide_eq_false_iff_not, not_le] at hx ⊢
      exact lt_trans hx hxy.1) q hp
  refine ⟨hp.sublist hsub, ?_, ?_⟩
  · intro x hx
    have h1 := hkeep x hx
    simp only [decide_eq_false_iff_not, not_le] at h1
    have := hm x (hsub.subset hx)
    omega
  · intro j hj0 hj1 hj2
    obtain ⟨x, hx, hjx, hax⟩ := hc j hj0 hj2
    refine ⟨x, ?_, hjx, hax⟩
    exact mem_dropWhile_of_false _ q x hx (by simp only [decide_eq_false_iff_not, not_le]; omega)

/-- The front of a deque that satisfies the invariant is a given index `p` of the window
exactly when nothing before `p` in the window is larger and everything after `p` is
strictly smaller. -/
theorem dequeInv_head_eq_iff (a : Int → Int) (lo i : Int) (q : List Int)
    (h : DequeInv a lo i q) (p : Int) (hp1 : lo ≤ p) (hp2 : p ≤ i) :
    q.headI = p ↔ (∀ j, lo ≤ j → j < p → a j ≤ a p) ∧ (∀ j, p < j → j ≤ i → a j < a p) := by
  obtain ⟨hpw, hm, hc⟩ := h
  cases q with
  | nil =>
    obtain ⟨x, hx, _⟩ := hc p hp1 hp2
    simp at hx
  | cons hd tl =>
    simp only [List.headI_cons]
    have hhead : ∀ x ∈ hd :: tl, x ≠ hd → hd < x ∧ a x < a hd := by
      intro x hx hne
      rcases List.mem_cons.1 hx with rfl | hx
      · exact absurd rfl hne
      · exact List.rel_of_pairwise_cons hpw hx
    have hmax : ∀ j, lo ≤ j → j ≤ i → a j ≤ a hd ∧ (hd < j → a j < a hd) := by
      intro j hj1 hj2
      obtain ⟨x, hx, hjx, hax⟩ := hc j hj1 hj2
      by_cases hxe : x = hd
      · subst hxe
        exact ⟨hax, fun hlt => absurd hjx (not_le.2 hlt)⟩
      · have := hhead x hx hxe
        exact ⟨by omega, fun _ => by omega⟩
    constructor
    · rintro rfl
      exact ⟨fun j hj1 hj2 => (hmax j hj1 (by omega)).1,
        fun j hj1 hj2 => (hmax j (by omega) hj2).2 hj1⟩
    · rintro ⟨hl, hr⟩
      have hhd := hm hd (List.mem_cons_self _ _)
      rcases lt_trichotomy hd p with hlt | heq | hgt
      · have h1 := (hmax p hp1 hp2).2 hlt
        have h2 := hl hd hhd.1 hlt
        omega
      · exact heq
      · have h1 := hr hd hgt hhd.2
        have h2 := (hmax p hp1 hp2).1
        omega

end Deque

/-! ### The deque and the emitted strokes along the loop -/

section PeakLoop
variable {R : Type} [LinearOrderedField R]

theorem vget_waveformAbs (waveform : stWaveformView) (j : Int) (h0 : 0 ≤ j)
    (h1 : j < waveform.n) : vget (waveformAbs waveform) j 0 = |waveform.samples j| := by
  unfold vget waveformAbs
  rw [if_pos h0]
  have hj : j.toNat < waveform.n.toNat := by omega
  rw [List.getD_eq_getElem _ _ (by simpa using hj)]
  simp only [List.getElem_map, List.getElem_range]
  rw [Int.toNat_of_nonneg h0]

theorem findKeyPressesStep_que (waveform : stWaveformView) (wabs : List Int) (thr : R)
    (k : Int) (s : PeakState R) (i : Int) :
    (findKeyPressesStep waveform wabs thr k s i).que =
      if i < k then popBack wabs i s.que ++ [i]
      else popBack wabs i (popFront i k s.que) ++ [i] := by
  unfold findKeyPressesStep
  simp only []
  split_ifs <;> rfl

theorem findKeyPressesStep_res_eq (waveform : stWaveformView) (wabs : List Int) (thr : R)
    (k : Int) (s : PeakState R) (i : Int) :
    (findKeyPressesStep waveform wabs thr k s i).res =
      s.res ++
        (if k ≤ i ∧ 2 * k ≤ i - k / 2 ∧ i - k / 2 < waveform.n - 2 * k ∧
            (findKeyPressesStep waveform wabs thr k s i).que.headI = i - k / 2 ∧
            ((vget wabs (i - k / 2) 0 : Int) : R) >
              thr * (findKeyPressesStep waveform wabs thr k s i).rbAverage
         then [{ waveform := waveform, pos := i - k / 2, ccAvg := 0, cid := -1 }] else []) := by
  unfold findKeyPressesStep
  simp only []
  by_cases h2 : i < k
  · have h2' : ¬ k ≤ i := not_le.2 h2
    simp only [h2, h2', if_true, false_and, if_false, List.append_nil]
    split_ifs <;> rfl
  · have h2' : k ≤ i := not_lt.1 h2
    simp only [h2, h2', if_false, true_and]
    by_cases h1 : i - k / 2 ≥ 0
    · simp only [h1, if_true, ge_iff_le, gt_iff_lt]
      split_ifs <;> first
        | rfl
        | (exfalso; tauto)
        | simp [rbUpdate_res]
    · simp only [h1, if_false, ge_iff_le, gt_iff_lt]
      split_ifs <;> first
        | rfl
        | (exfalso; tauto)
        | simp [rbUpdate_res]

/-- The deque invariant holds after every iteration (for `k >= 1`). -/
theorem findKeyPressesLoop_dequeInv (waveform : stWaveformView) (wt : TWaveform) (thr : R)
    (k : Int) (hk : 1 ≤ k) (m : Nat) :
    DequeInv (fun j => vget (waveformAbs waveform) j 0) (max 0 ((m : Int) - k + 1)) (m : Int)
      (findKeyPressesLoop waveform wt thr k (m + 1)).que := by
  induction m with
  | zero =>
    rw [findKeyPressesLoop_succ, findKeyPressesStep_que]
    have h0 : ((0 : Nat) : Int) < k := by simp; omega
    rw [if_pos h0]
    have hnil : popBack (waveformAbs waveform) ((0 : Nat) : Int)
        (findKeyPressesLoop waveform wt thr k 0).que = [] := by
      unfold popBack
      rw [List.rdropWhile_eq_nil_iff]
      intro x hx
      simp only [findKeyPressesLoop, List.range_zero, List.foldl_nil, findKeyPressesInit] at hx
      rw [List.eq_of_mem_replicate hx]
      simp
    rw [hnil]
    have hmax : max 0 (((0 : Nat) : Int) - k + 1) = 0 := by
      apply max_eq_left; simp; omega
    rw [hmax]
    have := dequeInv_push (waveformAbs waveform) 0 0 [] (le_refl _) List.Pairwise.nil
      (by simp) (by intro j h1 h2; omega)
    simpa [popBack] using this
  | succ m ih =>
    rw [findKeyPressesLoop_succ, findKeyPressesStep_que]
    by_cases hlt : ((m + 1 : Nat) : Int) < k
    · rw [if_pos hlt]
      have hmax : max 0 (((m + 1 : Nat) : Int) - k + 1) = 0 := by
        apply max_eq_left; omega
      have hmax0 : max 0 ((m : Int) - k + 1) = 0 := by
        apply max_eq_left; push_cast at hlt; omega
      rw [hmax]
      rw [hmax0] at ih
      obtain ⟨hp, hm, hc⟩ := ih
      apply dequeInv_push _ _ _ _ (by push_cast; omega) hp
      · intro x hx
        have := hm x hx
        push_cast
        omega
      · intro j hj1 hj2
        exact hc j hj1 (by push_cast at hj2; omega)
    · rw [if_neg hlt]
      have hmax : max 0 (((m + 1 : Nat) : Int) - k + 1) = ((m + 1 : Nat) : Int) - k + 1 := by
        apply max_eq_right; omega
      rw [hmax]
      obtain ⟨hp, hm, hc⟩ := dequeInv_popFront _ _ _ ((m + 1 : Nat) : Int) k _ ih
      apply dequeInv_push _ _ _ _ (by omega) hp
      · intro x hx
        have := hm x hx
        push_cast at this ⊢
        omega
      · intro j hj1 hj2
        refine hc j ?_ hj1 (by push_cast at hj2; omega)
        apply max_le
        · push_cast at hj1 hlt; omega
        · push_cast at hj1; omega

/-- A stroke at `p` is in `res` after `m` iterations exactly when some iteration `i < m`
with `i - k/2 = p` passed the three tests of the source. -/
theorem findKeyPressesLoop_mem_iff (waveform : stWaveformView) (wt : TWaveform) (thr : R)
    (k : Int) (m : Nat) (p : Int) :
    p ∈ (findKeyPressesLoop waveform wt thr k m).res.map (fun e => e.pos) ↔
      ∃ i : Nat, i < m ∧ p = (i : Int) - k / 2 ∧ k ≤ (i : Int) ∧ 2 * k ≤ p ∧
        p < waveform.n - 2 * k ∧
        (findKeyPressesLoop waveform wt thr k (i + 1)).que.headI = p ∧
        ((vget (waveformAbs waveform) p 0 : Int) : R) >
          thr * (findKeyPressesLoop waveform wt thr k (i + 1)).rbAverage := by
  induction m with
  | zero => simp [findKeyPressesLoop, findKeyPressesInit]
  | succ m ih =>
    have hstep := findKeyPressesStep_res_eq waveform (waveformAbs waveform) thr k
      (findKeyPressesLoop waveform wt thr k m) (m : Int)
    rw [← findKeyPressesLoop_succ] at hstep
    rw [hstep, List.map_append, List.mem_append, ih]
    constructor
    · rintro (⟨i, hi, h⟩ | h)
      · exact ⟨i, by omega, h⟩
      · split_ifs at h with hc
        · simp only [List.map_cons, List.map_nil, List.mem_singleton] at h
          subst h
          exact ⟨m, by omega, rfl, hc.1, hc.2.1, hc.2.2.1, hc.2.2.2.1, hc.2.2.2.2⟩
        · simp at h
    · rintro ⟨i, hi, hp, h1, h2, h3, h4, h5⟩
      by_cases him : i = m
      · subst him
        right
        subst hp
        rw [if_pos ⟨h1, h2, h3, h4, h5⟩]
        simp
      · left
        exact ⟨i, by omega, hp, h1, h2, h3, h4, h5⟩

end PeakLoop

/-! ### C2: when a stroke is emitted -/

section PeakEmit
variable {R : Type} [LinearOrderedField R]

end PeakEmit

/-! ### C1, C2: concrete runs -/

section PeakRuns

/-- Witness for C1: a nine-sample waveform, `k = 2`, threshold `1`; the run emits `[4]`. -/
theorem findKeyPresses_positions_increasing_in_margin_witness :
    positions (findKeyPresses (getView [0, 0, 0, 9, 5, 0, 0, 0, 0] 0) ⟨[], 0⟩ [] (1 : ℚ) 2).1
        = [4] ∧
    ((positions (findKeyPresses (getView [0, 0, 0, 9, 5, 0, 0, 0, 0] 0) ⟨[], 0⟩ []
        (1 : ℚ) 2).1).Pairwise (· < ·) ∧
      ∀ p ∈ positions (findKeyPresses (getView [0, 0, 0, 9, 5, 0, 0, 0, 0] 0) ⟨[], 0⟩ []
          (1 : ℚ) 2).1,
        2 * 2 ≤ p ∧ p < (getView [0, 0, 0, 9, 5, 0, 0, 0, 0] 0).n - 2 * 2) :=
  ⟨by decide!,
   findKeyPresses_positions_increasing_in_margin (getView [0, 0, 0, 9, 5, 0, 0, 0, 0] 0)
     ⟨[], 0⟩ [] (1 : ℚ) 2 (by decide)⟩

end PeakRuns

/-! ### Sums, and the Cauchy-Schwarz inequality for the correlation terms -/

section Sums

/-- The centred form of the numerator. -/
theorem covN_centred (N : Nat) (f g : Nat → Int) :
    ∑ i in Finset.range N, ((N : Int) * f i - ∑ j in Finset.range N, f j) *
        ((N : Int) * g i - ∑ j in Finset.range N, g j) = (N : Int) * covN N f g := by
  have h : ∀ i, ((N : Int) * f i - ∑ j in Finset.range N, f j) *
      ((N : Int) * g i - ∑ j in Finset.range N, g j) =
      (N : Int) * (N : Int) * (f i * g i) - (N : Int) * (∑ j in Finset.range N, g j) * f i -
        (N : Int) * (∑ j in Finset.range N, f j) * g i +
        (∑ j in Finset.range N, f j) * (∑ j in Finset.range N, g j) := by
    intro i; ring
  simp only [h, Finset.sum_add_distrib, Finset.sum_sub_distrib, ← Finset.mul_sum, Finset.sum_const, Finset.card_range,
    nsmul_eq_mul, covN]
  ring

/-- Cauchy-Schwarz: `nom^2 <= den2a * den2b`. -/
theorem covN_sq_le (N : Nat) (f g : Nat → Int) :
    covN N f g * covN N f g ≤ covN N f f * covN N g g := by
  rcases Nat.eq_zero_or_pos N with rfl | hN
  · simp [covN]
  · have hcs := Finset.sum_mul_sq_le_sq_mul_sq (Finset.range N)
      (fun i => (N : Int) * f i - ∑ j in Finset.range N, f j)
      (fun i => (N : Int) * g i - ∑ j in Finset.range N, g j)
    simp only [pow_two] at hcs
    rw [covN_centred, covN_centred, covN_centred] at hcs
    have hN' : (0 : Int) < (N : Int) * (N : Int) := by positivity
    have h2 : (N : Int) * (N : Int) * (covN N f g * covN N f g) ≤
        (N : Int) * (N : Int) * (covN N f f * covN N g g) := by
      calc (N : Int) * (N : Int) * (covN N f g * covN N f g)
          = (N : Int) * covN N f g * ((N : Int) * covN N f g) := by ring
        _ ≤ (N : Int) * covN N f f * ((N : Int) * covN N g g) := hcs
        _ = (N : Int) * (N : Int) * (covN N f f * covN N g g) := by ring
    exact le_of_mul_le_mul_left h2 hN'

theorem covN_self_nonneg (N : Nat) (f : Nat → Int) : 0 ≤ covN N f f := by
  rcases Nat.eq_zero_or_pos N with rfl | hN
  · simp [covN]
  · have h := covN_centred N f f
    have h0 : 0 ≤ ∑ i in Finset.range N, ((N : Int) * f i - ∑ j in Finset.range N, f j) *
        ((N : Int) * f i - ∑ j in Finset.range N, f j) :=
      Finset.sum_nonneg (fun i _ => mul_self_nonneg _)
    rw [h] at h0
    have hN' : (0 : Int) < (N : Int) := by exact_mod_cast hN
    exact nonneg_of_mul_nonneg_right h0 hN'

/-- The denominator factor is positive as soon as two of the values differ. -/
theorem covN_self_pos (N : Nat) (f : Nat → Int) (i j : Nat) (hi : i < N) (hj : j < N)
    (hij : f i ≠ f j) : 0 < covN N f f := by
  have hN : 0 < N := by omega
  have hN' : (0 : Int) < (N : Int) := by exact_mod_cast hN
  have h := covN_centred N f f
  have hne : ∃ t ∈ Finset.range N, (N : Int) * f t - ∑ s in Finset.range N, f s ≠ 0 := by
    by_contra hall
    push_neg at hall
    have h1 := hall i (Finset.mem_range.2 hi)
    have h2 := hall j (Finset.mem_range.2 hj)
    have h3 : (N : Int) * f i = (N : Int) * f j := by linarith
    exact hij (mul_left_cancel₀ (ne_of_gt hN') h3)
  obtain ⟨t, ht, hne⟩ := hne
  have hpos : 0 < ∑ i in Finset.range N, ((N : Int) * f i - ∑ j in Finset.range N, f j) *
      ((N : Int) * f i - ∑ j in Finset.range N, f j) := by
    apply Finset.sum_pos' (fun i _ => mul_self_nonneg _)
    exact ⟨t, ht, mul_self_pos.2 hne⟩
  rw [h] at hpos
  exact pos_of_mul_pos_right hpos (le_of_lt hN')

/-- A constant sequence has denominator factor zero. -/
theorem covN_self_const (N : Nat) (f : Nat → Int) (c : Int)
    (hc : ∀ i, i < N → f i = c) : covN N f f = 0 := by
  have h1 : ∑ i in Finset.range N, f i * f i = (N : Int) * (c * c) := by
    rw [Finset.sum_congr rfl (fun i hi => by rw [hc i (Finset.mem_range.1 hi)])]
    simp
  have h2 : ∑ i in Finset.range N, f i = (N : Int) * c := by
    rw [Finset.sum_congr rfl (fun i hi => hc i (Finset.mem_range.1 hi))]
    simp
  rw [covN, h1, h2]
  ring

/-- If a denominator factor vanishes, so does the numerator. -/
theorem covN_eq_zero_of_self (N : Nat) (f g : Nat → Int)
    (h : covN N f f = 0 ∨ covN N g g = 0) : covN N f g = 0 := by
  have hcs := covN_sq_le N f g
  have h0 : covN N f f * covN N g g = 0 := by
    rcases h with h | h <;> simp [h]
  rw [h0] at hcs
  have := mul_self_nonneg (covN N f g)
  exact mul_self_eq_zero.1 (le_antisymm hcs this)

/-- An `int32_t` product of two samples of absolute value at most `46340` does not wrap. -/
theorem wrap32_mul_small (a b : Int) (ha : |a| ≤ 46340) (hb : |b| ≤ 46340) :
    wrap32 (a * b) = a * b := by
  have h : |a * b| ≤ 46340 * 46340 := by
    rw [abs_mul]
    exact mul_le_mul ha hb (abs_nonneg _) (by norm_num)
  obtain ⟨h1, h2⟩ := abs_le.1 h
  unfold wrap32
  generalize a * b = x at h1 h2
  rw [Int.emod_eq_of_lt (by omega) (by omega)]
  omega

/-- Reads of a view of a buffer of small samples are small (a read outside the buffer
gives `0`). -/
theorem smallSamples_samples (v : stWaveformView) (h : SmallSamples v.buf) (is : Int) :
    |v.samples is| ≤ 46340 := by
  unfold stWaveformView.samples
  split_ifs with h0
  · rcases lt_or_le (v.off + is).toNat v.buf.length with hlt | hge
    · rw [List.getD_eq_getElem _ _ hlt]
      exact h _ (List.getElem_mem _)
    · rw [List.getD_eq_default _ _ hge]
      norm_num
  · norm_num

theorem smallSamples_window (v : stWaveformView) (h : SmallSamples v.buf) (n : Int) :
    SmallWindow v n :=
  fun is _ _ => smallSamples_samples v h is

theorem smallWindow_mono (v : stWaveformView) (n m : Int) (hnm : m ≤ n) (h : SmallWindow v n) :
    SmallWindow v m :=
  fun is h0 h1 => h is h0 (lt_of_lt_of_le h1 hnm)

theorem calcSum_eq (v : stWaveformView) (hv : SmallWindow v v.n) :
    calcSum v = (∑ i in Finset.range v.n.toNat, v.samples (i : Int),
      ∑ i in Finset.range v.n.toNat, v.samples (i : Int) * v.samples (i : Int)) := by
  unfold calcSum
  have hN : ∀ N : Nat, N ≤ v.n.toNat →
      (List.range N).foldl
        (fun (acc : Int × Int) (is : Nat) =>
          let a0 := v.samples (is : Int)
          (acc.1 + a0, acc.2 + wrap32 (a0 * a0))) (0, 0) =
      (∑ i in Finset.range N, v.samples (i : Int),
        ∑ i in Finset.range N, v.samples (i : Int) * v.samples (i : Int)) := by
    intro N
    induction N with
    | zero => intro _; simp
    | succ N ih =>
      intro hle
      have hs := hv (N : Int) (by omega) (by omega)
      rw [List.range_succ, List.foldl_append, ih (by omega)]
      simp only [List.foldl_cons, List.foldl_nil, Finset.sum_range_succ]
      rw [wrap32_mul_small _ _ hs hs]
  exact hN _ (le_refl _)

theorem calcCCSums_eq (v0 v1 : stWaveformView) (n : Int) (h0 : SmallWindow v0 n)
    (h1 : SmallWindow v1 n) :
    calcCCSums v0 v1 n = (∑ i in Finset.range n.toNat, v1.samples (i : Int),
      ∑ i in Finset.range n.toNat, v1.samples (i : Int) * v1.samples (i : Int),
      ∑ i in Finset.range n.toNat, v0.samples (i : Int) * v1.samples (i : Int)) := by
  unfold calcCCSums
  have hN : ∀ N : Nat, N ≤ n.toNat →
      (List.range N).foldl
        (fun (acc : Int × Int × Int) (is : Nat) =>
          let a0 := v0.samples (is : Int)
          let a1 := v1.samples (is : Int)
          (acc.1 + a1, acc.2.1 + wrap32 (a1 * a1), acc.2.2 + wrap32 (a0 * a1))) (0, 0, 0) =
      (∑ i in Finset.range N, v1.samples (i : Int),
        ∑ i in Finset.range N, v1.samples (i : Int) * v1.samples (i : Int),
        ∑ i in Finset.range N, v0.samples (i : Int) * v1.samples (i : Int)) := by
    intro N
    induction N with
    | zero => intro _; simp
    | succ N ih =>
      intro hle
      have hs0 := h0 (N : Int) (by omega) (by omega)
      have hs1 := h1 (N : Int) (by omega) (by omega)
      rw [List.range_succ, List.foldl_append, ih (by omega)]
      simp only [List.foldl_cons, List.foldl_nil, Finset.sum_range_succ]
      rw [wrap32_mul_small _ _ hs1 hs1, wrap32_mul_small _ _ hs0 hs1]
  exact hN _ (le_refl _)

end Sums

/-! ### `calcCC` -/

section CalcCC
variable {R : Type} [LinearOrderedField R]

/-- With the sums of `waveform0` passed in and samples small enough for no product to
wrap, `calcCC` is the quotient of the numerator by the root of the product of the two
denominator factors, taken over the first `waveform0.n` samples. -/
theorem calcCC_eq_covN (sqrt : R → R) (v0 v1 : stWaveformView) (h : v0.n ≤ v1.n)
    (hs0 : SmallWindow v0 v0.n) (hs1 : SmallWindow v1 v0.n) :
    calcCC sqrt v0 v1 (calcSum v0).1 (calcSum v0).2 =
      if 0 < ((covN v0.n.toNat (fun i => v0.samples (i : Int))
                (fun i => v0.samples (i : Int)) : Int) : R) *
             ((covN v0.n.toNat (fun i => v1.samples (i : Int))
                (fun i => v1.samples (i : Int)) : Int) : R)
      then some (((covN v0.n.toNat (fun i => v0.samples (i : Int))
                (fun i => v1.samples (i : Int)) : Int) : R) /
            sqrt (((covN v0.n.toNat (fun i => v0.samples (i : Int))
                (fun i => v0.samples (i : Int)) : Int) : R) *
             ((covN v0.n.toNat (fun i => v1.samples (i : Int))
                (fun i => v1.samples (i : Int)) : Int) : R)))
      else none := by
  simp only [calcCC, min_eq_left h, calcCCSums_eq v0 v1 v0.n hs0 hs1, calcSum_eq v0 hs0]
  rcases le_or_lt 0 v0.n with hn | hn
  · have hN : ((v0.n.toNat : Nat) : Int) = v0.n := Int.toNat_of_nonneg hn
    have e1 : (∑ i in Finset.range v0.n.toNat, v0.samples (i : Int) * v1.samples (i : Int)) *
        v0.n - (∑ i in Finset.range v0.n.toNat, v0.samples (i : Int)) *
          (∑ i in Finset.range v0.n.toNat, v1.samples (i : Int)) =
        covN v0.n.toNat (fun i => v0.samples (i : Int)) (fun i => v1.samples (i : Int)) := by
      unfold covN; rw [hN]; ring
    have e2 : (∑ i in Finset.range v0.n.toNat, v0.samples (i : Int) * v0.samples (i : Int)) *
        v0.n - (∑ i in Finset.range v0.n.toNat, v0.samples (i : Int)) *
          (∑ i in Finset.range v0.n.toNat, v0.samples (i : Int)) =
        covN v0.n.toNat (fun i => v0.samples (i : Int)) (fun i => v0.samples (i : Int)) := by
      unfold covN; rw [hN]; ring
    have e3 : (∑ i in Finset.range v0.n.toNat, v1.samples (i : Int) * v1.samples (i : Int)) *
        v0.n - (∑ i in Finset.range v0.n.toNat, v1.samples (i : Int)) *
          (∑ i in Finset.range v0.n.toNat, v1.samples (i : Int)) =
        covN v0.n.toNat (fun i => v1.samples (i : Int)) (fun i => v1.samples (i : Int)) := by
      unfold covN; rw [hN]; ring
    rw [e1, e2, e3]
  · have hN : v0.n.toNat = 0 := Int.toNat_eq_zero.2 (le_of_lt hn)
    rw [hN]
    simp [covN]

/-- The cast of the Cauchy-Schwarz inequality to the field. -/
theorem covN_sq_le_cast (N : Nat) (f g : Nat → Int) :
    ((covN N f g : Int) : R) * ((covN N f g : Int) : R) ≤
      ((covN N f f : Int) : R) * ((covN N g g : Int) : R) := by
  have h := covN_sq_le N f g
  exact_mod_cast h

/-- A correlation that `calcCC` computes from the sums of `waveform0`, on samples small
enough for no product to wrap, lies in `[-1, 1]`. -/
theorem calcCC_abs_le_one (sqrt : R → R) (hsqrt : IsSqrt sqrt) (v0 v1 : stWaveformView)
    (h : v0.n ≤ v1.n) (hs0 : SmallWindow v0 v0.n) (hs1 : SmallWindow v1 v0.n) (c : R)
    (hc : calcCC sqrt v0 v1 (calcSum v0).1 (calcSum v0).2 = some c) : |c| ≤ 1 := by
  rw [calcCC_eq_covN sqrt v0 v1 h hs0 hs1] at hc
  split_ifs at hc with hden
  · simp only [Option.some.injEq] at hc
    obtain ⟨hs0, hs1⟩ := hsqrt _ (le_of_lt hden)
    have hcs := covN_sq_le_cast (R := R) v0.n.toNat (fun i => v0.samples (i : Int))
      (fun i => v1.samples (i : Int))
    rw [← hs1] at hcs
    have habs := abs_le_iff_mul_self_le.2 hcs
    rw [abs_of_nonneg hs0] at habs
    have hspos : 0 < sqrt (((covN v0.n.toNat (fun i => v0.samples (i : Int))
                (fun i => v0.samples (i : Int)) : Int) : R) *
             ((covN v0.n.toNat (fun i => v1.samples (i : Int))
                (fun i => v1.samples (i : Int)) : Int) : R)) := by
      rcases lt_or_eq_of_le hs0 with hlt | heq
      · exact hlt
      · rw [← heq, mul_zero] at hs1
        rw [← hs1] at hden
        exact absurd hden (lt_irrefl _)
    rw [← hc, abs_div, abs_of_pos hspos]
    exact (div_le_one hspos).2 habs

/-- When `calcCC`, called with the sums of `waveform0` on samples small enough for no
product to wrap, has no numeric result, its numerator and its denominator are both zero:
the IEEE result is the NaN `0/0`. -/
theorem calcCC_undefined_nom_zero (sqrt : R → R) (v0 v1 : stWaveformView) (h : v0.n ≤ v1.n)
    (hs0 : SmallWindow v0 v0.n) (hs1 : SmallWindow v1 v0.n)
    (hnone : calcCC sqrt v0 v1 (calcSum v0).1 (calcSum v0).2 = none) :
    covN v0.n.toNat (fun i => v0.samples (i : Int)) (fun i => v1.samples (i : Int)) = 0 ∧
    covN v0.n.toNat (fun i => v0.samples (i : Int)) (fun i => v0.samples (i : Int)) *
      covN v0.n.toNat (fun i => v1.samples (i : Int)) (fun i => v1.samples (i : Int)) = 0 := by
  rw [calcCC_eq_covN sqrt v0 v1 h hs0 hs1] at hnone
  split_ifs at hnone with hden
  have ha := covN_self_nonneg v0.n.toNat (fun i => v0.samples (i : Int))
  have hb := covN_self_nonneg v0.n.toNat (fun i => v1.samples (i : Int))
  have hprod : covN v0.n.toNat (fun i => v0.samples (i : Int)) (fun i => v0.samples (i : Int)) *
      covN v0.n.toNat (fun i => v1.samples (i : Int)) (fun i => v1.samples (i : Int)) = 0 := by
    apply le_antisymm _ (mul_nonneg ha hb)
    by_contra hpos
    push_neg at hpos
    apply hden
    have : ((0 : Int) : R) < ((covN v0.n.toNat (fun i => v0.samples (i : Int))
        (fun i => v0.samples (i : Int)) * covN v0.n.toNat (fun i => v1.samples (i : Int))
        (fun i => v1.samples (i : Int)) : Int) : R) := Int.cast_lt.2 hpos
    simpa using this
  refine ⟨covN_eq_zero_of_self _ _ _ ?_, hprod⟩
  rcases mul_eq_zero.1 hprod with h0 | h0
  · exact Or.inl h0
  · exact Or.inr h0

/-- The correlation terms of a sequence against a positive affine image of itself. -/
theorem covN_affine (N : Nat) (f g : Nat → Int) (a b : Int)
    (hg : ∀ i, i < N → g i = a * f i + b) :
    covN N f g = a * covN N f f ∧ covN N g g = a * a * covN N f f := by
  have h1 : ∑ i in Finset.range N, g i = a * (∑ i in Finset.range N, f i) + (N : Int) * b := by
    rw [Finset.sum_congr rfl (fun i hi => hg i (Finset.mem_range.1 hi))]
    simp [Finset.sum_add_distrib, Finset.mul_sum]
  have h2 : ∑ i in Finset.range N, f i * g i =
      a * (∑ i in Finset.range N, f i * f i) + b * (∑ i in Finset.range N, f i) := by
    rw [Finset.sum_congr rfl (fun i hi => by rw [hg i (Finset.mem_range.1 hi)])]
    simp only [mul_add, Finset.sum_add_distrib, Finset.mul_sum]
    congr 1
    · exact Finset.sum_congr rfl (fun i _ => by ring)
    · exact Finset.sum_congr rfl (fun i _ => by ring)
  have h3 : ∑ i in Finset.range N, g i * g i =
      a * a * (∑ i in Finset.range N, f i * f i) + 2 * a * b * (∑ i in Finset.range N, f i) +
        (N : Int) * (b * b) := by
    rw [Finset.sum_congr rfl (fun i hi => by rw [hg i (Finset.mem_range.1 hi)])]
    have : ∀ i, (a * f i + b) * (a * f i + b) =
        a * a * (f i * f i) + 2 * a * b * f i + b * b := by intro i; ring
    simp only [this, Finset.sum_add_distrib, ← Finset.mul_sum, Finset.sum_const, Finset.card_range, nsmul_eq_mul]
    ring
  unfold covN
  rw [h1, h2, h3]
  constructor <;> ring

/-- The correlation of a non-constant window against a non-trivial affine image of itself
is the sign of the scale factor, when the samples of both are small enough for no product
to wrap. -/
theorem calcCC_affine (sqrt : R → R) (hsqrt : IsSqrt sqrt) (v0 w : stWaveformView)
    (a b : Int) (ha : a ≠ 0) (hwn : w.n = v0.n)
    (hs0 : SmallWindow v0 v0.n) (hs1 : SmallWindow w v0.n)
    (hw : ∀ is : Int, 0 ≤ is → is < v0.n → w.samples is = a * v0.samples is + b)
    (hx : ∃ i j : Int, 0 ≤ i ∧ i < v0.n ∧ 0 ≤ j ∧ j < v0.n ∧ v0.samples i ≠ v0.samples j) :
    calcCC sqrt v0 w (calcSum v0).1 (calcSum v0).2 = some (if 0 < a then 1 else -1) := by
  obtain ⟨i, j, hi0, hi1, hj0, hj1, hij⟩ := hx
  have hA : 0 < covN v0.n.toNat (fun t => v0.samples (t : Int))
      (fun t => v0.samples (t : Int)) := by
    apply covN_self_pos _ _ i.toNat j.toNat (by omega) (by omega)
    simp only [Int.toNat_of_nonneg hi0, Int.toNat_of_nonneg hj0]
    exact hij
  obtain ⟨e1, e2⟩ := covN_affine v0.n.toNat (fun t => v0.samples (t : Int))
    (fun t => w.samples (t : Int)) a b (fun t ht => hw t (by omega) (by omega))
  rw [calcCC_eq_covN sqrt v0 w (le_of_eq hwn.symm) hs0 hs1, e1, e2]
  set A : Int := covN v0.n.toNat (fun t => v0.samples (t : Int))
      (fun t => v0.samples (t : Int)) with hAdef
  have hAR : (0 : R) < (A : R) := by exact_mod_cast hA
  have haR : (a : R) ≠ 0 := by exact_mod_cast ha
  have habs : (0 : R) < |(a : R)| := abs_pos.2 haR
  have hden : (A : R) * ((a * a * A : Int) : R) =
      (|(a : R)| * (A : R)) * (|(a : R)| * (A : R)) := by
    have : |(a : R)| * |(a : R)| = (a : R) * (a : R) := abs_mul_abs_self _
    push_cast
    calc (A : R) * ((a : R) * (a : R) * (A : R))
        = ((a : R) * (a : R)) * ((A : R) * (A : R)) := by ring
      _ = (|(a : R)| * |(a : R)|) * ((A : R) * (A : R)) := by rw [this]
      _ = _ := by ring
  have hpos : 0 < (A : R) * ((a * a * A : Int) : R) := by
    rw [hden]; positivity
  rw [if_pos hpos]
  obtain ⟨hs0, hs1⟩ := hsqrt _ (le_of_lt hpos)
  rw [hden] at hs0 hs1
  have hs : sqrt (|(a : R)| * (A : R) * (|(a : R)| * (A : R))) = |(a : R)| * (A : R) :=
    (mul_self_inj_of_nonneg hs0 (by positivity)).1 hs1
  rw [hden, hs]
  have hcast : ((a * A : Int) : R) = (a : R) * (A : R) := by push_cast; ring
  rw [hcast]
  congr 1
  by_cases hpa : 0 < a
  · have : (0 : R) < (a : R) := by exact_mod_cast hpa
    rw [if_pos hpa, abs_of_pos this, div_self (ne_of_gt (by positivity))]
  · have hna : a < 0 := lt_of_le_of_ne (not_lt.1 hpa) ha
    have : (a : R) < 0 := by exact_mod_cast hna
    rw [if_neg hpa, abs_of_neg this]
    have hne : (a : R) * (A : R) ≠ 0 := mul_ne_zero haR (ne_of_gt hAR)
    field_simp

theorem isSqrt_real : IsSqrt Real.sqrt :=
  fun x hx => ⟨Real.sqrt_nonneg x, Real.mul_self_sqrt hx⟩

end CalcCC

/-! ### `findBestCC` -/

section FindBestCC
variable {R : Type} [LinearOrderedField R]

/-- The offset loop of `findBestCC`, abstracted over the score `f o` of offset `o`: either
no score exceeded the initial best, which is then returned unchanged, or the result is the
first offset that attains the maximal score. -/
theorem bestFold_spec (f : Nat → Option R) (A : Int) (b0 : R) (d0 : Int) (m : Nat) :
    ((∀ o, o < m → ∀ c, f o = some c → c ≤ b0) ∧
      (List.range m).foldl
        (fun (best : R × Int) (o : Nat) =>
          match f o with
          | some cc => if cc > best.1 then (cc, (o : Int) - A) else best
          | none => best) (b0, d0) = (b0, d0)) ∨
    ∃ ostar, ostar < m ∧ ∃ c, f ostar = some c ∧ b0 < c ∧
      (List.range m).foldl
        (fun (best : R × Int) (o : Nat) =>
          match f o with
          | some cc => if cc > best.1 then (cc, (o : Int) - A) else best
          | none => best) (b0, d0) = (c, (ostar : Int) - A) ∧
      (∀ o, o < m → ∀ c', f o = some c' → c' ≤ c) ∧
      (∀ o, o < ostar → ∀ c', f o = some c' → c' < c) := by
  induction m with
  | zero =>
    left
    exact ⟨fun o ho => absurd ho (Nat.not_lt_zero o), rfl⟩
  | succ m ih =>
    rw [List.range_succ, List.foldl_append]
    simp only [List.foldl_cons, List.foldl_nil]
    rcases ih with ⟨hall, hr⟩ | ⟨ostar, ho, c, hfc, hbc, hr, hmax, hfirst⟩
    · rw [hr]
      cases hfm : f m with
      | none =>
        left
        refine ⟨fun o ho c hc => ?_, rfl⟩
        rcases Nat.lt_succ_iff_lt_or_eq.1 ho with h | h
        · exact hall o h c hc
        · subst h; rw [hfm] at hc; exact absurd hc (by simp)
      | some cc =>
        by_cases hgt : cc > b0
        · right
          refine ⟨m, Nat.lt_succ_self m, cc, hfm, hgt, by simp [hgt], ?_, ?_⟩
          · intro o ho c' hc'
            rcases Nat.lt_succ_iff_lt_or_eq.1 ho with h | h
            · exact le_trans (hall o h c' hc') (le_of_lt hgt)
            · subst h; rw [hfm] at hc'; simp at hc'; rw [hc']
          · intro o ho c' hc'
            exact lt_of_le_of_lt (hall o ho c' hc') hgt
        · left
          refine ⟨fun o ho c hc => ?_, by simp [hgt]⟩
          rcases Nat.lt_succ_iff_lt_or_eq.1 ho with h | h
          · exact hall o h c hc
          · subst h; rw [hfm] at hc; simp at hc; rw [← hc]; exact not_lt.1 hgt
    · right
      rw [hr]
      cases hfm : f m with
      | none =>
        refine ⟨ostar, Nat.lt_succ_of_lt ho, c, hfc, hbc, rfl, ?_, hfirst⟩
        intro o ho' c' hc'
        rcases Nat.lt_succ_iff_lt_or_eq.1 ho' with h | h
        · exact hmax o h c' hc'
        · subst h; rw [hfm] at hc'; exact absurd hc' (by simp)
      | some cc =>
        by_cases hgt : cc > c
        · refine ⟨m, Nat.lt_succ_self m, cc, hfm, lt_trans hbc hgt, by simp [hgt], ?_, ?_⟩
          · intro o ho' c' hc'
            rcases Nat.lt_succ_iff_lt_or_eq.1 ho' with h | h
            · exact le_trans (hmax o h c' hc') (le_of_lt hgt)
            · subst h; rw [hfm] at hc'; simp at hc'; rw [hc']
          · intro o ho' c' hc'
            exact lt_of_le_of_lt (hmax o ho' c' hc') hgt
        · refine ⟨ostar, Nat.lt_succ_of_lt ho, c, hfc, hbc, by simp [hgt], ?_, hfirst⟩
          intro o ho' c' hc'
          rcases Nat.lt_succ_iff_lt_or_eq.1 ho' with h | h
          · exact hmax o h c' hc'
          · subst h; rw [hfm] at hc'; simp at hc'; rw [← hc']; exact not_lt.1 hgt

theorem findBestCC_eq_fold (sqrt : R → R) (v0 v1 : stWaveformView) (A : Int) :
    findBestCC sqrt v0 v1 A =
      (List.range (2 * A).toNat).foldl
        (fun (best : R × Int) (o : Nat) =>
          match calcCC sqrt v0 (v1.shift (o : Int) v0.n) (calcSum v0).1 (calcSum v0).2 with
          | some cc => if cc > best.1 then (cc, (o : Int) - A) else best
          | none => best) (-1, -1) := rfl

/-- The two cases of `findBestCC`: either no defined correlation exceeds `-1` and the
initial values are returned, or the first offset attaining the maximal defined correlation
is returned. -/
theorem findBestCC_cases (sqrt : R → R) (v0 v1 : stWaveformView) (A : Int) :
    ((∀ o : Nat, (o : Int) < 2 * A → ∀ c,
        calcCC sqrt v0 (v1.shift (o : Int) v0.n) (calcSum v0).1 (calcSum v0).2 = some c →
          c ≤ -1) ∧
      findBestCC sqrt v0 v1 A = (-1, -1)) ∨
    ∃ ostar : Nat, (ostar : Int) < 2 * A ∧ ∃ c,
      calcCC sqrt v0 (v1.shift (ostar : Int) v0.n) (calcSum v0).1 (calcSum v0).2 = some c ∧
      -1 < c ∧
      findBestCC sqrt v0 v1 A = (c, (ostar : Int) - A) ∧
      (∀ o : Nat, (o : Int) < 2 * A → ∀ c',
        calcCC sqrt v0 (v1.shift (o : Int) v0.n) (calcSum v0).1 (calcSum v0).2 = some c' →
          c' ≤ c) ∧
      (∀ o : Nat, o < ostar → ∀ c',
        calcCC sqrt v0 (v1.shift (o : Int) v0.n) (calcSum v0).1 (calcSum v0).2 = some c' →
          c' < c) := by
  rw [findBestCC_eq_fold]
  rcases bestFold_spec
    (fun o => calcCC sqrt v0 (v1.shift (o : Int) v0.n) (calcSum v0).1 (calcSum v0).2)
    A (-1) (-1) (2 * A).toNat with ⟨hall, hr⟩ | ⟨ostar, ho, c, hfc, hbc, hr, hmax, hfirst⟩
  · left
    exact ⟨fun o ho c hc => hall o (by omega) c hc, hr⟩
  · right
    exact ⟨ostar, by omega, c, hfc, hbc, hr,
      fun o ho' c' hc' => hmax o (by omega) c' hc', hfirst⟩

end FindBestCC

section FindBestCCRuns

/-- The four windows of `[5, 4, 3, 2, 1, 0]` all have correlation `-1` with `[0, 1]`. -/
theorem calcCC_descending_windows (o : Nat) (ho : o < 4) :
    calcCC Real.sqrt (getView [0, 1] 0)
        ((getView [5, 4, 3, 2, 1, 0] 0).shift (o : Int) (getView [0, 1] 0).n)
        (calcSum (getView [0, 1] 0)).1 (calcSum (getView [0, 1] 0)).2 = some (-1) := by
  have h := calcCC_affine Real.sqrt isSqrt_real (getView [0, 1] 0)
    ((getView [5, 4, 3, 2, 1, 0] 0).shift (o : Int) (getView [0, 1] 0).n) (-1)
    (5 - (o : Int)) (by decide) rfl
    (smallSamples_window _ (by decide) _)
    (smallSamples_window _ (by show SmallSamples [5, 4, 3, 2, 1, 0]; decide) _)
    (by
      intro is h0 h1
      have h1' : is < 2 := h1
      interval_cases o <;> interval_cases is <;> decide)
    ⟨0, 1, by decide, by decide, by decide, by decide, by decide⟩
  rw [h, if_neg (by decide)]

end FindBestCCRuns

/-! ### `calculateSimilartyMap` -/

section SimilarityProofs
variable {R : Type} [LinearOrderedField R]

theorem getD_set_eq {α : Type} (l : List α) (i t : Nat) (x d : α) :
    (l.set i x).getD t d = if t = i ∧ i < l.length then x else l.getD t d := by
  simp only [List.getD_eq_getElem?_getD, List.getElem?_set]
  by_cases h : i = t
  · subst h
    by_cases h2 : i < l.length
    · simp [h2]
    · simp [h2, List.getElem?_eq_none (not_lt.1 h2)]
  · have h' : ¬ t = i := fun e => h e.symm
    simp [h, h']

theorem kpAt_set (kp : List (stKeyPressData R)) (i t : Nat) (x : stKeyPressData R) :
    kpAt (kp.set i x) t = if t = i ∧ i < kp.length then x else kpAt kp t := by
  unfold kpAt
  exact getD_set_eq kp i t x _

theorem simAt_simSet (res : TSimilarityMap R) (i j a b : Nat) (m : stMatch R) :
    simAt (simSet res i j m) a b =
      if a = i ∧ b = j ∧ i < res.length ∧ j < (res.getD i []).length then m
      else simAt res a b := by
  unfold simAt simSet
  rw [getD_set_eq]
  by_cases h1 : a = i ∧ i < res.length
  · rw [if_pos h1, getD_set_eq]
    obtain ⟨rfl, h1⟩ := h1
    by_cases h2 : b = j ∧ j < (res.getD a []).length
    · rw [if_pos h2, if_pos ⟨rfl, h2.1, h1, h2.2⟩]
    · rw [if_neg h2, if_neg (fun h => h2 ⟨h.2.1, h.2.2.2⟩)]
  · rw [if_neg h1, if_neg (fun h => h1 ⟨h.1, h.2.2.1⟩)]

theorem simSet_length (res : TSimilarityMap R) (i j : Nat) (m : stMatch R) :
    (simSet res i j m).length = res.length := by
  simp [simSet]

theorem simSet_row_length (res : TSimilarityMap R) (i j r : Nat) (m : stMatch R) :
    ((simSet res i j m).getD r []).length = (res.getD r []).length := by
  unfold simSet
  rw [getD_set_eq]
  split_ifs with h
  · rw [List.length_set, h.1]
  · rfl

theorem sameGeom_refl (kp : List (stKeyPressData R)) : SameGeom kp kp :=
  ⟨rfl, fun _ => ⟨rfl, rfl, rfl⟩⟩

theorem sameGeom_trans {kp kp1 kp2 : List (stKeyPressData R)} (h1 : SameGeom kp kp1)
    (h2 : SameGeom kp1 kp2) : SameGeom kp kp2 :=
  ⟨h2.1.trans h1.1, fun t =>
    ⟨(h2.2 t).1.trans (h1.2 t).1, (h2.2 t).2.1.trans (h1.2 t).2.1,
      (h2.2 t).2.2.trans (h1.2 t).2.2⟩⟩

theorem sameGeom_set_ccAvg (kp : List (stKeyPressData R)) (i : Nat) (x : R) :
    SameGeom kp (kp.set i { kpAt kp i with ccAvg := x }) := by
  refine ⟨List.length_set _ _ _, fun t => ?_⟩
  rw [kpAt_set]
  split_ifs with h
  · rw [h.1]; exact ⟨rfl, rfl, rfl⟩
  · exact ⟨rfl, rfl, rfl⟩

theorem bestMatch_congr (sqrt : R → R) (params : stParameters)
    {kp kp' : List (stKeyPressData R)} (h : SameGeom kp kp') (i j : Nat) :
    bestMatch sqrt params kp' i j = bestMatch sqrt params kp i j := by
  unfold bestMatch
  rw [(h.2 i).1, (h.2 i).2.1, (h.2 j).1, (h.2 j).2.1]

theorem rowSum_succ (sqrt : R → R) (params : stParameters) (kp : List (stKeyPressData R))
    (i m : Nat) :
    rowSum sqrt params kp i (m + 1) =
      if m = i then rowSum sqrt params kp i m
      else rowSum sqrt params kp i m + (bestMatch sqrt params kp i m).1 := by
  unfold rowSum
  rw [Finset.range_succ, Finset.filter_insert]
  by_cases h : m = i
  · simp [h]
  · rw [if_pos h, if_neg h, Finset.sum_insert (by simp), add_comm]

theorem similarityInner_eq (sqrt : R → R) (params : stParameters) (i j : Nat)
    (s : SimState R) (h : i ≠ j) :
    similarityInner sqrt params i s j =
      { keyPresses := s.keyPresses.set i
          { kpAt s.keyPresses i with
            ccAvg := (kpAt s.keyPresses i).ccAvg + (bestMatch sqrt params s.keyPresses i j).1 },
        res := simSet s.res i j
          { cc := (bestMatch sqrt params s.keyPresses i j).1,
            offset := (bestMatch sqrt params s.keyPresses i j).2 } } := by
  unfold similarityInner
  rw [if_neg h]
  rfl

end SimilarityProofs

section SimilarityLoops
variable {R : Type} [LinearOrderedField R]

/-- The state after the first `m` iterations of the inner loop of row `i`. -/
theorem similarityInner_fold (sqrt : R → R) (params : stParameters) (i : Nat)
    (s1 : SimState R) (hi : i < s1.keyPresses.length) (hr : i < s1.res.length) (m : Nat)
    (hm : m ≤ (s1.res.getD i []).length) :
    SameGeom s1.keyPresses ((List.range m).foldl (similarityInner sqrt params i) s1).keyPresses ∧
    (∀ t, t ≠ i → kpAt ((List.range m).foldl (similarityInner sqrt params i) s1).keyPresses t =
      kpAt s1.keyPresses t) ∧
    (kpAt ((List.range m).foldl (similarityInner sqrt params i) s1).keyPresses i).ccAvg =
      (kpAt s1.keyPresses i).ccAvg + rowSum sqrt params s1.keyPresses i m ∧
    ((List.range m).foldl (similarityInner sqrt params i) s1).res.length = s1.res.length ∧
    (∀ r, (((List.range m).foldl (similarityInner sqrt params i) s1).res.getD r []).length =
      (s1.res.getD r []).length) ∧
    (∀ a b, simAt ((List.range m).foldl (similarityInner sqrt params i) s1).res a b =
      if a = i ∧ b < m ∧ b ≠ i then
        { cc := (bestMatch sqrt params s1.keyPresses i b).1,
          offset := (bestMatch sqrt params s1.keyPresses i b).2 }
      else simAt s1.res a b) := by
  induction m with
  | zero =>
    refine ⟨sameGeom_refl _, fun _ _ => rfl, ?_, rfl, fun _ => rfl, fun a b => ?_⟩
    · simp [rowSum]
    · simp
  | succ m ih =>
    obtain ⟨hg, hother, havg, hlen, hrows, hsim⟩ := ih (Nat.le_of_succ_le hm)
    rw [List.range_succ, List.foldl_append]
    simp only [List.foldl_cons, List.foldl_nil]
    generalize (List.range m).foldl (similarityInner sqrt params i) s1 = s at *
    by_cases him : i = m
    · have hstep : similarityInner sqrt params i s m = s := by
        unfold similarityInner; rw [if_pos him]
      rw [hstep, rowSum_succ, if_pos him.symm]
      refine ⟨hg, hother, havg, hlen, hrows, fun a b => ?_⟩
      rw [hsim a b]
      by_cases hc : a = i ∧ b < m ∧ b ≠ i
      · rw [if_pos hc, if_pos ⟨hc.1, by omega, hc.2.2⟩]
      · rw [if_neg hc, if_neg (fun h => hc ⟨h.1, by omega, h.2.2⟩)]
    · rw [similarityInner_eq sqrt params i m s him, rowSum_succ, if_neg (fun h => him h.symm)]
      have hb := bestMatch_congr sqrt params hg i m
      have hilen : i < s.keyPresses.length := by rw [hg.1]; exact hi
      refine ⟨sameGeom_trans hg (sameGeom_set_ccAvg _ _ _), ?_, ?_, ?_, ?_, ?_⟩
      · intro t ht
        simp only [kpAt_set]
        rw [if_neg (fun h => ht h.1)]
        exact hother t ht
      · rw [kpAt_set, if_pos ⟨rfl, hilen⟩]
        simp only [havg, hb]
        ring
      · simp only [simSet_length]; exact hlen
      · intro r
        simp only [simSet_row_length]; exact hrows r
      · intro a b
        simp only [simAt_simSet]
        rw [hb]
        by_cases hab : a = i ∧ b = m
        · obtain ⟨rfl, rfl⟩ := hab
          have h1 : a < s.res.length := by rw [hlen]; exact hr
          have h2 : b < (s.res.getD a []).length := by rw [hrows]; omega
          rw [if_pos ⟨rfl, rfl, h1, h2⟩, if_pos ⟨rfl, Nat.lt_succ_self b, fun h => him h.symm⟩]
        · rw [if_neg (fun h => hab ⟨h.1, h.2.1⟩), hsim a b]
          by_cases hc : a = i ∧ b < m ∧ b ≠ i
          · rw [if_pos hc, if_pos ⟨hc.1, by omega, hc.2.2⟩]
          · rw [if_neg hc, if_neg]
            rintro ⟨h1, h2, h3⟩
            rcases Nat.lt_succ_iff_lt_or_eq.1 h2 with h | h
            · exact hc ⟨h1, h, h3⟩
            · exact hab ⟨h1, h⟩

end SimilarityLoops

section SimilarityOuter
variable {R : Type} [LinearOrderedField R]

/-- The effect of one iteration of the outer loop (row `i`). -/
theorem similarityOuter_spec (sqrt : R → R) (params : stParameters) (n i : Nat)
    (s : SimState R) (hi : i < n) (hkp : s.keyPresses.length = n) (hres : s.res.length = n)
    (hrow : ∀ r, r < n → (s.res.getD r []).length = n) :
    SameGeom s.keyPresses (similarityOuter sqrt params n s i).keyPresses ∧
    (∀ t, t ≠ i → kpAt (similarityOuter sqrt params n s i).keyPresses t = kpAt s.keyPresses t) ∧
    (kpAt (similarityOuter sqrt params n s i).keyPresses i).ccAvg =
      ((kpAt s.keyPresses i).ccAvg + rowSum sqrt params s.keyPresses i n) /
        (((n : Int) - 1 : Int) : R) ∧
    (similarityOuter sqrt params n s i).res.length = s.res.length ∧
    (∀ r, ((similarityOuter sqrt params n s i).res.getD r []).length =
      (s.res.getD r []).length) ∧
    (∀ a b, simAt (similarityOuter sqrt params n s i).res a b =
      if a = i ∧ b < n then simEntry sqrt params s.keyPresses i b else simAt s.res a b) := by
  have hin := similarityInner_fold sqrt params i
    { s with res := simSet s.res i i { cc := 1, offset := 0 } }
    (by rw [hkp]; exact hi) (by rw [simSet_length, hres]; exact hi) n
    (by rw [simSet_row_length, hrow i hi])
  obtain ⟨hg, hother, havg, hlen, hrows, hsim⟩ := hin
  unfold similarityOuter
  simp only []
  generalize (List.range n).foldl (similarityInner sqrt params i)
    { s with res := simSet s.res i i { cc := 1, offset := 0 } } = s2 at *
  have hilen : i < s2.keyPresses.length := by rw [hg.1, hkp]; exact hi
  refine ⟨sameGeom_trans hg (sameGeom_set_ccAvg _ _ _), ?_, ?_, ?_, ?_, ?_⟩
  · intro t ht
    rw [kpAt_set, if_neg (fun h => ht h.1)]
    exact hother t ht
  · rw [kpAt_set, if_pos ⟨rfl, hilen⟩]
    simp only [havg]
  · rw [hlen, simSet_length]
  · intro r
    rw [hrows r, simSet_row_length]
  · intro a b
    rw [hsim a b, simAt_simSet]
    unfold simEntry
    have h1 := hrow i hi
    split_ifs <;> first
      | rfl
      | (exfalso; omega)

/-- The state after the first `m` iterations of the outer loop. -/
theorem similarityOuter_fold (sqrt : R → R) (params : stParameters) (n : Nat)
    (s0 : SimState R) (hkp : s0.keyPresses.length = n) (hres : s0.res.length = n)
    (hrow : ∀ r, r < n → (s0.res.getD r []).length = n) (m : Nat) (hm : m ≤ n) :
    SameGeom s0.keyPresses
      ((List.range m).foldl (similarityOuter sqrt params n) s0).keyPresses ∧
    (∀ t, m ≤ t → kpAt ((List.range m).foldl (similarityOuter sqrt params n) s0).keyPresses t =
      kpAt s0.keyPresses t) ∧
    (∀ t, t < m →
      (kpAt ((List.range m).foldl (similarityOuter sqrt params n) s0).keyPresses t).ccAvg =
        ((kpAt s0.keyPresses t).ccAvg + rowSum sqrt params s0.keyPresses t n) /
          (((n : Int) - 1 : Int) : R)) ∧
    ((List.range m).foldl (similarityOuter sqrt params n) s0).res.length = n ∧
    (∀ r, r < n →
      (((List.range m).foldl (similarityOuter sqrt params n) s0).res.getD r []).length = n) ∧
    (∀ a b, simAt ((List.range m).foldl (similarityOuter sqrt params n) s0).res a b =
      if a < m ∧ b < n then simEntry sqrt params s0.keyPresses a b else simAt s0.res a b) := by
  induction m with
  | zero =>
    refine ⟨sameGeom_refl _, fun _ _ => rfl, fun t ht => absurd ht (Nat.not_lt_zero t),
      hres, hrow, fun a b => ?_⟩
    simp
  | succ m ih =>
    obtain ⟨hg, hother, havg, hlen, hrows, hsim⟩ := ih (Nat.le_of_succ_le hm)
    rw [List.range_succ, List.foldl_append]
    simp only [List.foldl_cons, List.foldl_nil]
    generalize (List.range m).foldl (similarityOuter sqrt params n) s0 = s at *
    obtain ⟨hg', hother', havg', hlen', hrows', hsim'⟩ :=
      similarityOuter_spec sqrt params n m s (by omega) (by rw [hg.1, hkp]) hlen hrows
    have hrs : ∀ t, rowSum sqrt params s.keyPresses t n = rowSum sqrt params s0.keyPresses t n := by
      intro t
      unfold rowSum
      exact Finset.sum_congr rfl (fun j _ => by rw [bestMatch_congr sqrt params hg t j])
    have hse : ∀ a b, simEntry sqrt params s.keyPresses a b =
        simEntry sqrt params s0.keyPresses a b := by
      intro a b
      unfold simEntry
      rw [bestMatch_congr sqrt params hg a b]
    refine ⟨sameGeom_trans hg hg', ?_, ?_, ?_, ?_, ?_⟩
    · intro t ht
      rw [hother' t (by omega), hother t (by omega)]
    · intro t ht
      rcases Nat.lt_succ_iff_lt_or_eq.1 ht with h | h
      · rw [hother' t (by omega)]
        exact havg t h
      · subst h
        rw [havg', hrs, hother t (le_refl _)]
    · rw [hlen', hlen]
    · intro r hr
      rw [hrows' r, hrows r hr]
    · intro a b
      rw [hsim' a b, hsim a b, hse]
      by_cases hb : b < n
      · by_cases ha : a = m
        · subst ha
          rw [if_pos ⟨rfl, hb⟩, if_pos ⟨Nat.lt_succ_self a, hb⟩]
        · rw [if_neg (fun h => ha h.1)]
          by_cases ham : a < m
          · rw [if_pos ⟨ham, hb⟩, if_pos ⟨by omega, hb⟩]
          · rw [if_neg (fun h => ham h.1), if_neg (fun h => by omega)]
      · rw [if_neg (fun h => hb h.2), if_neg (fun h => hb h.2), if_neg (fun h => hb h.2)]

theorem getD_replicate_length {α : Type} (n r : Nat) (x : α) (hr : r < n) :
    ((List.replicate n (List.replicate n x)).getD r []).length = n := by
  rw [List.getD_eq_getElem _ _ (by simpa using hr)]
  simp

/-- The strokes and the matrix that `calculateSimilartyMap` returns, entry by entry. -/
theorem calculateSimilartyMap_spec (sqrt : R → R) (params : stParameters)
    (keyPresses : stKeyPressCollection R) :
    SameGeom keyPresses.presses (calculateSimilartyMap sqrt params keyPresses).1.presses ∧
    (calculateSimilartyMap sqrt params keyPresses).1.nClusters = keyPresses.nClusters ∧
    (∀ t, t < keyPresses.presses.length →
      (kpAt (calculateSimilartyMap sqrt params keyPresses).1.presses t).ccAvg =
        ((kpAt keyPresses.presses t).ccAvg +
            rowSum sqrt params keyPresses.presses t keyPresses.presses.length) /
          (((keyPresses.presses.length : Int) - 1 : Int) : R)) ∧
    (calculateSimilartyMap sqrt params keyPresses).2.length = keyPresses.presses.length ∧
    (∀ r, r < keyPresses.presses.length →
      ((calculateSimilartyMap sqrt params keyPresses).2.getD r []).length =
        keyPresses.presses.length) ∧
    (∀ a b, a < keyPresses.presses.length → b < keyPresses.presses.length →
      simAt (calculateSimilartyMap sqrt params keyPresses).2 a b =
        simEntry sqrt params keyPresses.presses a b) := by
  obtain ⟨hg, _, havg, hlen, hrows, hsim⟩ :=
    similarityOuter_fold sqrt params keyPresses.presses.length
      { keyPresses := keyPresses.presses,
        res := List.replicate keyPresses.presses.length
          (List.replicate keyPresses.presses.length { cc := 0, offset := 0 }) }
      rfl (by simp) (fun r hr => getD_replicate_length _ r _ hr)
      keyPresses.presses.length (le_refl _)
  refine ⟨hg, rfl, havg, hlen, hrows, fun a b ha hb => ?_⟩
  have := hsim a b
  rw [if_pos ⟨ha, hb⟩] at this
  exact this

end SimilarityOuter

/-! ### C3, C4: the similarity matrix and the average correlation -/

section SimilarityClaims
variable {R : Type} [LinearOrderedField R]

/-- The correlation that `findBestCC` returns lies in `[-1, 1]`, on buffers of samples
small enough for no product to wrap. -/
theorem findBestCC_abs_le_one (sqrt : R → R) (hsqrt : IsSqrt sqrt) (v0 v1 : stWaveformView)
    (A : Int) (hs0 : SmallSamples v0.buf) (hs1 : SmallSamples v1.buf) :
    |(findBestCC sqrt v0 v1 A).1| ≤ 1 := by
  rcases findBestCC_cases sqrt v0 v1 A with ⟨_, hr⟩ | ⟨ostar, _, c, hc, _, hr, _⟩
  · rw [hr]; simp
  · rw [hr]
    exact calcCC_abs_le_one sqrt hsqrt v0 (v1.shift (ostar : Int) v0.n) (le_of_eq rfl)
      (smallSamples_window v0 hs0 _) (smallSamples_window (v1.shift (ostar : Int) v0.n) hs1 _)
      c hc

theorem twoStrokes_small (R : Type) [LinearOrderedField R] (a : R) :
    ∀ e ∈ (twoStrokes R a).presses, SmallSamples e.waveform.buf := by
  intro e he
  have hb : e.waveform.buf = twoTemplates := by
    unfold twoStrokes at he
    simp only [List.mem_cons, List.mem_singleton, List.not_mem_nil, or_false] at he
    rcases he with rfl | rfl <;> rfl
  rw [hb]
  decide

/-- What `calculateSimilartyMap` leaves in `ccAvg`: the mean of the row off the diagonal
plus the value that `ccAvg` held before the call divided by `n - 1`; the accumulator is
the field itself and is not reset. -/
theorem calculateSimilartyMap_ccAvg (sqrt : R → R) (params : stParameters)
    (keyPresses : stKeyPressCollection R) (i : Nat) (hi : i < keyPresses.presses.length) :
    (kpAt (calculateSimilartyMap sqrt params keyPresses).1.presses i).ccAvg =
      (kpAt keyPresses.presses i).ccAvg / ((keyPresses.presses.length : R) - 1) +
        rowMean (calculateSimilartyMap sqrt params keyPresses).2 keyPresses.presses.length i := by
  obtain ⟨_, _, havg, _, _, hsim⟩ := calculateSimilartyMap_spec sqrt params keyPresses
  rw [havg i hi]
  have hsum : rowMean (calculateSimilartyMap sqrt params keyPresses).2
      keyPresses.presses.length i =
      rowSum sqrt params keyPresses.presses i keyPresses.presses.length /
        ((keyPresses.presses.length : R) - 1) := by
    unfold rowMean rowSum
    congr 1
    apply Finset.sum_congr rfl
    intro j hj
    rw [Finset.mem_filter, Finset.mem_range] at hj
    rw [hsim i j hi hj.1]
    unfold simEntry
    rw [if_neg hj.2]
  rw [hsum]
  push_cast
  ring

/-- C4, the code at a failing input: the two strokes of `twoStrokes` with `ccAvg = 1` before
the call (as an earlier run leaves them).  After the call `ccAvg` of stroke 0 is the mean
of row 0 off the diagonal plus `1`, not that mean. -/
theorem calculateSimilartyMap_ccAvg_accumulates :
    (kpAt (calculateSimilartyMap Real.sqrt smallParams (twoStrokes ℝ 1)).1.presses 0).ccAvg =
      rowMean (calculateSimilartyMap Real.sqrt smallParams (twoStrokes ℝ 1)).2 2 0 + 1 ∧
    (kpAt (calculateSimilartyMap Real.sqrt smallParams (twoStrokes ℝ 1)).1.presses 0).ccAvg ≠
      rowMean (calculateSimilartyMap Real.sqrt smallParams (twoStrokes ℝ 1)).2 2 0 := by
  have h := calculateSimilartyMap_ccAvg Real.sqrt smallParams (twoStrokes ℝ 1) 0 (by decide)
  have e : (kpAt (twoStrokes ℝ 1).presses 0).ccAvg = 1 := rfl
  have l : (twoStrokes ℝ 1).presses.length = 2 := rfl
  rw [e, l] at h
  have h' : (kpAt (calculateSimilartyMap Real.sqrt smallParams (twoStrokes ℝ 1)).1.presses
      0).ccAvg =
      rowMean (calculateSimilartyMap Real.sqrt smallParams (twoStrokes ℝ 1)).2 2 0 + 1 := by
    rw [h]; norm_num; ring
  refine ⟨h', ?_⟩
  rw [h']
  intro hc
  linarith

end SimilarityClaims

/-! ### `clusterG`: the number of clusters -/

section ClusterCount
variable {R : Type} [LinearOrderedField R]

theorem mem_ccPairs (sim : TSimilarityMap R) (n : Nat) (p : Pair R) (hp : p ∈ ccPairs sim n) :
    p.i < p.j ∧ p.j < n ∧ p.cc = (simAt sim p.i p.j).cc := by
  unfold ccPairs at hp
  rw [List.mem_flatMap] at hp
  obtain ⟨i, hi, hp⟩ := hp
  rw [List.mem_map] at hp
  obtain ⟨j, hj, rfl⟩ := hp
  rw [List.mem_range'_1] at hj
  rw [List.mem_range] at hi
  exact ⟨by show i < j; omega, by show j < n; omega, rfl⟩

theorem kpAt_mem (kp : List (stKeyPressData R)) (i : Nat) (hi : i < kp.length) :
    kpAt kp i ∈ kp := by
  unfold kpAt
  rw [List.getD_eq_getElem _ _ hi]
  exact List.getElem_mem _

theorem cidAt_mem (kp : List (stKeyPressData R)) (i : Nat) (hi : i < kp.length) :
    cidAt kp i ∈ (kp.map (fun e => e.cid)).toFinset := by
  rw [List.mem_toFinset, List.mem_map]
  exact ⟨kpAt kp i, kpAt_mem kp i hi, rfl⟩

theorem relabel_length (kp : List (stKeyPressData R)) (ci cj cnew : Int) :
    (relabel kp ci cj cnew).length = kp.length := by
  simp [relabel]

theorem relabel_map_cid (kp : List (stKeyPressData R)) (ci cj cnew : Int) :
    (relabel kp ci cj cnew).map (fun e => e.cid) =
      (kp.map (fun e => e.cid)).map (fun c => if c = ci ∨ c = cj then cnew else c) := by
  unfold relabel
  rw [List.map_map, List.map_map]
  apply List.map_congr_left
  intro e _
  simp only [Function.comp]
  split_ifs <;> rfl

/-- Relabelling two distinct labels that both occur to the smaller one removes exactly one
label: the larger one. -/
theorem relabel_toFinset (l : List Int) (ci cj : Int) (hi : ci ∈ l.toFinset)
    (hj : cj ∈ l.toFinset) (hne : ci ≠ cj) :
    (l.map (fun c => if c = ci ∨ c = cj then min ci cj else c)).toFinset =
      l.toFinset.erase (max ci cj) := by
  ext x
  simp only [List.mem_toFinset, List.mem_map, Finset.mem_erase]
  rw [List.mem_toFinset] at hi hj
  constructor
  · rintro ⟨c, hc, rfl⟩
    split_ifs with h
    · refine ⟨?_, ?_⟩
      · rcases le_total ci cj with h1 | h1
        · rw [min_eq_left h1, max_eq_right h1]; exact hne
        · rw [min_eq_right h1, max_eq_left h1]; exact fun e => hne e.symm
      · rcases le_total ci cj with h1 | h1
        · rw [min_eq_left h1]; exact hi
        · rw [min_eq_right h1]; exact hj
    · refine ⟨?_, hc⟩
      rcases le_total ci cj with h1 | h1
      · rw [max_eq_right h1]; exact fun e => h (Or.inr e)
      · rw [max_eq_left h1]; exact fun e => h (Or.inl e)
  · rintro ⟨hx, hxs⟩
    refine ⟨x, hxs, ?_⟩
    split_ifs with h
    · rcases le_total ci cj with h1 | h1
      · rw [min_eq_left h1]
        rw [max_eq_right h1] at hx
        rcases h with h | h
        · exact h.symm
        · exact absurd h hx
      · rw [min_eq_right h1]
        rw [max_eq_left h1] at hx
        rcases h with h | h
        · exact absurd h hx
        · exact h.symm
    · rfl

theorem distinctCids_relabel (kp : List (stKeyPressData R)) (i j : Nat) (hi : i < kp.length)
    (hj : j < kp.length) (hne : cidAt kp i ≠ cidAt kp j) :
    ((distinctCids (relabel kp (cidAt kp i) (cidAt kp j)
      (min (cidAt kp i) (cidAt kp j))) : Nat) : Int) = (distinctCids kp : Int) - 1 := by
  unfold distinctCids
  rw [relabel_map_cid, relabel_toFinset _ _ _ (cidAt_mem kp i hi) (cidAt_mem kp j hj) hne]
  have hmem : max (cidAt kp i) (cidAt kp j) ∈ (kp.map (fun e => e.cid)).toFinset := by
    rcases le_total (cidAt kp i) (cidAt kp j) with h1 | h1
    · rw [max_eq_right h1]; exact cidAt_mem kp j hj
    · rw [max_eq_left h1]; exact cidAt_mem kp i hi
  rw [Finset.card_erase_of_mem hmem]
  have hpos : 0 < (kp.map (fun e => e.cid)).toFinset.card := Finset.card_pos.2 ⟨_, hmem⟩
  omega

/-- The pair loop keeps `nclusters` equal to the number of distinct labels. -/
theorem clusterLoop_count (sim : TSimilarityMap R) (threshold : R) (n : Nat) :
    ∀ (pairs : List (Pair R)) (st : List (stKeyPressData R) × Int),
      (∀ p ∈ pairs, p.i < n ∧ p.j < n) → st.1.length = n → (distinctCids st.1 : Int) = st.2 →
      (clusterLoop sim threshold n pairs st).1.length = n ∧
      (distinctCids (clusterLoop sim threshold n pairs st).1 : Int) =
        (clusterLoop sim threshold n pairs st).2
  | [], st, _, hlen, hcount => ⟨hlen, hcount⟩
  | p :: ps, st, hp, hlen, hcount => by
    have hps : ∀ q ∈ ps, q.i < n ∧ q.j < n := fun q hq => hp q (List.mem_cons_of_mem _ hq)
    have hpi := hp p (List.mem_cons_self _ _)
    unfold clusterLoop
    simp only []
    split_ifs with h1 h2 h3
    · exact ⟨hlen, hcount⟩
    · exact clusterLoop_count sim threshold n ps st hps hlen hcount
    · apply clusterLoop_count sim threshold n ps _ hps
      · rw [relabel_length]; exact hlen
      · rw [distinctCids_relabel st.1 p.i p.j (by rw [hlen]; exact hpi.1)
          (by rw [hlen]; exact hpi.2) h2, hcount]
    · exact clusterLoop_count sim threshold n ps st hps hlen hcount

/-- When the first pair is below the threshold, or there is no pair, nothing changes. -/
theorem clusterLoop_all_below (sim : TSimilarityMap R) (threshold : R) (n : Nat)
    (pairs : List (Pair R)) (st : List (stKeyPressData R) × Int)
    (h : ∀ p ∈ pairs, p.cc < threshold) : clusterLoop sim threshold n pairs st = st := by
  cases pairs with
  | nil => rfl
  | cons p ps =>
    unfold clusterLoop
    rw [if_pos (h p (List.mem_cons_self _ _))]

theorem initCids_length (kp : List (stKeyPressData R)) : (initCids kp).length = kp.length := by
  simp [initCids]

theorem initCids_map_cid (kp : List (stKeyPressData R)) :
    (initCids kp).map (fun e => e.cid) = (List.range kp.length).map (fun (i : Nat) => (i : Int) + 1) := by
  unfold initCids
  apply List.ext_getElem
  · simp
  · intro i h1 h2
    simp

theorem distinctCids_initCids (kp : List (stKeyPressData R)) :
    distinctCids (initCids kp) = kp.length := by
  unfold distinctCids
  rw [initCids_map_cid, List.toFinset_card_of_nodup]
  · simp
  · apply List.Nodup.map _ (List.nodup_range _)
    intro a b hab
    simpa using hab

/-- Claim C7. For every similarity matrix, stroke collection of `n` strokes and threshold,
and whatever order `std::sort` leaves the pairs in, after `clusterG` the number of
distinct `clusterId` values among the strokes equals `nClusters`; and if no pair `i < j`
has `matrix[i][j].cc >= threshold` then `nClusters = n`. -/
theorem clusterG_nClusters (sim : TSimilarityMap R) (keyPresses : stKeyPressCollection R)
    (threshold : R) (sorted : List (Pair R))
    (hperm : sorted.Perm (ccPairs sim keyPresses.presses.length)) :
    (distinctCids (clusterGFrom sorted sim keyPresses threshold).presses : Int) =
      (clusterGFrom sorted sim keyPresses threshold).nClusters ∧
    ((∀ i j, i < j → j < keyPresses.presses.length → ¬ (simAt sim i j).cc ≥ threshold) →
      (clusterGFrom sorted sim keyPresses threshold).nClusters = keyPresses.presses.length) := by
  have hmem : ∀ p ∈ sorted, p.i < p.j ∧ p.j < keyPresses.presses.length ∧
      p.cc = (simAt sim p.i p.j).cc :=
    fun p hp => mem_ccPairs sim _ p (hperm.subset hp)
  constructor
  · have h := clusterLoop_count sim threshold keyPresses.presses.length sorted
      (initCids keyPresses.presses, (keyPresses.presses.length : Int))
      (fun p hp => ⟨lt_trans (hmem p hp).1 (hmem p hp).2.1, (hmem p hp).2.1⟩)
      (initCids_length _) (by simp [distinctCids_initCids])
    exact h.2
  · intro hall
    unfold clusterGFrom
    simp only []
    rw [clusterLoop_all_below]
    intro p hp
    obtain ⟨h1, h2, h3⟩ := hmem p hp
    rw [h3]
    exact not_le.1 (hall p.i p.j h1 h2)

end ClusterCount

/-! ### `clusterG`: the cohesion test -/

section Cohesion
variable {R : Type} [LinearOrderedField R]

theorem foldl_flatMap_map {α β γ : Type} (f : γ → α × β → γ) (l2 : List β) :
    ∀ (l1 : List α) (c : γ),
      (l1.flatMap (fun k => l2.map (fun q => (k, q)))).foldl f c =
        l1.foldl (fun acc k => l2.foldl (fun acc q => f acc (k, q)) acc) c
  | [], _ => rfl
  | a :: l1, c => by
    rw [List.flatMap_cons, List.foldl_append, List.foldl_map, List.foldl_cons,
      foldl_flatMap_map f l2 l1]

theorem mergeSums_eq_foldl (sim : TSimilarityMap R) (kp : List (stKeyPressData R)) (n : Nat)
    (ci cj : Int) :
    mergeSums sim kp n ci cj =
      (allPairs n).foldl (fun acc kq => mergeSumsStep sim kp ci cj kq.1 acc kq.2)
        { nsum := 0, nsumi := 0, nsumj := 0, sumcc := 0, sumcci := 0, sumccj := 0 } := by
  unfold mergeSums allPairs
  rw [foldl_flatMap_map]

/-- A field of the state that every step increases by `d x` ends as the initial value plus
the sum of the increments. -/
theorem foldl_proj_sum {σ α M : Type} [AddCommMonoid M] (step : σ → α → σ) (proj : σ → M)
    (d : α → M) (h : ∀ s x, proj (step s x) = proj s + d x) :
    ∀ (L : List α) (s : σ), proj (L.foldl step s) = proj s + (L.map d).sum
  | [], s => by simp
  | x :: L, s => by
    rw [List.foldl_cons, foldl_proj_sum step proj d h L, h, List.map_cons, List.sum_cons,
      add_assoc]

theorem sum_map_ite_eq_filter {α M : Type} [AddCommMonoid M] (p : α → Prop) [DecidablePred p]
    (c : α → M) :
    ∀ L : List α, (L.map (fun x => if p x then c x else 0)).sum =
      ((L.filter (fun x => decide (p x))).map c).sum
  | [] => rfl
  | x :: L => by
    rw [List.map_cons, List.sum_cons, sum_map_ite_eq_filter p c L, List.filter_cons]
    by_cases h : p x
    · simp [h]
    · simp [h]

theorem sum_map_ite_one_eq_length {α : Type} (p : α → Prop) [DecidablePred p] :
    ∀ L : List α, (L.map (fun x => if p x then (1 : Int) else 0)).sum =
      ((L.filter (fun x => decide (p x))).length : Int)
  | [] => rfl
  | x :: L => by
    rw [List.map_cons, List.sum_cons, sum_map_ite_one_eq_length p L, List.filter_cons]
    by_cases h : p x
    · simp [h]; ring
    · simp [h]

/-- The loop body adds `sim[k][q].cc` and `1` to the accumulators whose condition holds. -/
theorem mergeSumsStep_eq (sim : TSimilarityMap R) (kp : List (stKeyPressData R)) (ci cj : Int)
    (k q : Nat) (acc : MergeSums R) :
    mergeSumsStep sim kp ci cj k acc q =
      { nsum := acc.nsum + (if q ≠ k ∧ (cidAt kp k = ci ∨ cidAt kp k = cj) ∧
            (cidAt kp q = ci ∨ cidAt kp q = cj) then 1 else 0),
        nsumi := acc.nsumi + (if q ≠ k ∧ cidAt kp k = ci ∧ cidAt kp q = ci then 1 else 0),
        nsumj := acc.nsumj + (if q ≠ k ∧ cidAt kp k = cj ∧ cidAt kp q = cj then 1 else 0),
        sumcc := acc.sumcc + (if q ≠ k ∧ (cidAt kp k = ci ∨ cidAt kp k = cj) ∧
            (cidAt kp q = ci ∨ cidAt kp q = cj) then (simAt sim k q).cc else 0),
        sumcci := acc.sumcci +
          (if q ≠ k ∧ cidAt kp k = ci ∧ cidAt kp q = ci then (simAt sim k q).cc else 0),
        sumccj := acc.sumccj +
          (if q ≠ k ∧ cidAt kp k = cj ∧ cidAt kp q = cj then (simAt sim k q).cc else 0) } := by
  unfold mergeSumsStep
  obtain ⟨a1, a2, a3, a4, a5, a6⟩ := acc
  by_cases hqk : q = k
  · simp [hqk]
  · have hqk' : q ≠ k := hqk
    simp only [hqk, hqk', if_false, true_and, ne_eq, not_false_eq_true]
    by_cases hu : (cidAt kp k = ci ∨ cidAt kp k = cj) ∧ (cidAt kp q = ci ∨ cidAt kp q = cj)
    · by_cases hi : cidAt kp k = ci ∧ cidAt kp q = ci
      · by_cases hj : cidAt kp k = cj ∧ cidAt kp q = cj
        · simp only [if_pos hu, if_pos hi, if_pos hj]
        · simp only [if_pos hu, if_pos hi, if_neg hj, add_zero]
      · by_cases hj : cidAt kp k = cj ∧ cidAt kp q = cj
        · simp only [if_pos hu, if_neg hi, if_pos hj, add_zero]
        · simp only [if_pos hu, if_neg hi, if_neg hj, add_zero]
    · have hi : ¬ (cidAt kp k = ci ∧ cidAt kp q = ci) :=
        fun h => hu ⟨Or.inl h.1, Or.inl h.2⟩
      have hj : ¬ (cidAt kp k = cj ∧ cidAt kp q = cj) :=
        fun h => hu ⟨Or.inr h.1, Or.inr h.2⟩
      simp only [if_neg hu, if_neg hi, if_neg hj, add_zero]

/-- The accumulators after the double loop: counts and sums over the pair lists. -/
theorem mergeSums_spec (sim : TSimilarityMap R) (kp : List (stKeyPressData R)) (n : Nat)
    (ci cj : Int) :
    (mergeSums sim kp n ci cj).nsum = ((unionPairs kp n ci cj).length : Int) ∧
    (mergeSums sim kp n ci cj).sumcc =
      ((unionPairs kp n ci cj).map (fun kq => (simAt sim kq.1 kq.2).cc)).sum ∧
    (mergeSums sim kp n ci cj).nsumi = ((withinPairs kp n ci).length : Int) ∧
    (mergeSums sim kp n ci cj).sumcci =
      ((withinPairs kp n ci).map (fun kq => (simAt sim kq.1 kq.2).cc)).sum ∧
    (mergeSums sim kp n ci cj).nsumj = ((withinPairs kp n cj).length : Int) ∧
    (mergeSums sim kp n ci cj).sumccj =
      ((withinPairs kp n cj).map (fun kq => (simAt sim kq.1 kq.2).cc)).sum := by
  rw [mergeSums_eq_foldl]
  unfold unionPairs withinPairs
  refine ⟨?_, ?_, ?_, ?_, ?_, ?_⟩
  · have h := foldl_proj_sum
      (fun (acc : MergeSums R) (kq : Nat × Nat) => mergeSumsStep sim kp ci cj kq.1 acc kq.2)
      (fun s => s.nsum)
      (fun kq => if kq.2 ≠ kq.1 ∧ (cidAt kp kq.1 = ci ∨ cidAt kp kq.1 = cj) ∧
        (cidAt kp kq.2 = ci ∨ cidAt kp kq.2 = cj) then (1 : Int) else 0)
      (fun s x => by simp only [mergeSumsStep_eq]) (allPairs n)
      { nsum := 0, nsumi := 0, nsumj := 0, sumcc := 0, sumcci := 0, sumccj := 0 }
    rw [sum_map_ite_one_eq_length] at h
    simpa using h
  · have h := foldl_proj_sum
      (fun (acc : MergeSums R) (kq : Nat × Nat) => mergeSumsStep sim kp ci cj kq.1 acc kq.2)
      (fun s => s.sumcc)
      (fun kq => if kq.2 ≠ kq.1 ∧ (cidAt kp kq.1 = ci ∨ cidAt kp kq.1 = cj) ∧
        (cidAt kp kq.2 = ci ∨ cidAt kp kq.2 = cj) then (simAt sim kq.1 kq.2).cc else 0)
      (fun s x => by simp only [mergeSumsStep_eq]) (allPairs n)
      { nsum := 0, nsumi := 0, nsumj := 0, sumcc := 0, sumcci := 0, sumccj := 0 }
    rw [sum_map_ite_eq_filter] at h
    simpa using h
  · have h := foldl_proj_sum
      (fun (acc : MergeSums R) (kq : Nat × Nat) => mergeSumsStep sim kp ci cj kq.1 acc kq.2)
      (fun s => s.nsumi)
      (fun kq => if kq.2 ≠ kq.1 ∧ cidAt kp kq.1 = ci ∧ cidAt kp kq.2 = ci then (1 : Int) else 0)
      (fun s x => by simp only [mergeSumsStep_eq]) (allPairs n)
      { nsum := 0, nsumi := 0, nsumj := 0, sumcc := 0, sumcci := 0, sumccj := 0 }
    rw [sum_map_ite_one_eq_length] at h
    simpa using h
  · have h := foldl_proj_sum
      (fun (acc : MergeSums R) (kq : Nat × Nat) => mergeSumsStep sim kp ci cj kq.1 acc kq.2)
      (fun s => s.sumcci)
      (fun kq => if kq.2 ≠ kq.1 ∧ cidAt kp kq.1 = ci ∧ cidAt kp kq.2 = ci then (simAt sim kq.1 kq.2).cc else 0)
      (fun s x => by simp only [mergeSumsStep_eq]) (allPairs n)
      { nsum := 0, nsumi := 0, nsumj := 0, sumcc := 0, sumcci := 0, sumccj := 0 }
    rw [sum_map_ite_eq_filter] at h
    simpa using h
  · have h := foldl_proj_sum
      (fun (acc : MergeSums R) (kq : Nat × Nat) => mergeSumsStep sim kp ci cj kq.1 acc kq.2)
      (fun s => s.nsumj)
      (fun kq => if kq.2 ≠ kq.1 ∧ cidAt kp kq.1 = cj ∧ cidAt kp kq.2 = cj then (1 : Int) else 0)
      (fun s x => by simp only [mergeSumsStep_eq]) (allPairs n)
      { nsum := 0, nsumi := 0, nsumj := 0, sumcc := 0, sumcci := 0, sumccj := 0 }
    rw [sum_map_ite_one_eq_length] at h
    simpa using h
  · have h := foldl_proj_sum
      (fun (acc : MergeSums R) (kq : Nat × Nat) => mergeSumsStep sim kp ci cj kq.1 acc kq.2)
      (fun s => s.sumccj)
      (fun kq => if kq.2 ≠ kq.1 ∧ cidAt kp kq.1 = cj ∧ cidAt kp kq.2 = cj then (simAt sim kq.1 kq.2).cc else 0)
      (fun s x => by simp only [mergeSumsStep_eq]) (allPairs n)
      { nsum := 0, nsumi := 0, nsumj := 0, sumcc := 0, sumcci := 0, sumccj := 0 }
    rw [sum_map_ite_eq_filter] at h
    simpa using h

end Cohesion

section CohesionClaims
variable {R : Type} [LinearOrderedField R]

theorem mem_allPairs (n k q : Nat) (hk : k < n) (hq : q < n) : (k, q) ∈ allPairs n := by
  unfold allPairs
  rw [List.mem_flatMap]
  exact ⟨k, List.mem_range.2 hk, List.mem_map.2 ⟨q, List.mem_range.2 hq, rfl⟩⟩

/-- The three averages that the cohesion test compares. -/
theorem mergeAccepted_iff_avg (sim : TSimilarityMap R) (kp : List (stKeyPressData R)) (n : Nat)
    (ci cj : Int) :
    mergeAccepted sim kp n ci cj ↔
      avgCC sim (unionPairs kp n ci cj) >
        2 / 5 * (avgCC sim (withinPairs kp n ci) + avgCC sim (withinPairs kp n cj)) := by
  obtain ⟨h1, h2, h3, h4, h5, h6⟩ := mergeSums_spec sim kp n ci cj
  have hU : (mergeSums sim kp n ci cj).sumcc / ((mergeSums sim kp n ci cj).nsum : R) =
      avgCC sim (unionPairs kp n ci cj) := by
    rw [h1, h2]
    unfold avgCC
    split_ifs with h0
    · rw [h0]; simp
    · simp
  have hW : ∀ (cnt : Int) (sum : R) (P : List (Nat × Nat)), cnt = (P.length : Int) →
      sum = (P.map (fun kq => (simAt sim kq.1 kq.2).cc)).sum →
      (if cnt > 0 then sum / (cnt : R) else sum) = avgCC sim P := by
    intro cnt sum P hc hs
    subst hc; subst hs
    unfold avgCC
    by_cases h0 : P.length = 0
    · rw [if_pos h0, if_neg (by omega)]
      rw [List.length_eq_zero] at h0
      rw [h0]; simp
    · rw [if_neg h0, if_pos (by omega)]
      simp
  unfold mergeAccepted
  simp only []
  rw [hU, hW _ _ _ h3 h4, hW _ _ _ h5 h6]

/-- Claim C8 (amended). In `clusterG`, evaluated in exact arithmetic (the sums and
averages exact, the constant `0.4` taken as `2/5`), for every pair `(i, j)` reached with
`cc >= threshold` and `clusterId[i] != clusterId[j]`, the merge is accepted if and only if
`sumcc > 0.4*(sumcci + sumccj)`, where `sumcci` and `sumccj` are the averages of
`matrix[k][q].cc` over distinct `k`, `q` inside `C_i` and inside `C_j` (`0` for a
singleton), and `sumcc` is the average of `matrix[k][q].cc` over all distinct `k`, `q` in
`C_i ∪ C_j`, the pairs inside `C_i` and inside `C_j` included (at least two pairs, so the
division is defined). -/
theorem clusterLoop_merge_iff (sim : TSimilarityMap R) (threshold : R) (n : Nat) (p : Pair R)
    (rest : List (Pair R)) (st : List (stKeyPressData R) × Int) (hi : p.i < n) (hj : p.j < n)
    (hcc : p.cc ≥ threshold) (hne : cidAt st.1 p.i ≠ cidAt st.1 p.j) :
    0 < (mergeSums sim st.1 n (cidAt st.1 p.i) (cidAt st.1 p.j)).nsum ∧
    (mergeAccepted sim st.1 n (cidAt st.1 p.i) (cidAt st.1 p.j) ↔
      avgCC sim (unionPairs st.1 n (cidAt st.1 p.i) (cidAt st.1 p.j)) >
        2 / 5 * (avgCC sim (withinPairs st.1 n (cidAt st.1 p.i)) +
          avgCC sim (withinPairs st.1 n (cidAt st.1 p.j)))) ∧
    clusterLoop sim threshold n (p :: rest) st =
      if avgCC sim (unionPairs st.1 n (cidAt st.1 p.i) (cidAt st.1 p.j)) >
          2 / 5 * (avgCC sim (withinPairs st.1 n (cidAt st.1 p.i)) +
            avgCC sim (withinPairs st.1 n (cidAt st.1 p.j)))
      then clusterLoop sim threshold n rest
        (relabel st.1 (cidAt st.1 p.i) (cidAt st.1 p.j)
          (min (cidAt st.1 p.i) (cidAt st.1 p.j)), st.2 - 1)
      else clusterLoop sim threshold n rest st := by
  have hiff := mergeAccepted_iff_avg sim st.1 n (cidAt st.1 p.i) (cidAt st.1 p.j)
  refine ⟨?_, hiff, ?_⟩
  · rw [(mergeSums_spec sim st.1 n (cidAt st.1 p.i) (cidAt st.1 p.j)).1]
    have hmem : (p.i, p.j) ∈ unionPairs st.1 n (cidAt st.1 p.i) (cidAt st.1 p.j) := by
      unfold unionPairs
      rw [List.mem_filter]
      refine ⟨mem_allPairs n p.i p.j hi hj, ?_⟩
      rw [decide_eq_true_eq]
      refine ⟨fun e => hne ?_, Or.inl rfl, Or.inr rfl⟩
      have e' : p.j = p.i := e
      rw [e']
    have := List.length_pos_of_mem hmem
    exact_mod_cast this
  · conv_lhs => unfold clusterLoop
    simp only []
    rw [if_neg (not_lt.2 hcc), if_neg hne]
    by_cases hacc : mergeAccepted sim st.1 n (cidAt st.1 p.i) (cidAt st.1 p.j)
    · rw [if_pos hacc, if_pos (hiff.1 hacc)]
    · rw [if_neg hacc, if_neg (fun h => hacc (hiff.2 h))]

/-- Counterexample to C8 as stated (the cross-block average): three strokes with the
matrix `threeSim`, threshold `0.5`.  After the first pair `(0, 1)` is merged the labels
are `[1, 1, 3]`; for the next pair `(0, 2)` (`cc = 0.6`) the source accepts the merge,
although the cross-block average `0.3` does not exceed `0.4 * (1 + 0)`; the run ends with
one cluster. -/
theorem clusterG_cross_block_average_fails :
    ((clusterLoop threeSim (1 / 2) 3 ((sortPairs (ccPairs threeSim 3)).take 1)
        (initCids threeStrokes.presses, 3)).1.map (fun e => e.cid) = [1, 1, 3] ∧
      ((sortPairs (ccPairs threeSim 3)).drop 1).map (fun p => (p.i, p.j, p.cc)) =
        [(0, 2, 3 / 5), (1, 2, 0)]) ∧
    mergeAccepted threeSim
      (clusterLoop threeSim (1 / 2) 3 ((sortPairs (ccPairs threeSim 3)).take 1)
        (initCids threeStrokes.presses, 3)).1 3 1 3 ∧
    ¬ (avgCC threeSim (crossPairs
        (clusterLoop threeSim (1 / 2) 3 ((sortPairs (ccPairs threeSim 3)).take 1)
          (initCids threeStrokes.presses, 3)).1 3 1 3) >
      2 / 5 * (avgCC threeSim (withinPairs
        (clusterLoop threeSim (1 / 2) 3 ((sortPairs (ccPairs threeSim 3)).take 1)
          (initCids threeStrokes.presses, 3)).1 3 1) +
        avgCC threeSim (withinPairs
          (clusterLoop threeSim (1 / 2) 3 ((sortPairs (ccPairs threeSim 3)).take 1)
            (initCids threeStrokes.presses, 3)).1 3 3))) ∧
    (clusterG threeSim threeStrokes (1 / 2)).presses.map (fun e => e.cid) = [1, 1, 1] := by
  decide!

/-- Witness for the amended C8: the pair `(0, 2)` of the run above. -/
theorem clusterLoop_merge_iff_witness :
    0 < (mergeSums threeSim (relabel (initCids threeStrokes.presses) 1 2 1) 3 1 3).nsum ∧
    (mergeAccepted threeSim (relabel (initCids threeStrokes.presses) 1 2 1) 3 1 3 ↔
      avgCC threeSim (unionPairs (relabel (initCids threeStrokes.presses) 1 2 1) 3 1 3) >
        2 / 5 * (avgCC threeSim (withinPairs (relabel (initCids threeStrokes.presses) 1 2 1) 3 1) +
          avgCC threeSim (withinPairs (relabel (initCids threeStrokes.presses) 1 2 1) 3 3))) :=
  ⟨(clusterLoop_merge_iff threeSim (1 / 2) 3 { i := 0, j := 2, cc := 3 / 5 } []
      (relabel (initCids threeStrokes.presses) 1 2 1, 2) (by decide) (by decide) (by decide!)
      (by decide)).1,
   (clusterLoop_merge_iff threeSim (1 / 2) 3 { i := 0, j := 2, cc := 3 / 5 } []
      (relabel (initCids threeStrokes.presses) 1 2 1, 2) (by decide) (by decide) (by decide!)
      (by decide)).2.1⟩

/-- Witness for C7: two strokes with `cc = 0.4` and threshold `0.5` stay in two clusters. -/
theorem clusterG_nClusters_witness :
    (clusterG twoSim (twoStrokes ℚ 0) (1 / 2)).nClusters = 2 ∧
    (distinctCids (clusterG twoSim (twoStrokes ℚ 0) (1 / 2)).presses : Int) =
      (clusterG twoSim (twoStrokes ℚ 0) (1 / 2)).nClusters :=
  ⟨(clusterG_nClusters twoSim (twoStrokes ℚ 0) (1 / 2)
      (sortPairs (ccPairs twoSim (twoStrokes ℚ 0).presses.length))
      (List.perm_insertionSort _ _)).2
      (by
        intro i j hij hj
        have hj' : j < 2 := hj
        interval_cases j
        · omega
        · interval_cases i
          decide!),
   (clusterG_nClusters twoSim (twoStrokes ℚ 0) (1 / 2)
      (sortPairs (ccPairs twoSim (twoStrokes ℚ 0).presses.length))
      (List.perm_insertionSort _ _)).1⟩

end CohesionClaims

/-! ### `adjustKeyPresses` -/

section Adjust
variable {R : Type} [LinearOrderedField R]

theorem posAt_set (kp : List (stKeyPressData R)) (i t : Nat) (x : stKeyPressData R) :
    posAt (kp.set i x) t = if t = i ∧ i < kp.length then x.pos else posAt kp t := by
  unfold posAt
  rw [kpAt_set]
  split_ifs <;> rfl

/-- One adjustment from the same `used` flags moves the same stroke by the same amount. -/
theorem adjustStep_diff (sim : TSimilarityMap R) (p : Pair R) (st st' : AdjustState R)
    (hu : st.used = st'.used) (hn : st.nused = st'.nused)
    (hl : st.keyPresses.length = st'.keyPresses.length) :
    (adjustStep sim st p).used = (adjustStep sim st' p).used ∧
    (adjustStep sim st p).nused = (adjustStep sim st' p).nused ∧
    (adjustStep sim st p).keyPresses.length = st.keyPresses.length ∧
    (adjustStep sim st' p).keyPresses.length = st'.keyPresses.length ∧
    ∀ t, posAt (adjustStep sim st' p).keyPresses t - posAt (adjustStep sim st p).keyPresses t =
      posAt st'.keyPresses t - posAt st.keyPresses t := by
  unfold adjustStep
  simp only []
  rw [← hu, ← hn]
  refine ⟨rfl, rfl, ?_, ?_, ?_⟩
  · split_ifs <;> simp
  · split_ifs <;> simp
  · intro t
    by_cases h2 : st.used.getD p.j false = false
    · simp only [if_pos h2, posAt_set, hl]
      split_ifs with h
      · rw [h.1]; unfold posAt; ring
      · rfl
    · simp only [if_neg h2, posAt_set, hl]
      split_ifs with h
      · rw [h.1]; unfold posAt; ring
      · rfl

/-- Two runs of the pair loop that start from the same `used` flags and stroke vectors of
the same length move every stroke by the same amount. -/
theorem adjustLoop_diff (sim : TSimilarityMap R) (n : Nat) :
    ∀ (pairs : List (Pair R)) (st st' : AdjustState R),
      st.used = st'.used → st.nused = st'.nused →
      st.keyPresses.length = st'.keyPresses.length →
      (adjustLoop sim n pairs st).keyPresses.length = st.keyPresses.length ∧
      (adjustLoop sim n pairs st').keyPresses.length = st'.keyPresses.length ∧
      ∀ t, posAt (adjustLoop sim n pairs st').keyPresses t -
          posAt (adjustLoop sim n pairs st).keyPresses t =
        posAt st'.keyPresses t - posAt st.keyPresses t
  | [], st, st', _, _, _ => ⟨rfl, rfl, fun _ => rfl⟩
  | p :: ps, st, st', hu, hn, hl => by
    obtain ⟨hu2, hn2, hl2, hl2', hd⟩ := adjustStep_diff sim p st st' hu hn hl
    rw [adjustLoop, adjustLoop, ← hu, ← hn2]
    by_cases h1 : st.used.getD p.i false = true ∧ st.used.getD p.j false = true
    · rw [if_pos h1, if_pos h1]
      exact adjustLoop_diff sim n ps st st' hu hn hl
    · rw [if_neg h1, if_neg h1]
      by_cases hb : (adjustStep sim st p).nused = (n : Int)
      · rw [if_pos hb, if_pos hb]
        exact ⟨hl2, hl2', hd⟩
      · rw [if_neg hb, if_neg hb]
        obtain ⟨a, b, c⟩ := adjustLoop_diff sim n ps (adjustStep sim st p)
          (adjustStep sim st' p) hu2 hn2 (by rw [hl2, hl2', hl])
        exact ⟨a.trans hl2, b.trans hl2', fun t => (c t).trans (hd t)⟩

/-- Claim C9 (amended). The `used` flags are local to one call of `adjustKeyPresses`, so a
second call with the same matrix applies the same offsets again: it moves every stroke by
exactly the amount by which the first call moved it.  (It changes nothing only for
strokes that the first call did not move.) -/
theorem adjustKeyPresses_twice (keyPresses : stKeyPressCollection R) (sim : TSimilarityMap R)
    (t : Nat) :
    posAt (adjustKeyPresses (adjustKeyPresses keyPresses sim) sim).presses t -
        posAt (adjustKeyPresses keyPresses sim).presses t =
      posAt (adjustKeyPresses keyPresses sim).presses t - posAt keyPresses.presses t := by
  have h1 := adjustLoop_diff sim keyPresses.presses.length
    (sortPairs (ccPairs sim keyPresses.presses.length))
    { keyPresses := keyPresses.presses,
      used := List.replicate keyPresses.presses.length false, nused := 0 }
    { keyPresses := (adjustKeyPresses keyPresses sim).presses,
      used := List.replicate keyPresses.presses.length false, nused := 0 }
    rfl rfl
  have hlen : (adjustKeyPresses keyPresses sim).presses.length = keyPresses.presses.length :=
    (adjustLoop_diff sim keyPresses.presses.length
      (sortPairs (ccPairs sim keyPresses.presses.length))
      { keyPresses := keyPresses.presses,
        used := List.replicate keyPresses.presses.length false, nused := 0 }
      { keyPresses := keyPresses.presses,
        used := List.replicate keyPresses.presses.length false, nused := 0 }
      rfl rfl rfl).1
  obtain ⟨_, _, h⟩ := h1 hlen.symm
  have e2 : (adjustKeyPresses (adjustKeyPresses keyPresses sim) sim).presses =
      (adjustLoop sim keyPresses.presses.length
        (sortPairs (ccPairs sim keyPresses.presses.length))
        { keyPresses := (adjustKeyPresses keyPresses sim).presses,
          used := List.replicate keyPresses.presses.length false, nused := 0 }).keyPresses := by
    show (adjustLoop sim (adjustKeyPresses keyPresses sim).presses.length
        (sortPairs (ccPairs sim (adjustKeyPresses keyPresses sim).presses.length))
        { keyPresses := (adjustKeyPresses keyPresses sim).presses,
          used := List.replicate (adjustKeyPresses keyPresses sim).presses.length false,
          nused := 0 }).keyPresses = _
    rw [hlen]
  rw [e2]
  exact h t

/-- Counterexample to C9 as stated: two strokes at 10 and 35 and a matrix with offset `-5`.
The first call moves stroke 1 to 30, the second call moves it on to 25. -/
theorem adjustKeyPresses_not_idempotent :
    positions (adjustKeyPresses (twoStrokes ℚ 0) twoSim) = [10, 30] ∧
    positions (adjustKeyPresses (adjustKeyPresses (twoStrokes ℚ 0) twoSim) twoSim) = [10, 25] ∧
    positions (adjustKeyPresses (adjustKeyPresses (twoStrokes ℚ 0) twoSim) twoSim) ≠
      positions (adjustKeyPresses (twoStrokes ℚ 0) twoSim) := by
  decide!

end Adjust

/-! ### C10: offset refinement -/

section Refinement
variable {R : Type} [LinearOrderedField R]

theorem shift_samples (v : stWaveformView) (x len t : Int) :
    (v.shift x len).samples t = v.samples (x + t) := by
  unfold stWaveformView.samples stWaveformView.shift
  simp only [add_assoc]

theorem shift_shift (v : stWaveformView) (x y l1 l2 : Int) :
    (v.shift x l1).shift y l2 = v.shift (x + y) l2 := by
  unfold stWaveformView.shift
  simp only [add_assoc]

/-- A correlation of exactly one forces equality in the Cauchy-Schwarz inequality (samples
small enough for no product to wrap). -/
theorem calcCC_eq_one_imp (sqrt : R → R) (hsqrt : IsSqrt sqrt) (v0 v1 : stWaveformView)
    (h : v0.n ≤ v1.n) (hs0 : SmallWindow v0 v0.n) (hs1 : SmallWindow v1 v0.n) (hc : calcCC sqrt v0 v1 (calcSum v0).1 (calcSum v0).2 = some 1) :
    covN v0.n.toNat (fun i => v0.samples (i : Int)) (fun i => v1.samples (i : Int)) *
        covN v0.n.toNat (fun i => v0.samples (i : Int)) (fun i => v1.samples (i : Int)) =
      covN v0.n.toNat (fun i => v0.samples (i : Int)) (fun i => v0.samples (i : Int)) *
        covN v0.n.toNat (fun i => v1.samples (i : Int)) (fun i => v1.samples (i : Int)) := by
  rw [calcCC_eq_covN sqrt v0 v1 h hs0 hs1] at hc
  split_ifs at hc with hden
  simp only [Option.some.injEq] at hc
  obtain ⟨hs0, hs1⟩ := hsqrt _ (le_of_lt hden)
  have hspos : sqrt (((covN v0.n.toNat (fun i => v0.samples (i : Int))
                (fun i => v0.samples (i : Int)) : Int) : R) *
             ((covN v0.n.toNat (fun i => v1.samples (i : Int))
                (fun i => v1.samples (i : Int)) : Int) : R)) ≠ 0 := by
    intro h0
    rw [h0, mul_zero] at hs1
    rw [← hs1] at hden
    exact lt_irrefl _ hden
  rw [div_eq_one_iff_eq hspos] at hc
  rw [← hc] at hs1
  exact_mod_cast hs1

/-- When the window of `view1` at shift `d` equals the non-constant `view0`, no earlier
offset reaches correlation one and the samples are small enough for no product to wrap,
`findBestCC` returns `(1, d)`. -/
theorem findBestCC_exact_match (sqrt : R → R) (hsqrt : IsSqrt sqrt) (v0 v1 : stWaveformView)
    (A d : Int) (hd1 : -A ≤ d) (hd2 : d < A)
    (hs0 : SmallSamples v0.buf) (hs1 : SmallSamples v1.buf)
    (hx : ∃ i j : Int, 0 ≤ i ∧ i < v0.n ∧ 0 ≤ j ∧ j < v0.n ∧ v0.samples i ≠ v0.samples j)
    (hmatch : ∀ t : Int, 0 ≤ t → t < v0.n → (v1.shift (d + A) v0.n).samples t = v0.samples t)
    (hfirst : ∀ o : Nat, (o : Int) < d + A →
      calcCC sqrt v0 (v1.shift (o : Int) v0.n) (calcSum v0).1 (calcSum v0).2 ≠ some 1) :
    findBestCC sqrt v0 v1 A = (1, d) := by
  have hone : calcCC sqrt v0 (v1.shift (((d + A).toNat : Nat) : Int) v0.n)
      (calcSum v0).1 (calcSum v0).2 = some 1 := by
    have hcast : (((d + A).toNat : Nat) : Int) = d + A := Int.toNat_of_nonneg (by omega)
    rw [hcast]
    have := calcCC_affine sqrt hsqrt v0 (v1.shift (d + A) v0.n) 1 0 one_ne_zero rfl
      (smallSamples_window v0 hs0 _) (smallSamples_window (v1.shift (d + A) v0.n) hs1 _)
      (fun t h0 h1 => by rw [hmatch t h0 h1]; ring) hx
    rw [if_pos one_pos] at this
    exact this
  rcases findBestCC_cases sqrt v0 v1 A with ⟨hall, _⟩ | ⟨ostar, ho, c, hc, _, hr, hmax, hfst⟩
  · have := hall (d + A).toNat (by omega) 1 hone
    exact absurd this (by norm_num)
  · have hc1 : c ≤ 1 :=
      (abs_le.1 (calcCC_abs_le_one sqrt hsqrt v0 (v1.shift (ostar : Int) v0.n)
        (le_of_eq rfl) (smallSamples_window v0 hs0 _)
        (smallSamples_window (v1.shift (ostar : Int) v0.n) hs1 _) c hc)).2
    have h1c : 1 ≤ c := hmax (d + A).toNat (by omega) 1 hone
    have hceq : c = 1 := le_antisymm hc1 h1c
    subst hceq
    have hle : ostar ≤ (d + A).toNat := by
      by_contra hlt
      exact absurd (hfst (d + A).toNat (by omega) 1 hone) (lt_irrefl _)
    have hge : ¬ (ostar : Int) < d + A := fun hlt => hfirst ostar hlt hc
    rw [hr]
    have : (ostar : Int) - A = d := by omega
    rw [this]

/-- One call of `adjustKeyPresses` on two strokes moves stroke 1 by `sim[0][1].offset`. -/
theorem adjustKeyPresses_two (e0 e1 : stKeyPressData R) (nc : Int) (sim : TSimilarityMap R) :
    positions (adjustKeyPresses { presses := [e0, e1], nClusters := nc } sim) =
      [e0.pos, e1.pos + (simAt sim 0 1).offset] := by
  simp [adjustKeyPresses, adjustKeyPressesFrom, ccPairs, sortPairs, adjustLoop, adjustStep,
    positions, kpAt, List.range_succ, List.range']

end Refinement

section RefinementClaim
variable {R : Type} [LinearOrderedField R]

/-- The correlation of `[1, 3, 2, 5]` with the window one sample before the second template
of `twoTemplates` is not one. -/
theorem twoTemplates_no_earlier_match :
    calcCC Real.sqrt ((getView twoTemplates 0).shift (10 + 0) (2 * 2))
      ((getView twoTemplates 0).shift (35 + 0 + (-6)) (2 * 2))
      (calcSum ((getView twoTemplates 0).shift (10 + 0) (2 * 2))).1
      (calcSum ((getView twoTemplates 0).shift (10 + 0) (2 * 2))).2 ≠ some 1 := by
  intro h
  have := calcCC_eq_one_imp Real.sqrt isSqrt_real
    ((getView twoTemplates 0).shift (10 + 0) (2 * 2))
    ((getView twoTemplates 0).shift (35 + 0 + (-6)) (2 * 2)) (le_of_eq rfl)
    (smallSamples_window _ (by show SmallSamples twoTemplates; decide) _)
    (smallSamples_window _ (by show SmallSamples twoTemplates; decide) _) h
  revert this
  decide

end RefinementClaim

/-! ### C11: how far `adjustKeyPresses` moves a stroke -/

section AdjustBound
variable {R : Type} [LinearOrderedField R]

/-- The offset that `findBestCC` returns is the initial `-1` or lies in `[-A, A)`. -/
theorem findBestCC_offset_bound (sqrt : R → R) (v0 v1 : stWaveformView) (A : Int) :
    |(findBestCC sqrt v0 v1 A).2| ≤ max A 1 := by
  rcases findBestCC_cases sqrt v0 v1 A with ⟨_, hr⟩ | ⟨ostar, ho, c, _, _, hr, _, _⟩
  · rw [hr]
    exact le_max_right _ _
  · rw [hr]
    show |(ostar : Int) - A| ≤ max A 1
    rw [abs_le]
    have := le_max_left A 1
    constructor <;> omega

theorem getD_set_bool (l : List Bool) (i t : Nat) (hi : i < l.length) :
    (l.set i true).getD t false = if t = i then true else l.getD t false := by
  rw [getD_set_eq]
  by_cases h : t = i
  · rw [if_pos ⟨h, hi⟩, if_pos h]
  · rw [if_neg (fun hh => h hh.1), if_neg h]

/-- The `used` flags after one adjustment: the two strokes of the pair are marked, the
other flags are unchanged. -/
theorem adjustStep_used (sim : TSimilarityMap R) (st : AdjustState R) (p : Pair R)
    (hi : p.i < st.used.length) (hj : p.j < st.used.length) :
    (adjustStep sim st p).used.length = st.used.length ∧
    ∀ t, (adjustStep sim st p).used.getD t false =
      if t = p.i ∨ t = p.j then true else st.used.getD t false := by
  unfold adjustStep
  simp only []
  by_cases h0 : st.used.getD p.i false = false
  · simp only [if_pos h0]
    by_cases h1 : (st.used.set p.i true).getD p.j false = false
    · simp only [if_pos h1]
      refine ⟨by simp, fun t => ?_⟩
      rw [getD_set_bool _ _ _ (by simpa using hj), getD_set_bool _ _ _ hi]
      by_cases e1 : t = p.j
      · rw [if_pos e1, if_pos (Or.inr e1)]
      · by_cases e0 : t = p.i
        · rw [if_neg e1, if_pos e0, if_pos (Or.inl e0)]
        · rw [if_neg e1, if_neg e0, if_neg (fun h => h.elim e0 e1)]
    · simp only [if_neg h1]
      refine ⟨by simp, fun t => ?_⟩
      have h1' : (st.used.set p.i true).getD p.j false = true := by simpa using h1
      rw [getD_set_bool _ _ _ hi] at h1' ⊢
      by_cases e0 : t = p.i
      · rw [if_pos e0, if_pos (Or.inl e0)]
      · by_cases e1 : t = p.j
        · rw [if_neg e0, if_pos (Or.inr e1), e1]
          by_cases e2 : p.j = p.i
          · rw [e2]
            rw [e2] at e1
            exact absurd e1 e0
          · rw [if_neg e2] at h1'
            exact h1'
        · rw [if_neg e0, if_neg (fun h => h.elim e0 e1)]
  · have h0' : st.used.getD p.i false = true := by simpa using h0
    simp only [if_neg h0]
    by_cases h1 : st.used.getD p.j false = false
    · simp only [if_pos h1]
      refine ⟨by simp, fun t => ?_⟩
      rw [getD_set_bool _ _ _ hj]
      by_cases e1 : t = p.j
      · rw [if_pos e1, if_pos (Or.inr e1)]
      · by_cases e0 : t = p.i
        · rw [if_neg e1, if_pos (Or.inl e0), e0]
          exact h0'
        · rw [if_neg e1, if_neg (fun h => h.elim e0 e1)]
    · have h1' : st.used.getD p.j false = true := by simpa using h1
      simp only [if_neg h1]
      refine ⟨trivial, fun t => ?_⟩
      by_cases e1 : t = p.j
      · rw [if_pos (Or.inr e1), e1]
        exact h1'
      · by_cases e0 : t = p.i
        · rw [if_pos (Or.inl e0), e0]
          exact h0'
        · rw [if_neg (fun h => h.elim e0 e1)]

/-- The positions after one adjustment: exactly one stroke of the pair, one that was not
used before, moves by the offset of the pair. -/
theorem adjustStep_pos (sim : TSimilarityMap R) (st : AdjustState R) (p : Pair R)
    (hi : p.i < st.keyPresses.length) (hj : p.j < st.keyPresses.length)
    (hnot : ¬ (st.used.getD p.i false = true ∧ st.used.getD p.j false = true)) :
    (adjustStep sim st p).keyPresses.length = st.keyPresses.length ∧
    ∃ k, (k = p.i ∨ k = p.j) ∧ st.used.getD k false = false ∧
      ∀ t, posAt (adjustStep sim st p).keyPresses t =
        if t = k then posAt st.keyPresses k +
          (if k = p.j then (simAt sim p.i p.j).offset else - (simAt sim p.i p.j).offset)
        else posAt st.keyPresses t := by
  unfold adjustStep
  simp only []
  by_cases h1 : st.used.getD p.j false = false
  · simp only [if_pos h1]
    refine ⟨by simp, p.j, Or.inr rfl, h1, fun t => ?_⟩
    rw [posAt_set, if_pos rfl]
    by_cases e : t = p.j
    · rw [if_pos ⟨e, hj⟩, if_pos e]; rfl
    · rw [if_neg (fun h => e h.1), if_neg e]
  · have h1' : st.used.getD p.j false = true := by simpa using h1
    have h0 : st.used.getD p.i false = false := by
      by_contra h0
      exact hnot ⟨by simpa using h0, h1'⟩
    have hne : p.i ≠ p.j := by
      intro e
      rw [e] at h0
      rw [h0] at h1'
      exact absurd h1' (by decide)
    simp only [if_neg h1]
    refine ⟨by simp, p.i, Or.inl rfl, h0, fun t => ?_⟩
    rw [posAt_set, if_neg hne]
    by_cases e : t = p.i
    · rw [if_pos ⟨e, hi⟩, if_pos e]
      show (kpAt st.keyPresses p.i).pos - _ = posAt st.keyPresses p.i + - _
      unfold posAt; ring
    · rw [if_neg (fun h => e h.1), if_neg e]

/-- The pair loop moves a stroke at most once, by an offset of the matrix. -/
theorem adjustLoop_bound (sim : TSimilarityMap R) (n : Nat) (orig : Nat → Int) (B : Int)
    (hB : 0 ≤ B)
    (hoff : ∀ i j, i < n → j < n → i ≠ j → |(simAt sim i j).offset| ≤ B) :
    ∀ (pairs : List (Pair R)) (st : AdjustState R),
      (∀ p ∈ pairs, p.i < n ∧ p.j < n ∧ p.i ≠ p.j) →
      st.used.length = n → st.keyPresses.length = n →
      (∀ t, (st.used.getD t false = false → posAt st.keyPresses t = orig t) ∧
        |posAt st.keyPresses t - orig t| ≤ B) →
      (adjustLoop sim n pairs st).keyPresses.length = n ∧
      ∀ t, |posAt (adjustLoop sim n pairs st).keyPresses t - orig t| ≤ B
  | [], st, _, _, hk, hinv => ⟨hk, fun t => (hinv t).2⟩
  | p :: ps, st, hp, hu, hk, hinv => by
    have hps : ∀ q ∈ ps, q.i < n ∧ q.j < n ∧ q.i ≠ q.j :=
      fun q hq => hp q (List.mem_cons_of_mem _ hq)
    obtain ⟨hpi, hpj, hne⟩ := hp p (List.mem_cons_self _ _)
    rw [adjustLoop]
    by_cases h1 : st.used.getD p.i false = true ∧ st.used.getD p.j false = true
    · rw [if_pos h1]
      exact adjustLoop_bound sim n orig B hB hoff ps st hps hu hk hinv
    · rw [if_neg h1]
      obtain ⟨hul, hused⟩ := adjustStep_used sim st p (by rw [hu]; exact hpi)
        (by rw [hu]; exact hpj)
      obtain ⟨hkl, k, hkk, hkun, hpos⟩ := adjustStep_pos sim st p (by rw [hk]; exact hpi)
        (by rw [hk]; exact hpj) h1
      have hinv2 : ∀ t, ((adjustStep sim st p).used.getD t false = false →
          posAt (adjustStep sim st p).keyPresses t = orig t) ∧
          |posAt (adjustStep sim st p).keyPresses t - orig t| ≤ B := by
        intro t
        rw [hused t, hpos t]
        by_cases e : t = k
        · subst e
          rw [if_pos hkk, if_pos rfl]
          refine ⟨fun h => absurd h (by decide), ?_⟩
          rw [(hinv t).1 hkun]
          have hb := hoff p.i p.j hpi hpj hne
          split_ifs
          · simpa using hb
          · simpa using hb
        · rw [if_neg e]
          refine ⟨fun h => ?_, (hinv t).2⟩
          split_ifs at h with h2
          exact (hinv t).1 h
      split_ifs
      · exact ⟨hkl.trans hk, fun t => (hinv2 t).2⟩
      · exact adjustLoop_bound sim n orig B hB hoff ps (adjustStep sim st p) hps
          (hul.trans hu) (hkl.trans hk) hinv2

end AdjustBound

section AdjustBoundClaim
variable {R : Type} [LinearOrderedField R]

/-- Every off-diagonal offset of the matrix of `calculateSimilartyMap` is at most
`max(alignWindow, 1)` in absolute value. -/
theorem calculateSimilartyMap_offset_bound (sqrt : R → R) (params : stParameters)
    (keyPresses : stKeyPressCollection R) (i j : Nat) (hi : i < keyPresses.presses.length)
    (hj : j < keyPresses.presses.length) (hij : i ≠ j) :
    |(simAt (calculateSimilartyMap sqrt params keyPresses).2 i j).offset| ≤
      max params.alignWindow 1 := by
  obtain ⟨_, _, _, _, _, hsim⟩ := calculateSimilartyMap_spec sqrt params keyPresses
  rw [hsim i j hi hj]
  unfold simEntry
  rw [if_neg (fun h => hij h.symm)]
  exact findBestCC_offset_bound sqrt _ _ _

/-- One call of `adjustKeyPresses` after `calculateSimilartyMap` on two strokes. -/
theorem adjust_after_similarity_two (sqrt : R → R) (params : stParameters)
    (a b : stKeyPressData R) (nc : Int) :
    positions (adjustKeyPresses
        (calculateSimilartyMap sqrt params { presses := [a, b], nClusters := nc }).1
        (calculateSimilartyMap sqrt params { presses := [a, b], nClusters := nc }).2) =
      [a.pos, b.pos + (simAt (calculateSimilartyMap sqrt params
        { presses := [a, b], nClusters := nc }).2 0 1).offset] := by
  obtain ⟨hg, _, _, _, _, _⟩ := calculateSimilartyMap_spec sqrt params
    { presses := [a, b], nClusters := nc }
  obtain ⟨e0, e1, he⟩ := List.length_eq_two.1 hg.1
  have hp0 : e0.pos = a.pos := by
    have := (hg.2 0).2.1
    rw [he] at this
    exact this
  have hp1 : e1.pos = b.pos := by
    have := (hg.2 1).2.1
    rw [he] at this
    exact this
  have hcol : (calculateSimilartyMap sqrt params { presses := [a, b], nClusters := nc }).1 =
      { presses := [e0, e1], nClusters := (calculateSimilartyMap sqrt params
          { presses := [a, b], nClusters := nc }).1.nClusters } := by
    rw [← he]
  rw [hcol, adjustKeyPresses_two, hp0, hp1]

/-- Claim C11 (amended). For every stroke collection, every `alignWindow` and the
similarity matrix that `calculateSimilartyMap` produces with it, one call of
`adjustKeyPresses` (whatever order `std::sort` leaves the pairs in) changes each stroke's
position by at most `max(alignWindow, 1)` samples in absolute value: by at most
`alignWindow` when `alignWindow >= 1`, and by at most `1` when `alignWindow = 0`, where
every offset of the matrix is the initial `besto = -1`. -/
theorem adjustKeyPresses_move_le (sqrt : R → R) (params : stParameters)
    (keyPresses : stKeyPressCollection R) (sorted : List (Pair R))
    (hperm : sorted.Perm (ccPairs (calculateSimilartyMap sqrt params keyPresses).2
      (calculateSimilartyMap sqrt params keyPresses).1.presses.length))
    (t : Nat) :
    |posAt (adjustKeyPressesFrom sorted (calculateSimilartyMap sqrt params keyPresses).1
        (calculateSimilartyMap sqrt params keyPresses).2).presses t -
      posAt keyPresses.presses t| ≤ max params.alignWindow 1 := by
  obtain ⟨hg, _, _, _, _, _⟩ := calculateSimilartyMap_spec sqrt params keyPresses
  have hlen := hg.1
  have hmem : ∀ p ∈ sorted, p.i < keyPresses.presses.length ∧
      p.j < keyPresses.presses.length ∧ p.i ≠ p.j := by
    intro p hp
    obtain ⟨h1, h2, _⟩ := mem_ccPairs _ _ p (hperm.subset hp)
    rw [hlen] at h2
    exact ⟨by omega, h2, by omega⟩
  have hB : (0 : Int) ≤ max params.alignWindow 1 := le_trans zero_le_one (le_max_right _ _)
  have h := adjustLoop_bound (calculateSimilartyMap sqrt params keyPresses).2
    keyPresses.presses.length (fun t => posAt keyPresses.presses t)
    (max params.alignWindow 1) hB
    (fun i j hi hj hij => calculateSimilartyMap_offset_bound sqrt params keyPresses i j hi hj hij)
    sorted
    { keyPresses := (calculateSimilartyMap sqrt params keyPresses).1.presses,
      used := List.replicate keyPresses.presses.length false, nused := 0 }
    hmem (by simp) hlen
    (by
      intro t
      have e : posAt (calculateSimilartyMap sqrt params keyPresses).1.presses t =
          posAt keyPresses.presses t := (hg.2 t).2.1
      simp only [e, sub_self, abs_zero]
      exact ⟨fun _ => trivial, hB⟩)
  have e2 : (adjustKeyPressesFrom sorted (calculateSimilartyMap sqrt params keyPresses).1
      (calculateSimilartyMap sqrt params keyPresses).2).presses =
      (adjustLoop (calculateSimilartyMap sqrt params keyPresses).2 keyPresses.presses.length
        sorted
        { keyPresses := (calculateSimilartyMap sqrt params keyPresses).1.presses,
          used := List.replicate keyPresses.presses.length false, nused := 0 }).keyPresses := by
    show (adjustLoop (calculateSimilartyMap sqrt params keyPresses).2
        (calculateSimilartyMap sqrt params keyPresses).1.presses.length sorted
        { keyPresses := (calculateSimilartyMap sqrt params keyPresses).1.presses,
          used := List.replicate
            (calculateSimilartyMap sqrt params keyPresses).1.presses.length false,
          nused := 0 }).keyPresses = _
    rw [hlen]
  rw [e2]
  exact h.2 t

/-- Counterexample to C11 as stated: `alignWindow = 0` and the two strokes of `twoStrokes`.
The offset loop of `findBestCC` is empty, the matrix holds the initial offset `-1`, and
`adjustKeyPresses` moves stroke 1 from 35 to 34: a change of `1 > alignWindow`. -/
theorem adjustKeyPresses_zero_window_moves :
    positions (adjustKeyPresses
        (calculateSimilartyMap Real.sqrt zeroWindowParams (twoStrokes ℝ 0)).1
        (calculateSimilartyMap Real.sqrt zeroWindowParams (twoStrokes ℝ 0)).2) = [10, 34] ∧
    ¬ ∀ t, |posAt (adjustKeyPresses
          (calculateSimilartyMap Real.sqrt zeroWindowParams (twoStrokes ℝ 0)).1
          (calculateSimilartyMap Real.sqrt zeroWindowParams (twoStrokes ℝ 0)).2).presses t -
        posAt (twoStrokes ℝ 0).presses t| ≤ zeroWindowParams.alignWindow := by
  have hpos : positions (adjustKeyPresses
      (calculateSimilartyMap Real.sqrt zeroWindowParams (twoStrokes ℝ 0)).1
      (calculateSimilartyMap Real.sqrt zeroWindowParams (twoStrokes ℝ 0)).2) = [10, 34] := by
    have h := adjust_after_similarity_two Real.sqrt zeroWindowParams
      { waveform := getView twoTemplates 0, pos := 10, ccAvg := (0 : ℝ), cid := -1 }
      { waveform := getView twoTemplates 0, pos := 35, ccAvg := (0 : ℝ), cid := -1 } 0
    obtain ⟨_, _, _, _, _, hsim⟩ := calculateSimilartyMap_spec Real.sqrt zeroWindowParams
      (twoStrokes ℝ 0)
    have h01 := hsim 0 1 (by show 0 < 2; decide) (by show 1 < 2; decide)
    have hoff : (simAt (calculateSimilartyMap Real.sqrt zeroWindowParams
        (twoStrokes ℝ 0)).2 0 1).offset = -1 := by
      rw [h01]
      unfold simEntry
      rw [if_neg (by decide)]
      rfl
    show positions (adjustKeyPresses
      (calculateSimilartyMap Real.sqrt zeroWindowParams (twoStrokes ℝ 0)).1
      (calculateSimilartyMap Real.sqrt zeroWindowParams (twoStrokes ℝ 0)).2) =
        [10, 35 + -1]
    rw [← hoff]
    exact h
  refine ⟨hpos, fun hall => ?_⟩
  have h1 := hall 1
  have e : posAt (adjustKeyPresses
      (calculateSimilartyMap Real.sqrt zeroWindowParams (twoStrokes ℝ 0)).1
      (calculateSimilartyMap Real.sqrt zeroWindowParams (twoStrokes ℝ 0)).2).presses 1 = 34 := by
    have hm : (adjustKeyPresses
        (calculateSimilartyMap Real.sqrt zeroWindowParams (twoStrokes ℝ 0)).1
        (calculateSimilartyMap Real.sqrt zeroWindowParams (twoStrokes ℝ 0)).2).presses.map
        (fun e => e.pos) = [10, 34] := hpos
    cases hl : (adjustKeyPresses
        (calculateSimilartyMap Real.sqrt zeroWindowParams (twoStrokes ℝ 0)).1
        (calculateSimilartyMap Real.sqrt zeroWindowParams (twoStrokes ℝ 0)).2).presses with
    | nil => rw [hl] at hm; simp at hm
    | cons x xs =>
      cases xs with
      | nil => rw [hl] at hm; simp at hm
      | cons y ys =>
        rw [hl] at hm
        simp only [List.map_cons, List.cons.injEq] at hm
        exact hm.2.1
  rw [e] at h1
  revert h1
  decide

/-- Witness for the amended C11: the two strokes of `twoStrokes` with `alignWindow = 6`;
stroke 1 moves by `5`. -/
theorem adjustKeyPresses_move_le_witness :
    |posAt (adjustKeyPresses
          (calculateSimilartyMap Real.sqrt smallParams (twoStrokes ℝ 0)).1
          (calculateSimilartyMap Real.sqrt smallParams (twoStrokes ℝ 0)).2).presses 1 -
        posAt (twoStrokes ℝ 0).presses 1| ≤ max smallParams.alignWindow 1 :=
  adjustKeyPresses_move_le Real.sqrt smallParams (twoStrokes ℝ 0)
    (sortPairs (ccPairs (calculateSimilartyMap Real.sqrt smallParams (twoStrokes ℝ 0)).2
      (calculateSimilartyMap Real.sqrt smallParams (twoStrokes ℝ 0)).1.presses.length))
    (List.perm_insertionSort _ _) 1

end AdjustBoundClaim

/-! ### C12, C13: threshold one, and the reads of the pair list -/

section ClusterEdgeCases
variable {R : Type} [LinearOrderedField R]

theorem cidAt_initCids (kp : List (stKeyPressData R)) (i : Nat) (hi : i < kp.length) :
    cidAt (initCids kp) i = (i : Int) + 1 := by
  unfold cidAt kpAt initCids
  rw [List.getD_eq_getElem _ _ (by simpa using hi)]
  simp

/-- Claim C12 (amended). For every similarity matrix whose entries `matrix[i][j].cc` with
`i < j` are all smaller than `1`, and every stroke collection of `n` strokes, `clusterG`
with `threshold = 1.0` performs no merge: afterwards `clusterId[i] = i + 1` for every `i`
and `nClusters = n`.  (A pair with `cc = 1` is not stopped by the test `cc < threshold`.) -/
theorem clusterG_threshold_one (sim : TSimilarityMap R) (keyPresses : stKeyPressCollection R)
    (sorted : List (Pair R)) (hperm : sorted.Perm (ccPairs sim keyPresses.presses.length))
    (hlt : ∀ i j, i < j → j < keyPresses.presses.length → (simAt sim i j).cc < 1) :
    (∀ i, i < keyPresses.presses.length →
      cidAt (clusterGFrom sorted sim keyPresses 1).presses i = (i : Int) + 1) ∧
    (clusterGFrom sorted sim keyPresses 1).nClusters = keyPresses.presses.length := by
  have hall : ∀ p ∈ sorted, p.cc < 1 := by
    intro p hp
    obtain ⟨h1, h2, h3⟩ := mem_ccPairs sim _ p (hperm.subset hp)
    rw [h3]
    exact hlt p.i p.j h1 h2
  unfold clusterGFrom
  simp only []
  rw [clusterLoop_all_below sim 1 _ sorted _ hall]
  exact ⟨fun i hi => cidAt_initCids _ i hi, rfl⟩

/-- Counterexample to C12 as stated: two strokes whose matrix has `cc = 1`; with
`threshold = 1` the pair is not below the threshold and the two strokes are merged. -/
theorem clusterG_threshold_one_merges :
    (clusterG twoEqualSim (twoStrokes ℚ 0) 1).presses.map (fun e => e.cid) = [1, 1] ∧
    (clusterG twoEqualSim (twoStrokes ℚ 0) 1).nClusters = 1 ∧
    ¬ (∀ i, i < (twoStrokes ℚ 0).presses.length →
      cidAt (clusterG twoEqualSim (twoStrokes ℚ 0) 1).presses i = (i : Int) + 1) := by
  refine ⟨by decide!, by decide!, fun h => ?_⟩
  have h1 := h 1 (by decide)
  revert h1
  decide!

/-- Witness for the amended C12: the matrix `twoSim` (`cc = 0.4`), threshold `1`. -/
theorem clusterG_threshold_one_witness :
    (∀ i, i < (twoStrokes ℚ 0).presses.length →
      cidAt (clusterG twoSim (twoStrokes ℚ 0) 1).presses i = (i : Int) + 1) ∧
    (clusterG twoSim (twoStrokes ℚ 0) 1).nClusters = (twoStrokes ℚ 0).presses.length :=
  clusterG_threshold_one twoSim (twoStrokes ℚ 0)
    (sortPairs (ccPairs twoSim (twoStrokes ℚ 0).presses.length))
    (List.perm_insertionSort _ _)
    (by
      intro i j hij hj
      have hj' : j < 2 := hj
      interval_cases j
      · omega
      · interval_cases i
        decide!)

theorem sortPairs_length (pairs : List (Pair R)) : (sortPairs pairs).length = pairs.length :=
  List.length_insertionSort _ _

/-- C13, the code on collections with fewer than ten pairs.  For the empty collection
`calculateSimilartyMap` returns the empty matrix and the pair loop of `clusterG` leaves
`nClusters = 0`; but for every matrix and every `n <= 4` (`0`, `0`, `1`, `3`, `6` pairs)
the diagnostic loop before the pair loop reads `ccpairs[9]`, an element outside the
vector. -/
theorem clusterG_top_pairs_read_out_of_bounds (sqrt : R → R) (params : stParameters)
    (sim : TSimilarityMap R) (threshold : R) (nc : Int) :
    (calculateSimilartyMap sqrt params { presses := [], nClusters := nc }).2 = [] ∧
    (clusterG [] ({ presses := [], nClusters := nc } : stKeyPressCollection R)
      threshold).nClusters = 0 ∧
    (sortPairs (ccPairs sim 0)).length = 0 ∧
    (sortPairs (ccPairs sim 1)).length = 0 ∧
    (sortPairs (ccPairs sim 2)).length = 1 ∧
    (sortPairs (ccPairs sim 3)).length = 3 ∧
    (sortPairs (ccPairs sim 4)).length = 6 ∧
    ∀ n, n ≤ 4 → ∃ i ∈ topPairsReads, ¬ i < (sortPairs (ccPairs sim n)).length := by
  have l0 : (sortPairs (ccPairs sim 0)).length = 0 := by
    rw [sortPairs_length]; simp [ccPairs]
  have l1 : (sortPairs (ccPairs sim 1)).length = 0 := by
    rw [sortPairs_length]; simp [ccPairs]
  have l2 : (sortPairs (ccPairs sim 2)).length = 1 := by
    rw [sortPairs_length]; simp [ccPairs, List.range_succ, List.range']
  have l3 : (sortPairs (ccPairs sim 3)).length = 3 := by
    rw [sortPairs_length]; simp [ccPairs, List.range_succ, List.range']
  have l4 : (sortPairs (ccPairs sim 4)).length = 6 := by
    rw [sortPairs_length]; simp [ccPairs, List.range_succ, List.range']
  refine ⟨rfl, rfl, l0, l1, l2, l3, l4, ?_⟩
  intro n hn
  refine ⟨9, by decide, ?_⟩
  interval_cases n
  · rw [l0]; decide
  · rw [l1]; decide
  · rw [l2]; decide
  · rw [l3]; decide
  · rw [l4]; decide

end ClusterEdgeCases

/-! ### C14: constant windows -/

section ConstantWindows
variable {R : Type} [LinearOrderedField R]

/-- On a constant `waveform0`, or against a constant window, `calcCC` has no numeric
result (samples small enough for no product to wrap). -/
theorem calcCC_constant_none (sqrt : R → R) (v0 v1 : stWaveformView) (h : v0.n ≤ v1.n)
    (hs0 : SmallWindow v0 v0.n) (hs1 : SmallWindow v1 v0.n)
    (hconst : (∀ i j : Int, 0 ≤ i → i < v0.n → 0 ≤ j → j < v0.n →
        v0.samples i = v0.samples j) ∨
      (∀ i j : Int, 0 ≤ i → i < v0.n → 0 ≤ j → j < v0.n → v1.samples i = v1.samples j)) :
    calcCC sqrt v0 v1 (calcSum v0).1 (calcSum v0).2 = none := by
  rw [calcCC_eq_covN sqrt v0 v1 h hs0 hs1]
  have hz : ∀ w : stWaveformView,
      (∀ i j : Int, 0 ≤ i → i < v0.n → 0 ≤ j → j < v0.n → w.samples i = w.samples j) →
      covN v0.n.toNat (fun i => w.samples (i : Int)) (fun i => w.samples (i : Int)) = 0 := by
    intro w hw
    apply covN_self_const _ _ (w.samples 0)
    intro i hi
    exact hw i 0 (by omega) (by omega) (le_refl _) (by omega)
  rw [if_neg]
  rcases hconst with h0 | h1
  · rw [hz v0 h0]; simp
  · rw [hz v1 h1]; simp

end ConstantWindows

/-! ### C18: the ring buffer of the rolling average -/

section RingBuffer
variable {R : Type} [LinearOrderedField R]

theorem succ_mod_eq (c N : Nat) (hN : 0 < N) :
    (c + 1) % N = if c % N + 1 = N then 0 else c % N + 1 := by
  have hr : c % N < N := Nat.mod_lt _ hN
  rw [Nat.add_mod]
  by_cases h1 : N = 1
  · subst h1
    simp [Nat.mod_one]
  · have h1' : 1 % N = 1 := Nat.mod_eq_of_lt (by omega)
    rw [h1']
    split_ifs with h
    · rw [h]; exact Nat.mod_self _
    · exact Nat.mod_eq_of_lt (by omega)

theorem mod_ne_of_lt (u c N : Nat) (h1 : u < c) (h2 : c < u + N) : u % N ≠ c % N := by
  intro h
  have hd : N ∣ c - u := (Nat.modEq_iff_dvd' (le_of_lt h1)).1 h
  have := Nat.le_of_dvd (by omega) hd
  omega

theorem sub_mod_self (c N : Nat) (h : N ≤ c) : (c - N) % N = c % N := by
  obtain ⟨d, rfl⟩ := Nat.exists_eq_add_of_le h
  simp

/-- The ring-buffer fields after a step are those after the ring-buffer block. -/
theorem findKeyPressesStep_rb (waveform : stWaveformView) (wabs : List Int) (thr : R)
    (k : Int) (s : PeakState R) (i : Int) :
    (findKeyPressesStep waveform wabs thr k s i).rbBegin =
      (if i - k / 2 ≥ 0 then rbUpdate wabs s i else s).rbBegin ∧
    (findKeyPressesStep waveform wabs thr k s i).rbAverage =
      (if i - k / 2 ≥ 0 then rbUpdate wabs s i else s).rbAverage ∧
    (findKeyPressesStep waveform wabs thr k s i).rbSamples =
      (if i - k / 2 ≥ 0 then rbUpdate wabs s i else s).rbSamples := by
  unfold findKeyPressesStep
  simp only []
  split_ifs <;> exact ⟨rfl, rfl, rfl⟩

/-- One execution of the ring-buffer block, on a buffer of `N` slots whose write position
is `c % N` and whose average is `S / N`. -/
theorem rbUpdate_spec (wabs : List Int) (s : PeakState R) (i : Int) (N c : Nat) (hN : 0 < N)
    (S : R) (hlen : s.rbSamples.length = N) (hb : s.rbBegin = ((c % N : Nat) : Int))
    (havg : s.rbAverage = S / (N : R)) :
    (rbUpdate wabs s i).rbSamples.length = N ∧
    (rbUpdate wabs s i).rbBegin = (((c + 1) % N : Nat) : Int) ∧
    (rbUpdate wabs s i).rbAverage =
      (S - s.rbSamples.getD (c % N) 0 + ((vget wabs i 0 : Int) : R)) / (N : R) ∧
    ∀ t, (rbUpdate wabs s i).rbSamples.getD t 0 =
      if t = c % N then ((vget wabs i 0 : Int) : R) else s.rbSamples.getD t 0 := by
  have hr : c % N < N := Nat.mod_lt _ hN
  have hN0 : (N : R) ≠ 0 := by exact_mod_cast (Nat.pos_iff_ne_zero.1 hN)
  have hb0 : (0 : Int) ≤ s.rbBegin := by rw [hb]; exact Int.natCast_nonneg _
  have hbn : s.rbBegin.toNat = c % N := by rw [hb]; exact Int.toNat_natCast _
  unfold rbUpdate
  simp only [vget, vset, if_pos hb0, hbn, hlen]
  refine ⟨by simp [hlen], ?_, ?_, ?_⟩
  · rw [hb, succ_mod_eq c N hN]
    by_cases h : c % N + 1 = N
    · rw [if_pos h, if_pos (by omega)]; rfl
    · rw [if_neg h, if_neg (by omega)]; push_cast; rfl
  · rw [havg]
    field_simp
  · intro t
    rw [getD_set_eq]
    by_cases h : t = c % N
    · rw [if_pos ⟨h, by omega⟩, if_pos h]
    · rw [if_neg (fun hh => h hh.1), if_neg h]

/-- The ring buffer after `m` iterations: with `c = m - k/2` updates done, the write
position is `c mod 8k`, the slots hold the last `min c 8k` absolute samples and zeros, and
the average is their sum over `8k`. -/
theorem findKeyPressesLoop_rb (waveform : stWaveformView) (wt : TWaveform) (thr : R)
    (k : Int) (hk : 1 ≤ k) (m : Nat) (hm : (m : Int) ≤ waveform.n) :
    (findKeyPressesLoop waveform wt thr k m).rbSamples.length = (8 * k).toNat ∧
    (findKeyPressesLoop waveform wt thr k m).rbBegin =
      (((m - (k / 2).toNat) % (8 * k).toNat : Nat) : Int) ∧
    (findKeyPressesLoop waveform wt thr k m).rbAverage =
      (∑ j in Finset.Ico ((k / 2).toNat + (m - (k / 2).toNat - (8 * k).toNat))
          ((k / 2).toNat + (m - (k / 2).toNat)),
        ((|waveform.samples (j : Int)| : Int) : R)) / (((8 * k).toNat : Nat) : R) ∧
    (∀ u, m - (k / 2).toNat - (8 * k).toNat ≤ u → u < m - (k / 2).toNat →
      (findKeyPressesLoop waveform wt thr k m).rbSamples.getD (u % (8 * k).toNat) 0 =
        ((|waveform.samples (((k / 2).toNat + u : Nat) : Int)| : Int) : R)) ∧
    (∀ t, m - (k / 2).toNat ≤ t → t < (8 * k).toNat →
      (findKeyPressesLoop waveform wt thr k m).rbSamples.getD t 0 = 0) := by
  have hN : 0 < (8 * k).toNat := by omega
  induction m with
  | zero =>
    refine ⟨by simp [findKeyPressesLoop, findKeyPressesInit], by
      simp [findKeyPressesLoop, findKeyPressesInit], by
      simp [findKeyPressesLoop, findKeyPressesInit], fun u _ hu => by omega, ?_⟩
    intro t _ ht
    simp only [findKeyPressesLoop, List.range_zero, List.foldl_nil, findKeyPressesInit]
    rw [List.getD_eq_getElem _ _ (by simpa using ht)]
    simp
  | succ m ih =>
    obtain ⟨ihl, ihb, iha, ihs, ihz⟩ := ih (by omega)
    rw [findKeyPressesLoop_succ]
    obtain ⟨e1, e2, e3⟩ := findKeyPressesStep_rb waveform (waveformAbs waveform) thr k
      (findKeyPressesLoop waveform wt thr k m) (m : Int)
    rw [e1, e2, e3]
    by_cases hlt : (m : Int) - k / 2 ≥ 0
    · rw [if_pos hlt]
      have hmh : (k / 2).toNat ≤ m := by omega
      obtain ⟨r1, r2, r3, r4⟩ := rbUpdate_spec (waveformAbs waveform)
        (findKeyPressesLoop waveform wt thr k m) (m : Int) (8 * k).toNat
        (m - (k / 2).toNat) hN _ ihl ihb iha
      have hc : m + 1 - (k / 2).toNat = (m - (k / 2).toNat) + 1 := by omega
      have hv : vget (waveformAbs waveform) (m : Int) 0 = |waveform.samples (m : Int)| :=
        vget_waveformAbs waveform (m : Int) (by omega) (by omega)
      rw [hv] at r3 r4
      refine ⟨r1, ?_, ?_, ?_, ?_⟩
      · rw [r2, hc]
      · rw [r3, hc]
        congr 1
        have htop : (k / 2).toNat + (m - (k / 2).toNat + 1) = m + 1 := by omega
        have htop0 : (k / 2).toNat + (m - (k / 2).toNat) = m := by omega
        rw [htop, htop0]
        by_cases hfull : (8 * k).toNat ≤ m - (k / 2).toNat
        · have hold := ihs (m - (k / 2).toNat - (8 * k).toNat) (le_refl _) (by omega)
          rw [sub_mod_self _ _ hfull] at hold
          rw [hold]
          have hb1 : (k / 2).toNat + (m - (k / 2).toNat + 1 - (8 * k).toNat) =
              ((k / 2).toNat + (m - (k / 2).toNat - (8 * k).toNat)) + 1 := by omega
          rw [hb1, Finset.sum_Ico_succ_top (by omega),
            Finset.sum_eq_sum_Ico_succ_bot (by omega :
              (k / 2).toNat + (m - (k / 2).toNat - (8 * k).toNat) < m)]
          ring
        · have hz := ihz ((m - (k / 2).toNat) % (8 * k).toNat)
            (by rw [Nat.mod_eq_of_lt (by omega)]) (Nat.mod_lt _ hN)
          rw [hz]
          have hb1 : (k / 2).toNat + (m - (k / 2).toNat + 1 - (8 * k).toNat) =
              (k / 2).toNat + (m - (k / 2).toNat - (8 * k).toNat) := by omega
          rw [hb1, Finset.sum_Ico_succ_top (by omega)]
          ring
      · intro u hu1 hu2
        rw [r4]
        by_cases hum : u = m - (k / 2).toNat
        · subst hum
          rw [if_pos rfl]
          have : (k / 2).toNat + (m - (k / 2).toNat) = m := by omega
          rw [this]
        · rw [if_neg (mod_ne_of_lt u _ _ (by omega) (by omega))]
          exact ihs u (by omega) (by omega)
      · intro t ht1 ht2
        rw [r4]
        have hne : t ≠ (m - (k / 2).toNat) % (8 * k).toNat := by
          rw [Nat.mod_eq_of_lt (by omega)]; omega
        rw [if_neg hne]
        exact ihz t (by omega) ht2
    · rw [if_neg hlt]
      have hmh : m + 1 - (k / 2).toNat = 0 := by omega
      have hmh0 : m - (k / 2).toNat = 0 := by omega
      rw [hmh]
      rw [hmh0] at ihb iha ihs ihz
      exact ⟨ihl, ihb, iha, ihs, ihz⟩

end RingBuffer

section RollingAverage
variable {R : Type} [LinearOrderedField R]

theorem sum_Ico_natCast (a b : Nat) (f : Int → R) :
    ∑ j in Finset.Ico a b, f (j : Int) = ∑ j in Finset.Icc (a : Int) ((b : Int) - 1), f j := by
  rw [Int.Icc_eq_finset_map, Finset.sum_map, Finset.sum_Ico_eq_sum_range]
  have h : ((b : Int) - 1 + 1 - (a : Int)).toNat = b - a := by omega
  rw [h]
  apply Finset.sum_congr rfl
  intro t _
  simp

end RollingAverage

/-! ### C15: three impulses -/

section PeakHead
variable {R : Type} [LinearOrderedField R]

/-- The front of the deque after iteration `i >= k` is `i - k/2` exactly when no sample of
the window before it is larger and every sample after it is strictly smaller. -/
theorem findKeyPressesLoop_head_iff (waveform : stWaveformView) (wt : TWaveform) (thr : R)
    (k : Int) (hk : 1 ≤ k) (i : Nat) (hik : k ≤ (i : Int)) (hin : (i : Int) < waveform.n) :
    (findKeyPressesLoop waveform wt thr k (i + 1)).que.headI = (i : Int) - k / 2 ↔
      (∀ j, (i : Int) - k / 2 - (k - k / 2 - 1) ≤ j → j < (i : Int) - k / 2 →
          |waveform.samples j| ≤ |waveform.samples ((i : Int) - k / 2)|) ∧
      (∀ j, (i : Int) - k / 2 < j → j ≤ (i : Int) →
          |waveform.samples j| < |waveform.samples ((i : Int) - k / 2)|) := by
  have hinv := findKeyPressesLoop_dequeInv waveform wt thr k hk i
  have hmax : max 0 ((i : Int) - k + 1) = (i : Int) - k + 1 := by
    apply max_eq_right; omega
  rw [hmax] at hinv
  rw [dequeInv_head_eq_iff _ _ _ _ hinv ((i : Int) - k / 2) (by omega) (by omega)]
  have hp : vget (waveformAbs waveform) ((i : Int) - k / 2) 0 =
      |waveform.samples ((i : Int) - k / 2)| :=
    vget_waveformAbs waveform _ (by omega) (by omega)
  simp only [hp]
  constructor
  · rintro ⟨h1, h2⟩
    refine ⟨fun j hj1 hj2 => ?_, fun j hj1 hj2 => ?_⟩
    · rw [← vget_waveformAbs waveform j (by omega) (by omega)]
      exact h1 j (by omega) hj2
    · rw [← vget_waveformAbs waveform j (by omega) (by omega)]
      exact h2 j hj1 hj2
  · rintro ⟨h1, h2⟩
    refine ⟨fun j hj1 hj2 => ?_, fun j hj1 hj2 => ?_⟩
    · rw [vget_waveformAbs waveform j (by omega) (by omega)]
      exact h1 j (by omega) hj2
    · rw [vget_waveformAbs waveform j (by omega) (by omega)]
      exact h2 j hj1 hj2

/-- Membership in the positions that `findKeyPresses` returns, in terms of the samples. -/
theorem findKeyPresses_mem_positions_iff (waveform : stWaveformView)
    (res : stKeyPressCollection R) (wt : TWaveform) (thr : R) (k : Int) (hk : 1 ≤ k)
    (p : Int) :
    p ∈ positions (findKeyPresses waveform res wt thr k).1 ↔
      (2 * k ≤ p ∧ p < waveform.n - 2 * k) ∧
      (∀ j, p - (k - k / 2 - 1) ≤ j → j < p → |waveform.samples j| ≤ |waveform.samples p|) ∧
      (∀ j, p < j → j ≤ p + k / 2 → |waveform.samples j| < |waveform.samples p|) ∧
      ((|waveform.samples p| : Int) : R) > thr *
        (findKeyPressesLoop waveform wt thr k (p + k / 2 + 1).toNat).rbAverage := by
  unfold positions findKeyPresses
  simp only []
  rw [findKeyPressesLoop_mem_iff]
  constructor
  · rintro ⟨i, hi, hp, h1, h2, h3, h4, h5⟩
    have hin : (i : Int) < waveform.n := by omega
    subst hp
    have hi' : ((i : Int) - k / 2 + k / 2 + 1).toNat = i + 1 := by omega
    rw [hi']
    rw [vget_waveformAbs waveform _ (by omega) (by omega)] at h5
    have hk' := (findKeyPressesLoop_head_iff waveform wt thr k hk i h1 hin).1 h4
    refine ⟨⟨h2, h3⟩, hk'.1, ?_, h5⟩
    intro j hj1 hj2
    exact hk'.2 j hj1 (by omega)
  · rintro ⟨⟨h2, h3⟩, hl, hr, h5⟩
    have hi' : (p + k / 2 + 1).toNat = (p + k / 2).toNat + 1 := by omega
    rw [hi'] at h5
    have hcast : (((p + k / 2).toNat : Nat) : Int) = p + k / 2 := by omega
    have hpe : p = (((p + k / 2).toNat : Nat) : Int) - k / 2 := by omega
    refine ⟨(p + k / 2).toNat, by omega, hpe, by omega, h2, h3, ?_, ?_⟩
    · have hk' := (findKeyPressesLoop_head_iff waveform wt thr k hk (p + k / 2).toNat
        (by omega) (by omega)).2
      rw [hcast] at hk'
      have hpp : p + k / 2 - k / 2 = p := by omega
      rw [hpp] at hk'
      exact hk' ⟨fun j hj1 hj2 => hl j hj1 hj2, fun j hj1 hj2 => hr j hj1 hj2⟩
    · rw [vget_waveformAbs waveform _ (by omega) (by omega)]
      exact h5

/-- The positions that `findKeyPresses` returns are strictly increasing. -/
theorem findKeyPresses_positions_sorted (waveform : stWaveformView)
    (res : stKeyPressCollection R) (wt : TWaveform) (thr : R) (k : Int) :
    (positions (findKeyPresses waveform res wt thr k).1).Pairwise (· < ·) :=
  (findKeyPressesLoop_positions waveform wt thr k waveform.n.toNat).1

end PeakHead

section Impulses
variable {R : Type} [LinearOrderedField R]

theorem impulseWaveform_n : (getView impulseWaveform 0).n = 12000 := by
  unfold getView impulseWaveform
  rw [List.length_map, List.length_range]
  norm_num

theorem getView_zero_samples (w : TWaveform) (j : Int) (h0 : 0 ≤ j) :
    (getView w 0).samples j = w.getD j.toNat 0 := by
  unfold stWaveformView.samples getView
  simp only [zero_add, if_pos h0]

theorem impulseWaveform_samples (j : Int) (h0 : 0 ≤ j) (h1 : j < 12000) :
    (getView impulseWaveform 0).samples j =
      if j = 2000 ∨ j = 6000 ∨ j = 10000 then 32000 else 0 := by
  rw [getView_zero_samples _ j h0]
  unfold impulseWaveform
  rw [List.getD_eq_getElem _ _ (by rw [List.length_map, List.length_range]; omega)]
  rw [List.getElem_map, List.getElem_range]
  by_cases h : j = 2000 ∨ j = 6000 ∨ j = 10000
  · rw [if_pos h, if_pos (by omega)]
  · rw [if_neg h, if_neg (by omega)]

/-- The rolling average at the iteration that tests an impulse at `p`: the buffer holds
that impulse and no other. -/
theorem impulse_average (wt : TWaveform) (thr : R) (p : Nat)
    (hp : p = 2000 ∨ p = 6000 ∨ p = 10000) :
    (findKeyPressesLoop (getView impulseWaveform 0) wt thr 512 (p + 256 + 1)).rbAverage =
      32000 / 4096 := by
  have hn : ((p + 256 + 1 : Nat) : Int) ≤ (getView impulseWaveform 0).n := by
    rw [impulseWaveform_n]; omega
  obtain ⟨_, _, havg, _, _⟩ := findKeyPressesLoop_rb (getView impulseWaveform 0) wt thr 512
    (by norm_num) (p + 256 + 1) hn
  rw [havg]
  have h1 : ((512 : Int) / 2).toNat = 256 := by omega
  have h2 : ((8 : Int) * 512).toNat = 4096 := by omega
  rw [h1, h2]
  have hnum : ∑ j in Finset.Ico (256 + (p + 256 + 1 - 256 - 4096)) (256 + (p + 256 + 1 - 256)),
      ((|(getView impulseWaveform 0).samples (j : Int)| : Int) : R) = 32000 := by
    have hterm : ∀ j ∈ Finset.Ico (256 + (p + 256 + 1 - 256 - 4096)) (256 + (p + 256 + 1 - 256)),
        ((|(getView impulseWaveform 0).samples (j : Int)| : Int) : R) =
          if p = j then 32000 else 0 := by
      intro j hj
      rw [Finset.mem_Ico] at hj
      rw [impulseWaveform_samples (j : Int) (by omega) (by omega)]
      by_cases hjp : p = j
      · rw [if_pos hjp, if_pos (by omega)]
        norm_num
      · rw [if_neg hjp, if_neg (by omega)]
        norm_num
    rw [Finset.sum_congr rfl hterm, Finset.sum_ite_eq, if_pos (by rw [Finset.mem_Ico]; omega)]
  rw [hnum]
  norm_num

/-- Claim C15. On the waveform of 12,000 samples that is zero except for samples of value
32000 at the indices 2000, 6000 and 10000, `findKeyPresses` with `historySize = 512` and
`thresholdBackground = 5` returns exactly three strokes, at the positions 2000, 6000 and
10000 in that order. -/
theorem findKeyPresses_three_impulses (res : stKeyPressCollection R) (wt : TWaveform) :
    positions (findKeyPresses (getView impulseWaveform 0) res wt (5 : R) 512).1 =
      [2000, 6000, 10000] := by
  have hmem : ∀ p : Int,
      p ∈ positions (findKeyPresses (getView impulseWaveform 0) res wt (5 : R) 512).1 ↔
        p ∈ ([2000, 6000, 10000] : List Int) := by
    intro p
    rw [findKeyPresses_mem_positions_iff _ _ _ _ _ (by norm_num), impulseWaveform_n]
    simp only [List.mem_cons, List.mem_singleton, List.not_mem_nil, or_false]
    constructor
    · rintro ⟨⟨h1, h2⟩, _, hr, _⟩
      have h := hr (p + 1) (by omega) (by omega)
      rw [impulseWaveform_samples p (by omega) (by omega)] at h
      by_contra hne
      rw [if_neg hne] at h
      have := abs_nonneg ((getView impulseWaveform 0).samples (p + 1))
      simp only [abs_zero] at h
      exact absurd (lt_of_le_of_lt this h) (lt_irrefl _)
    · intro hp
      have hp0 : 0 ≤ p := by omega
      have hsp : (getView impulseWaveform 0).samples p = 32000 := by
        rw [impulseWaveform_samples p (by omega) (by omega), if_pos hp]
      rw [hsp]
      refine ⟨by omega, ?_, ?_, ?_⟩
      · intro j hj1 hj2
        rw [impulseWaveform_samples j (by omega) (by omega)]
        split_ifs <;> norm_num
      · intro j hj1 hj2
        have e : ((512 : Int) / 2) = 256 := by norm_num
        rw [e] at hj2
        rw [impulseWaveform_samples j (by omega) (by omega), if_neg (by omega)]
        norm_num
      · have e : (p + 512 / 2 + 1).toNat = p.toNat + 256 + 1 := by omega
        rw [e, impulse_average wt (5 : R) p.toNat (by omega)]
        norm_num
  have hs := findKeyPresses_positions_sorted (getView impulseWaveform 0) res wt (5 : R) 512
  have hs2 : ([2000, 6000, 10000] : List Int).Pairwise (· < ·) := by decide
  apply List.eq_of_perm_of_sorted _ hs hs2
  rw [List.perm_ext_iff_of_nodup (hs.imp (fun h => ne_of_lt h))
    (hs2.imp (fun h => ne_of_lt h))]
  exact hmem

end Impulses

/-! ### C17, C20: invariants of the pair loop of `clusterG` -/

section ClusterInvariants
variable {R : Type} [LinearOrderedField R]

theorem cidAt_relabel (kp : List (stKeyPressData R)) (ci cj cnew : Int) (t : Nat)
    (ht : t < kp.length) :
    cidAt (relabel kp ci cj cnew) t =
      if cidAt kp t = ci ∨ cidAt kp t = cj then cnew else cidAt kp t := by
  unfold cidAt kpAt relabel
  rw [List.getD_eq_getElem _ _ (by simpa using ht), List.getD_eq_getElem _ _ ht,
    List.getElem_map]
  split_ifs <;> rfl

/-- A property of the labelling that every accepted merge preserves holds after the pair
loop. -/
theorem clusterLoop_invariant (sim : TSimilarityMap R) (threshold : R) (n : Nat)
    (P : List (stKeyPressData R) → Prop) (pairs0 : List (Pair R))
    (hstep : ∀ (kp : List (stKeyPressData R)) (p : Pair R), p ∈ pairs0 →
      ¬ p.cc < threshold → cidAt kp p.i ≠ cidAt kp p.j → P kp →
      P (relabel kp (cidAt kp p.i) (cidAt kp p.j) (min (cidAt kp p.i) (cidAt kp p.j)))) :
    ∀ (pairs : List (Pair R)) (st : List (stKeyPressData R) × Int),
      (∀ p ∈ pairs, p ∈ pairs0) → P st.1 → P (clusterLoop sim threshold n pairs st).1
  | [], st, _, h => h
  | p :: ps, st, hsub, h => by
    have hps : ∀ q ∈ ps, q ∈ pairs0 := fun q hq => hsub q (List.mem_cons_of_mem _ hq)
    unfold clusterLoop
    simp only []
    split_ifs with h1 h2 h3
    · exact h
    · exact clusterLoop_invariant sim threshold n P pairs0 hstep ps st hps h
    · exact clusterLoop_invariant sim threshold n P pairs0 hstep ps _ hps
        (hstep st.1 p (hsub p (List.mem_cons_self _ _)) h1 h2 h)
    · exact clusterLoop_invariant sim threshold n P pairs0 hstep ps st hps h

/-- The representative invariant: every label is between `1` and the index plus one, and
the stroke at index `label - 1` carries the label. -/
theorem relabel_rep (kp : List (stKeyPressData R)) (i j : Nat) (hi : i < kp.length)
    (hj : j < kp.length)
    (h : ∀ k, k < kp.length → 1 ≤ cidAt kp k ∧ cidAt kp k ≤ (k : Int) + 1 ∧
      cidAt kp (cidAt kp k - 1).toNat = cidAt kp k) :
    ∀ k, k < kp.length →
      1 ≤ cidAt (relabel kp (cidAt kp i) (cidAt kp j) (min (cidAt kp i) (cidAt kp j))) k ∧
      cidAt (relabel kp (cidAt kp i) (cidAt kp j) (min (cidAt kp i) (cidAt kp j))) k ≤
        (k : Int) + 1 ∧
      cidAt (relabel kp (cidAt kp i) (cidAt kp j) (min (cidAt kp i) (cidAt kp j)))
        (cidAt (relabel kp (cidAt kp i) (cidAt kp j) (min (cidAt kp i) (cidAt kp j))) k
          - 1).toNat =
        cidAt (relabel kp (cidAt kp i) (cidAt kp j) (min (cidAt kp i) (cidAt kp j))) k := by
  intro k hk
  obtain ⟨hi1, hi2, hi3⟩ := h i hi
  obtain ⟨hj1, hj2, hj3⟩ := h j hj
  obtain ⟨hk1, hk2, hk3⟩ := h k hk
  have hmin : min (cidAt kp i) (cidAt kp j) = cidAt kp i ∨
      min (cidAt kp i) (cidAt kp j) = cidAt kp j := min_choice _ _
  have hminle1 : min (cidAt kp i) (cidAt kp j) ≤ cidAt kp i := min_le_left _ _
  have hminle2 : min (cidAt kp i) (cidAt kp j) ≤ cidAt kp j := min_le_right _ _
  have hmin1 : 1 ≤ min (cidAt kp i) (cidAt kp j) := le_min hi1 hj1
  rw [cidAt_relabel kp _ _ _ k hk]
  by_cases hc : cidAt kp k = cidAt kp i ∨ cidAt kp k = cidAt kp j
  · rw [if_pos hc]
    refine ⟨hmin1, by rcases hc with hc | hc <;> omega, ?_⟩
    have hlt : (min (cidAt kp i) (cidAt kp j) - 1).toNat < kp.length := by
      rcases hc with hc | hc <;> omega
    rw [cidAt_relabel kp _ _ _ _ hlt]
    have hold : cidAt kp (min (cidAt kp i) (cidAt kp j) - 1).toNat =
        min (cidAt kp i) (cidAt kp j) := by
      rcases hmin with e | e
      · rw [e]; exact hi3
      · rw [e]; exact hj3
    rw [hold, if_pos hmin]
  · rw [if_neg hc]
    refine ⟨hk1, hk2, ?_⟩
    have hlt : (cidAt kp k - 1).toNat < kp.length := by omega
    rw [cidAt_relabel kp _ _ _ _ hlt, hk3, if_neg hc]

theorem clusterGFrom_rep (sim : TSimilarityMap R) (keyPresses : stKeyPressCollection R)
    (threshold : R) (sorted : List (Pair R))
    (hperm : sorted.Perm (ccPairs sim keyPresses.presses.length)) :
    (clusterGFrom sorted sim keyPresses threshold).presses.length =
      keyPresses.presses.length ∧
    ∀ k, k < keyPresses.presses.length →
      1 ≤ cidAt (clusterGFrom sorted sim keyPresses threshold).presses k ∧
      cidAt (clusterGFrom sorted sim keyPresses threshold).presses k ≤ (k : Int) + 1 ∧
      cidAt (clusterGFrom sorted sim keyPresses threshold).presses
        (cidAt (clusterGFrom sorted sim keyPresses threshold).presses k - 1).toNat =
        cidAt (clusterGFrom sorted sim keyPresses threshold).presses k := by
  have hP := clusterLoop_invariant sim threshold keyPresses.presses.length
    (fun kp => kp.length = keyPresses.presses.length ∧
      ∀ k, k < kp.length → 1 ≤ cidAt kp k ∧ cidAt kp k ≤ (k : Int) + 1 ∧
        cidAt kp (cidAt kp k - 1).toNat = cidAt kp k)
    sorted
    (by
      intro kp p hp _ _ hinv
      obtain ⟨h1, h2, _⟩ := mem_ccPairs sim _ p (hperm.subset hp)
      refine ⟨by rw [relabel_length]; exact hinv.1, ?_⟩
      rw [relabel_length]
      exact relabel_rep kp p.i p.j (by rw [hinv.1]; omega) (by rw [hinv.1]; omega) hinv.2)
    sorted (initCids keyPresses.presses, (keyPresses.presses.length : Int))
    (fun p hp => hp)
    (by
      refine ⟨initCids_length _, ?_⟩
      intro k hk
      rw [initCids_length] at hk
      rw [cidAt_initCids _ k hk]
      refine ⟨by omega, le_refl _, ?_⟩
      have e : ((k : Int) + 1 - 1).toNat = k := by omega
      rw [e, cidAt_initCids _ k hk])
  obtain ⟨hlen, hrep⟩ := hP
  refine ⟨hlen, ?_⟩
  intro k hk
  exact hrep k (by rw [hlen]; exact hk)

/-- Claim C17. After `clusterG`, every stroke `k` has `clusterId[k]` equal to `1 +` the
smallest index `q` whose stroke has the same `clusterId` as `k`; in particular
`1 <= clusterId[k] <= k + 1` and the stroke at index `clusterId[k] - 1` belongs to the
cluster of `k`. -/
theorem clusterG_cid_is_representative (sim : TSimilarityMap R)
    (keyPresses : stKeyPressCollection R) (threshold : R) (sorted : List (Pair R))
    (hperm : sorted.Perm (ccPairs sim keyPresses.presses.length))
    (k : Nat) (hk : k < keyPresses.presses.length) :
    (∃ q : Nat, q < keyPresses.presses.length ∧
      cidAt (clusterGFrom sorted sim keyPresses threshold).presses q =
        cidAt (clusterGFrom sorted sim keyPresses threshold).presses k ∧
      (∀ q2 : Nat, q2 < keyPresses.presses.length →
        cidAt (clusterGFrom sorted sim keyPresses threshold).presses q2 =
          cidAt (clusterGFrom sorted sim keyPresses threshold).presses k → q ≤ q2) ∧
      cidAt (clusterGFrom sorted sim keyPresses threshold).presses k = 1 + (q : Int)) ∧
    1 ≤ cidAt (clusterGFrom sorted sim keyPresses threshold).presses k ∧
    cidAt (clusterGFrom sorted sim keyPresses threshold).presses k ≤ (k : Int) + 1 ∧
    cidAt (clusterGFrom sorted sim keyPresses threshold).presses
      (cidAt (clusterGFrom sorted sim keyPresses threshold).presses k - 1).toNat =
      cidAt (clusterGFrom sorted sim keyPresses threshold).presses k := by
  obtain ⟨_, hrep⟩ := clusterGFrom_rep sim keyPresses threshold sorted hperm
  obtain ⟨h1, h2, h3⟩ := hrep k hk
  refine ⟨⟨(cidAt (clusterGFrom sorted sim keyPresses threshold).presses k - 1).toNat,
    by omega, h3, ?_, by omega⟩, h1, h2, h3⟩
  intro q2 hq2 he
  obtain ⟨_, g2, _⟩ := hrep q2 hq2
  omega

/-- Witness for C17: the three strokes of `threeSim` at threshold `1/2`, stroke `k = 1`. -/
theorem clusterG_cid_is_representative_witness :
    cidAt (clusterG threeSim threeStrokes (1 / 2)).presses 1 ≤ ((1 : Nat) : Int) + 1 ∧
    cidAt (clusterG threeSim threeStrokes (1 / 2)).presses
      (cidAt (clusterG threeSim threeStrokes (1 / 2)).presses 1 - 1).toNat =
      cidAt (clusterG threeSim threeStrokes (1 / 2)).presses 1 :=
  (clusterG_cid_is_representative threeSim threeStrokes (1 / 2)
    (sortPairs (ccPairs threeSim threeStrokes.presses.length))
    (List.perm_insertionSort _ _) 1 (by decide)).2.2

end ClusterInvariants

/-! ### C20: clusters lie inside the components of the above-threshold graph -/

section ClusterChains
variable {R : Type} [LinearOrderedField R]

theorem aboveEdge_symm (sim : TSimilarityMap R) (threshold : R) (n a b : Nat)
    (h : aboveEdge sim threshold n a b) : aboveEdge sim threshold n b a := by
  unfold aboveEdge at h ⊢
  exact h.symm

theorem aboveEdge_chain_symm (sim : TSimilarityMap R) (threshold : R) (n a b : Nat)
    (h : Relation.ReflTransGen (aboveEdge sim threshold n) a b) :
    Relation.ReflTransGen (aboveEdge sim threshold n) b a := by
  induction h with
  | refl => exact Relation.ReflTransGen.refl
  | tail _ hbc ih =>
    exact Relation.ReflTransGen.head (aboveEdge_symm sim threshold n _ _ hbc) ih

/-- Strokes that share a label after a merge at an above-threshold pair are joined by a
chain, if that was so before the merge. -/
theorem relabel_chain (sim : TSimilarityMap R) (threshold : R)
    (kp : List (stKeyPressData R)) (i j : Nat) (hij : i < j) (hj : j < kp.length)
    (hcc : threshold ≤ (simAt sim i j).cc)
    (h : ∀ a b, a < kp.length → b < kp.length → cidAt kp a = cidAt kp b →
      Relation.ReflTransGen (aboveEdge sim threshold kp.length) a b) :
    ∀ a b, a < kp.length → b < kp.length →
      cidAt (relabel kp (cidAt kp i) (cidAt kp j) (min (cidAt kp i) (cidAt kp j))) a =
        cidAt (relabel kp (cidAt kp i) (cidAt kp j) (min (cidAt kp i) (cidAt kp j))) b →
      Relation.ReflTransGen (aboveEdge sim threshold kp.length) a b := by
  intro a b ha hb he
  have hi : i < kp.length := by omega
  have hmin : min (cidAt kp i) (cidAt kp j) = cidAt kp i ∨
      min (cidAt kp i) (cidAt kp j) = cidAt kp j := min_choice _ _
  have eij : aboveEdge sim threshold kp.length i j := Or.inl ⟨hij, hj, hcc⟩
  have cij : Relation.ReflTransGen (aboveEdge sim threshold kp.length) i j :=
    Relation.ReflTransGen.single eij
  have cji : Relation.ReflTransGen (aboveEdge sim threshold kp.length) j i :=
    Relation.ReflTransGen.single (aboveEdge_symm sim threshold _ _ _ eij)
  rw [cidAt_relabel kp _ _ _ a ha, cidAt_relabel kp _ _ _ b hb] at he
  by_cases hca : cidAt kp a = cidAt kp i ∨ cidAt kp a = cidAt kp j
  · by_cases hcb : cidAt kp b = cidAt kp i ∨ cidAt kp b = cidAt kp j
    · rcases hca with hca | hca <;> rcases hcb with hcb | hcb
      · exact h a b ha hb (hca.trans hcb.symm)
      · exact ((h a i ha hi hca).trans cij).trans (h j b hj hb hcb.symm)
      · exact ((h a j ha hj hca).trans cji).trans (h i b hi hb hcb.symm)
      · exact h a b ha hb (hca.trans hcb.symm)
    · rw [if_pos hca, if_neg hcb] at he
      exact absurd (by rw [← he]; exact hmin) hcb
  · by_cases hcb : cidAt kp b = cidAt kp i ∨ cidAt kp b = cidAt kp j
    · rw [if_neg hca, if_pos hcb] at he
      exact absurd (by rw [he]; exact hmin) hca
    · rw [if_neg hca, if_neg hcb] at he
      exact h a b ha hb he

/-- Claim C20. For every similarity matrix, stroke collection and threshold, any two
strokes that share a `clusterId` after `clusterG` are joined by a chain of strokes in which
each consecutive pair `(a, b)`, `a < b`, has `matrix[a][b].cc >= threshold`: every final
cluster lies inside one connected component of the graph of above-threshold pairs. -/
theorem clusterG_same_cid_chain (sim : TSimilarityMap R)
    (keyPresses : stKeyPressCollection R) (threshold : R) (sorted : List (Pair R))
    (hperm : sorted.Perm (ccPairs sim keyPresses.presses.length))
    (a b : Nat) (ha : a < keyPresses.presses.length) (hb : b < keyPresses.presses.length)
    (hab : cidAt (clusterGFrom sorted sim keyPresses threshold).presses a =
      cidAt (clusterGFrom sorted sim keyPresses threshold).presses b) :
    Relation.ReflTransGen (aboveEdge sim threshold keyPresses.presses.length) a b := by
  have hP := clusterLoop_invariant sim threshold keyPresses.presses.length
    (fun kp => kp.length = keyPresses.presses.length ∧
      ∀ a b, a < kp.length → b < kp.length → cidAt kp a = cidAt kp b →
        Relation.ReflTransGen (aboveEdge sim threshold kp.length) a b)
    sorted
    (by
      intro kp p hp hthr _ hinv
      obtain ⟨h1, h2, h3⟩ := mem_ccPairs sim _ p (hperm.subset hp)
      refine ⟨by rw [relabel_length]; exact hinv.1, ?_⟩
      rw [relabel_length]
      rw [h3] at hthr
      exact relabel_chain sim threshold kp p.i p.j h1 (by rw [hinv.1]; exact h2)
        (not_lt.1 hthr) hinv.2)
    sorted (initCids keyPresses.presses, (keyPresses.presses.length : Int))
    (fun p hp => hp)
    (by
      refine ⟨initCids_length _, ?_⟩
      intro a b ha hb he
      rw [initCids_length] at ha hb
      rw [cidAt_initCids _ a ha, cidAt_initCids _ b hb] at he
      have : a = b := by omega
      rw [this])
  obtain ⟨hlen, hchain⟩ := hP
  have hc := hchain a b (by rw [hlen]; exact ha) (by rw [hlen]; exact hb) hab
  rw [hlen] at hc
  exact hc

/-- Witness for C20: in the run on `threeSim` at threshold `1/2` the strokes `0` and `1`
share a label, and are joined by a chain. -/
theorem clusterG_same_cid_chain_witness :
    cidAt (clusterG threeSim threeStrokes (1 / 2)).presses 0 =
      cidAt (clusterG threeSim threeStrokes (1 / 2)).presses 1 ∧
    Relation.ReflTransGen (aboveEdge threeSim (1 / 2) threeStrokes.presses.length) 0 1 :=
  ⟨by decide!, clusterG_same_cid_chain threeSim threeStrokes (1 / 2)
    (sortPairs (ccPairs threeSim threeStrokes.presses.length))
    (List.perm_insertionSort _ _) 0 1 (by decide) (by decide) (by decide!)⟩

end ClusterChains

/-! ### C16: a matrix with one value off the diagonal -/

section ClusterUniform
variable {R : Type} [LinearOrderedField R]

theorem ccPairs_mem (sim : TSimilarityMap R) (n i j : Nat) (hij : i < j) (hj : j < n) :
    ({ i := i, j := j, cc := (simAt sim i j).cc } : Pair R) ∈ ccPairs sim n := by
  unfold ccPairs
  rw [List.mem_flatMap]
  refine ⟨i, by rw [List.mem_range]; omega, ?_⟩
  rw [List.mem_map]
  exact ⟨j, by rw [List.mem_range'_1]; omega, rfl⟩

/-- The average over a list of pairs whose entries all equal `c` is `c` (`0` for no
pair). -/
theorem avgCC_const (sim : TSimilarityMap R) (c : R) (P : List (Nat × Nat))
    (hP : ∀ kq ∈ P, (simAt sim kq.1 kq.2).cc = c) :
    avgCC sim P = if P.length = 0 then 0 else c := by
  unfold avgCC
  split_ifs with h0
  · rfl
  · have hsum : (P.map (fun kq => (simAt sim kq.1 kq.2).cc)).sum = (P.length : R) * c := by
      clear h0
      induction P with
      | nil => simp
      | cons x xs ih =>
        rw [List.map_cons, List.sum_cons, ih (fun kq hkq => hP kq (List.mem_cons_of_mem _ hkq)),
          hP x (List.mem_cons_self _ _)]
        simp only [List.length_cons]
        push_cast
        ring
    rw [hsum]
    have hne : (P.length : R) ≠ 0 := by exact_mod_cast h0
    field_simp

theorem allPairs_lt (n : Nat) (kq : Nat × Nat) (h : kq ∈ allPairs n) :
    kq.1 < n ∧ kq.2 < n := by
  unfold allPairs at h
  rw [List.mem_flatMap] at h
  obtain ⟨k, hk, h⟩ := h
  rw [List.mem_map] at h
  obtain ⟨q, hq, rfl⟩ := h
  exact ⟨List.mem_range.1 hk, List.mem_range.1 hq⟩

theorem mem_unionPairs (kp : List (stKeyPressData R)) (n : Nat) (ci cj : Int)
    (kq : Nat × Nat) (h : kq ∈ unionPairs kp n ci cj) :
    kq.1 < n ∧ kq.2 < n ∧ kq.2 ≠ kq.1 := by
  unfold unionPairs at h
  rw [List.mem_filter] at h
  have h1 := allPairs_lt n kq h.1
  have h2 := of_decide_eq_true h.2
  exact ⟨h1.1, h1.2, h2.1⟩

theorem mem_withinPairs (kp : List (stKeyPressData R)) (n : Nat) (c : Int)
    (kq : Nat × Nat) (h : kq ∈ withinPairs kp n c) :
    kq.1 < n ∧ kq.2 < n ∧ kq.2 ≠ kq.1 := by
  unfold withinPairs at h
  rw [List.mem_filter] at h
  have h1 := allPairs_lt n kq h.1
  have h2 := of_decide_eq_true h.2
  exact ⟨h1.1, h1.2, h2.1⟩

/-- With one positive value `c` off the diagonal every cohesion test passes. -/
theorem mergeAccepted_uniform (sim : TSimilarityMap R) (c : R) (hc : 0 < c)
    (kp : List (stKeyPressData R)) (n : Nat)
    (hsim : ∀ i j, i < n → j < n → i ≠ j → (simAt sim i j).cc = c)
    (i j : Nat) (hi : i < n) (hj : j < n) (hne : cidAt kp i ≠ cidAt kp j) :
    mergeAccepted sim kp n (cidAt kp i) (cidAt kp j) := by
  rw [mergeAccepted_iff_avg]
  have hij : i ≠ j := fun e => hne (by rw [e])
  have hU : avgCC sim (unionPairs kp n (cidAt kp i) (cidAt kp j)) = c := by
    have hmem : (i, j) ∈ unionPairs kp n (cidAt kp i) (cidAt kp j) := by
      unfold unionPairs
      rw [List.mem_filter]
      refine ⟨mem_allPairs n i j hi hj, ?_⟩
      apply decide_eq_true
      exact ⟨fun e => hij e.symm, Or.inl rfl, Or.inr rfl⟩
    rw [avgCC_const sim c _ (fun kq hkq => by
      obtain ⟨h1, h2, h3⟩ := mem_unionPairs kp n _ _ kq hkq
      exact hsim kq.1 kq.2 h1 h2 (fun e => h3 e.symm))]
    rw [if_neg]
    intro h0
    rw [List.length_eq_zero] at h0
    rw [h0] at hmem
    exact absurd hmem (List.not_mem_nil _)
  have hW : ∀ cl : Int, 0 ≤ avgCC sim (withinPairs kp n cl) ∧
      avgCC sim (withinPairs kp n cl) ≤ c := by
    intro cl
    rw [avgCC_const sim c _ (fun kq hkq => by
      obtain ⟨h1, h2, h3⟩ := mem_withinPairs kp n _ kq hkq
      exact hsim kq.1 kq.2 h1 h2 (fun e => h3 e.symm))]
    split_ifs
    · exact ⟨le_refl _, le_of_lt hc⟩
    · exact ⟨le_of_lt hc, le_refl _⟩
  rw [hU]
  have h1 := hW (cidAt kp i)
  have h2 := hW (cidAt kp j)
  show 2 / 5 * (avgCC sim (withinPairs kp n (cidAt kp i)) +
    avgCC sim (withinPairs kp n (cidAt kp j))) < c
  linarith [h1.2, h2.2]

/-- When every pair passes the threshold and every cohesion test passes, the two strokes of
every pair share a label after the pair loop, and strokes that shared one still do. -/
theorem clusterLoop_all_merged (sim : TSimilarityMap R) (threshold : R) (n : Nat)
    (hacc : ∀ (kp : List (stKeyPressData R)) (i j : Nat), i < n → j < n →
      cidAt kp i ≠ cidAt kp j → mergeAccepted sim kp n (cidAt kp i) (cidAt kp j)) :
    ∀ (pairs : List (Pair R)) (st : List (stKeyPressData R) × Int),
      (∀ p ∈ pairs, p.i < n ∧ p.j < n ∧ ¬ p.cc < threshold) → st.1.length = n →
      (∀ p ∈ pairs, cidAt (clusterLoop sim threshold n pairs st).1 p.i =
        cidAt (clusterLoop sim threshold n pairs st).1 p.j) ∧
      (∀ a b, a < n → b < n → cidAt st.1 a = cidAt st.1 b →
        cidAt (clusterLoop sim threshold n pairs st).1 a =
          cidAt (clusterLoop sim threshold n pairs st).1 b)
  | [], st, _, _ => ⟨fun p hp => absurd hp (List.not_mem_nil _), fun a b _ _ h => h⟩
  | p :: ps, st, hp, hlen => by
    have hps : ∀ q ∈ ps, q.i < n ∧ q.j < n ∧ ¬ q.cc < threshold :=
      fun q hq => hp q (List.mem_cons_of_mem _ hq)
    obtain ⟨hpi, hpj, hpc⟩ := hp p (List.mem_cons_self _ _)
    unfold clusterLoop
    simp only []
    rw [if_neg hpc]
    by_cases he : cidAt st.1 p.i = cidAt st.1 p.j
    · rw [if_pos he]
      obtain ⟨ih1, ih2⟩ := clusterLoop_all_merged sim threshold n hacc ps st hps hlen
      refine ⟨?_, ih2⟩
      intro q hq
      rcases List.mem_cons.1 hq with rfl | hq
      · exact ih2 _ _ hpi hpj he
      · exact ih1 q hq
    · rw [if_neg he, if_pos (hacc st.1 p.i p.j hpi hpj he)]
      obtain ⟨ih1, ih2⟩ := clusterLoop_all_merged sim threshold n hacc ps
        (relabel st.1 (cidAt st.1 p.i) (cidAt st.1 p.j)
          (min (cidAt st.1 p.i) (cidAt st.1 p.j)), st.2 - 1) hps
        (by rw [relabel_length]; exact hlen)
      have hrel : ∀ a b, a < n → b < n → cidAt st.1 a = cidAt st.1 b →
          cidAt (relabel st.1 (cidAt st.1 p.i) (cidAt st.1 p.j)
            (min (cidAt st.1 p.i) (cidAt st.1 p.j))) a =
          cidAt (relabel st.1 (cidAt st.1 p.i) (cidAt st.1 p.j)
            (min (cidAt st.1 p.i) (cidAt st.1 p.j))) b := by
        intro a b ha hb hab
        rw [cidAt_relabel _ _ _ _ a (by rw [hlen]; exact ha),
          cidAt_relabel _ _ _ _ b (by rw [hlen]; exact hb), hab]
      refine ⟨?_, fun a b ha hb hab => ih2 a b ha hb (hrel a b ha hb hab)⟩
      intro q hq
      rcases List.mem_cons.1 hq with rfl | hq
      · apply ih2 _ _ hpi hpj
        rw [cidAt_relabel _ _ _ _ _ (by rw [hlen]; exact hpi),
          cidAt_relabel _ _ _ _ _ (by rw [hlen]; exact hpj),
          if_pos (Or.inl rfl), if_pos (Or.inr rfl)]
      · exact ih1 q hq

/-- C16 on the code. For every similarity matrix whose off-diagonal `cc` entries all equal
one value `c` with `c > 0` and `c >= threshold`: for `n = 1` the vector `ccpairs` is empty
and the diagnostic loop of `clusterG` reads `ccpairs[0]`, outside the vector, so the source
does not reach the assignment of `nClusters`; for every `n >= 2` a call of `clusterG` that
returns has put all strokes into a single cluster, `nClusters = 1` and every
`clusterId = 1`, whatever order the pairs of equal `cc` are processed in. -/
theorem clusterG_uniform_single_cluster (sim : TSimilarityMap R)
    (keyPresses : stKeyPressCollection R) (threshold c : R) (sorted : List (Pair R))
    (hperm : sorted.Perm (ccPairs sim keyPresses.presses.length))
    (hc : 0 < c) (hthr : threshold ≤ c)
    (hsim : ∀ i j, i < keyPresses.presses.length → j < keyPresses.presses.length → i ≠ j →
      (simAt sim i j).cc = c) :
    (keyPresses.presses.length = 1 →
      sorted = [] ∧ ∃ i ∈ topPairsReads, ¬ i < sorted.length) ∧
    (2 ≤ keyPresses.presses.length →
      (clusterGFrom sorted sim keyPresses threshold).nClusters = 1 ∧
      ∀ k, k < keyPresses.presses.length →
        cidAt (clusterGFrom sorted sim keyPresses threshold).presses k = 1) := by
  refine ⟨?_, ?_⟩
  · intro h1
    rw [h1] at hperm
    have he : ccPairs sim 1 = [] := by simp [ccPairs]
    rw [he] at hperm
    have hs : sorted = [] := List.Perm.eq_nil hperm
    exact ⟨hs, 0, by decide, by rw [hs]; exact Nat.lt_irrefl 0⟩
  intro hn
  obtain ⟨hlen, hrep⟩ := clusterGFrom_rep sim keyPresses threshold sorted hperm
  have hpairs : ∀ p ∈ sorted, p.i < keyPresses.presses.length ∧
      p.j < keyPresses.presses.length ∧ ¬ p.cc < threshold := by
    intro p hp
    obtain ⟨h1, h2, h3⟩ := mem_ccPairs sim _ p (hperm.subset hp)
    refine ⟨by omega, h2, ?_⟩
    rw [h3, hsim p.i p.j (by omega) h2 (by omega)]
    exact not_lt.2 hthr
  obtain ⟨hm, _⟩ := clusterLoop_all_merged sim threshold keyPresses.presses.length
    (fun kp i j hi hj hne => mergeAccepted_uniform sim c hc kp _ hsim i j hi hj hne)
    sorted (initCids keyPresses.presses, (keyPresses.presses.length : Int)) hpairs
    (initCids_length _)
  have hone : ∀ k, k < keyPresses.presses.length →
      cidAt (clusterGFrom sorted sim keyPresses threshold).presses k = 1 := by
    intro k hk
    have h0 : cidAt (clusterGFrom sorted sim keyPresses threshold).presses 0 = 1 := by
      obtain ⟨g1, g2, _⟩ := hrep 0 (by omega)
      omega
    by_cases hk0 : k = 0
    · rw [hk0]; exact h0
    · have hmem := hperm.symm.subset (ccPairs_mem sim _ 0 k (by omega) hk)
      have := hm _ hmem
      rw [← h0]
      exact this.symm
  refine ⟨?_, hone⟩
  have hcount := (clusterLoop_count sim threshold keyPresses.presses.length sorted
    (initCids keyPresses.presses, (keyPresses.presses.length : Int))
    (fun p hp => ⟨(hpairs p hp).1, (hpairs p hp).2.1⟩) (initCids_length _)
    (by
      show (distinctCids (initCids keyPresses.presses) : Int) = _
      rw [distinctCids_initCids])).2
  show (clusterLoop sim threshold keyPresses.presses.length sorted
    (initCids keyPresses.presses, (keyPresses.presses.length : Int))).2 = 1
  rw [← hcount]
  have hset : ((clusterGFrom sorted sim keyPresses threshold).presses.map
      (fun e => e.cid)).toFinset = {1} := by
    ext x
    rw [List.mem_toFinset, List.mem_map, Finset.mem_singleton]
    constructor
    · rintro ⟨e, he, rfl⟩
      obtain ⟨t, ht, rfl⟩ := List.getElem_of_mem he
      have := hone t (by rw [← hlen]; exact ht)
      unfold cidAt kpAt at this
      rw [List.getD_eq_getElem _ _ ht] at this
      exact this
    · rintro rfl
      exact ⟨kpAt (clusterGFrom sorted sim keyPresses threshold).presses 0,
        kpAt_mem _ 0 (by rw [hlen]; omega), hone 0 (by omega)⟩
  have hd : distinctCids (clusterGFrom sorted sim keyPresses threshold).presses = 1 := by
    unfold distinctCids
    rw [hset]
    rfl
  have hd2 : distinctCids (clusterLoop sim threshold keyPresses.presses.length sorted
      (initCids keyPresses.presses, (keyPresses.presses.length : Int))).1 = 1 := hd
  rw [hd2]
  rfl

/-- Witness for C16: three strokes with all off-diagonal `cc = 1.0`, threshold `0.5`. -/
theorem clusterG_uniform_single_cluster_witness :
    (clusterG threeEqualSim threeStrokes (1 / 2)).nClusters = 1 ∧
    ∀ k, k < threeStrokes.presses.length →
      cidAt (clusterG threeEqualSim threeStrokes (1 / 2)).presses k = 1 :=
  (clusterG_uniform_single_cluster threeEqualSim threeStrokes (1 / 2) 1
    (sortPairs (ccPairs threeEqualSim threeStrokes.presses.length))
    (List.perm_insertionSort _ _) (by norm_num) (by norm_num)
    (by
      intro i j hi hj _
      have hi' : i < 3 := hi
      have hj' : j < 3 := hj
      interval_cases i <;> interval_cases j <;> rfl)).2 (by decide)

end ClusterUniform

/-! ### C19: the sample reads of `calculateSimilartyMap` -/

section SimilarityReads
variable {R : Type} [LinearOrderedField R]

/-- Every stroke that the loop of `findKeyPresses` emits carries the view it was given and
lies inside the margin. -/
theorem findKeyPressesLoop_strokes (waveform : stWaveformView) (wt : TWaveform) (thr : R)
    (k : Int) (m : Nat) :
    ∀ e ∈ (findKeyPressesLoop waveform wt thr k m).res,
      e.waveform = waveform ∧ 2 * k ≤ e.pos ∧ e.pos < waveform.n - 2 * k := by
  induction m with
  | zero => simp [findKeyPressesLoop, findKeyPressesInit]
  | succ m ih =>
    rw [findKeyPressesLoop_succ]
    rcases findKeyPressesStep_res waveform (waveformAbs waveform) thr k
      (findKeyPressesLoop waveform wt thr k m) (m : Int) with h | ⟨h, h2, h3⟩
    · rw [h]; exact ih
    · rw [h]
      intro e he
      rw [List.mem_append, List.mem_singleton] at he
      rcases he with he | he
      · exact ih e he
      · subst he
        exact ⟨rfl, h2, h3⟩

theorem mem_calcSumReads (v : stWaveformView) (r : TWaveform × Int) (h : r ∈ calcSumReads v) :
    r.1 = v.buf ∧ v.off ≤ r.2 ∧ r.2 < v.off + v.n := by
  unfold calcSumReads at h
  rw [List.mem_map] at h
  obtain ⟨is, his, rfl⟩ := h
  rw [List.mem_range] at his
  exact ⟨rfl, by show v.off ≤ v.off + (is : Int); omega,
    by show v.off + (is : Int) < v.off + v.n; omega⟩

theorem mem_calcCCReads (v0 v1 : stWaveformView) (r : TWaveform × Int)
    (h : r ∈ calcCCReads v0 v1) :
    (r.1 = v0.buf ∧ v0.off ≤ r.2 ∧ r.2 < v0.off + v0.n) ∨
    (r.1 = v1.buf ∧ v1.off ≤ r.2 ∧ r.2 < v1.off + v1.n) := by
  unfold calcCCReads at h
  rw [List.mem_flatMap] at h
  obtain ⟨is, his, hr⟩ := h
  rw [List.mem_range] at his
  have hm1 : min v0.n v1.n ≤ v0.n := min_le_left _ _
  have hm2 : min v0.n v1.n ≤ v1.n := min_le_right _ _
  rw [List.mem_cons, List.mem_singleton] at hr
  rcases hr with rfl | rfl
  · exact Or.inl ⟨rfl, by show v0.off ≤ v0.off + (is : Int); omega,
      by show v0.off + (is : Int) < v0.off + v0.n; omega⟩
  · exact Or.inr ⟨rfl, by show v1.off ≤ v1.off + (is : Int); omega,
      by show v1.off + (is : Int) < v1.off + v1.n; omega⟩

/-- The reads of `findBestCC` lie in `waveform0` or in the first
`|waveform0| + 2 * alignWindow` samples of `waveform1`. -/
theorem mem_findBestCCReads (v0 v1 : stWaveformView) (A : Int)
    (r : TWaveform × Int) (h : r ∈ findBestCCReads v0 v1 A) :
    (r.1 = v0.buf ∧ v0.off ≤ r.2 ∧ r.2 < v0.off + v0.n) ∨
    (r.1 = v1.buf ∧ v1.off ≤ r.2 ∧ r.2 < v1.off + v0.n + 2 * A) := by
  unfold findBestCCReads at h
  rw [List.mem_append] at h
  rcases h with h | h
  · exact Or.inl (mem_calcSumReads v0 r h)
  · rw [List.mem_flatMap] at h
    obtain ⟨o, ho, hr⟩ := h
    rw [List.mem_range] at ho
    rcases mem_calcCCReads _ _ r hr with h0 | ⟨h1, h2, h3⟩
    · exact Or.inl h0
    · right
      have e1 : (v1.shift (o : Int) v0.n).off = v1.off + (o : Int) := rfl
      have e2 : (v1.shift (o : Int) v0.n).n = v0.n := rfl
      rw [e1] at h2 h3
      rw [e2] at h3
      exact ⟨h1, by omega, by omega⟩

/-- Every read of `calculateSimilartyMap` lies in the window `[pos + offsetFromPeak,
pos + offsetFromPeak + 2w)` or in the window
`[pos + offsetFromPeak - alignWindow, pos + offsetFromPeak + 2w + alignWindow)` of a
stroke. -/
theorem mem_calculateSimilartyMapReads (params : stParameters)
    (keyPresses : List (stKeyPressData R))
    (r : TWaveform × Int) (h : r ∈ calculateSimilartyMapReads params keyPresses) :
    ∃ e ∈ keyPresses, r.1 = e.waveform.buf ∧
      ((e.waveform.off + e.pos + params.offsetFromPeak ≤ r.2 ∧
        r.2 < e.waveform.off + e.pos + params.offsetFromPeak +
          2 * params.keyPressWidth_samples) ∨
       (e.waveform.off + e.pos + params.offsetFromPeak - params.alignWindow ≤ r.2 ∧
        r.2 < e.waveform.off + e.pos + params.offsetFromPeak +
          2 * params.keyPressWidth_samples + params.alignWindow)) := by
  unfold calculateSimilartyMapReads at h
  rw [List.mem_flatMap] at h
  obtain ⟨i, hi, h⟩ := h
  rw [List.mem_flatMap] at h
  obtain ⟨j, hj, h⟩ := h
  rw [List.mem_range] at hi hj
  split_ifs at h with hij
  · exact absurd h (List.not_mem_nil _)
  · simp only [] at h
    rcases mem_findBestCCReads _ _ _ r h with ⟨h1, h2, h3⟩ | ⟨h1, h2, h3⟩
    · refine ⟨kpAt keyPresses i, kpAt_mem _ i hi, h1, Or.inl ?_⟩
      simp only [stWaveformView.shift] at h2 h3
      exact ⟨by omega, by omega⟩
    · refine ⟨kpAt keyPresses j, kpAt_mem _ j hj, h1, Or.inr ?_⟩
      simp only [stWaveformView.shift] at h2 h3
      exact ⟨by omega, by omega⟩

/-- Claim C19. For every waveform of length `n`, every stroke list produced by
`findKeyPresses` with history size `k`, and parameters with `w >= 0`, `alignWindow >= 0`,
`alignWindow - offsetFromPeak <= 2k` and `offsetFromPeak + 2w + alignWindow <= 2k`, every
sample index that `calculateSimilartyMap` reads lies in one of the windows
`[pos + offsetFromPeak, pos + offsetFromPeak + 2w)`,
`[pos + offsetFromPeak - alignWindow, pos + offsetFromPeak + 2w + alignWindow)` of a stroke
and in `[0, n)`. -/
theorem calculateSimilartyMap_reads_in_bounds (waveform : TWaveform)
    (res : stKeyPressCollection R) (wt : TWaveform) (thr : R) (k : Int)
    (params : stParameters) (_hw : 0 ≤ params.keyPressWidth_samples)
    (hA : 0 ≤ params.alignWindow) (h1 : params.alignWindow - params.offsetFromPeak ≤ 2 * k)
    (h2 : params.offsetFromPeak + 2 * params.keyPressWidth_samples + params.alignWindow ≤
      2 * k) :
    ∀ r ∈ calculateSimilartyMapReads params
        (findKeyPresses (getView waveform 0) res wt thr k).1.presses,
      r.1 = waveform ∧ 0 ≤ r.2 ∧ r.2 < (waveform.length : Int) ∧
      ∃ p ∈ positions (findKeyPresses (getView waveform 0) res wt thr k).1,
        (p + params.offsetFromPeak ≤ r.2 ∧
          r.2 < p + params.offsetFromPeak + 2 * params.keyPressWidth_samples) ∨
        (p + params.offsetFromPeak - params.alignWindow ≤ r.2 ∧
          r.2 < p + params.offsetFromPeak + 2 * params.keyPressWidth_samples +
            params.alignWindow) := by
  intro r hr
  obtain ⟨e, he, hb, hwin⟩ := mem_calculateSimilartyMapReads params _ r hr
  obtain ⟨g1, g2, g3⟩ := findKeyPressesLoop_strokes (getView waveform 0) wt thr k
    (getView waveform 0).n.toNat e he
  have hoff : e.waveform.off = 0 := by rw [g1]; rfl
  have hbuf : e.waveform.buf = waveform := by rw [g1]; rfl
  have hn : (getView waveform 0).n = (waveform.length : Int) := by
    show (waveform.length : Int) - 0 = _
    omega
  rw [hn] at g3
  rw [hoff] at hwin
  refine ⟨hb.trans hbuf, by omega, by omega, e.pos, ?_, ?_⟩
  · unfold positions
    rw [List.mem_map]
    exact ⟨e, he, rfl⟩
  · rcases hwin with hwin | hwin
    · exact Or.inl ⟨by omega, by omega⟩
    · exact Or.inr ⟨by omega, by omega⟩

/-- Witness for C19: the waveform `twoPeaks` with `k = 2` (strokes at 4 and 8), and `w = 1`,
`offsetFromPeak = 0`, `alignWindow = 1`: twenty reads, all inside the waveform. -/
theorem calculateSimilartyMap_reads_in_bounds_witness :
    positions (findKeyPresses (getView twoPeaks 0) (twoStrokes ℚ 0) [] (1 : ℚ) 2).1 = [4, 8] ∧
    (calculateSimilartyMapReads tinyParams
      (findKeyPresses (getView twoPeaks 0) (twoStrokes ℚ 0) [] (1 : ℚ) 2).1.presses).length
      = 20 ∧
    ∀ r ∈ calculateSimilartyMapReads tinyParams
        (findKeyPresses (getView twoPeaks 0) (twoStrokes ℚ 0) [] (1 : ℚ) 2).1.presses,
      r.1 = twoPeaks ∧ 0 ≤ r.2 ∧ r.2 < (twoPeaks.length : Int) :=
  ⟨by decide!, by decide!, fun r hr =>
    ⟨(calculateSimilartyMap_reads_in_bounds twoPeaks (twoStrokes ℚ 0) [] (1 : ℚ) 2 tinyParams
        (by decide) (by decide) (by decide) (by decide) r hr).1,
      (calculateSimilartyMap_reads_in_bounds twoPeaks (twoStrokes ℚ 0) [] (1 : ℚ) 2 tinyParams
        (by decide) (by decide) (by decide) (by decide) r hr).2.1,
      (calculateSimilartyMap_reads_in_bounds twoPeaks (twoStrokes ℚ 0) [] (1 : ℚ) 2 tinyParams
        (by decide) (by decide) (by decide) (by decide) r hr).2.2.1⟩⟩

end SimilarityReads

/-! ### C21: the spacing of the strokes -/

section PeakSpacing
variable {R : Type} [LinearOrderedField R]

/-- Claim C21. For every waveform, threshold and history size `k >= 1`, any two distinct
strokes returned by `findKeyPresses` have positions at least `k - k/2` samples apart: in
output order, every later position is at least `k - k/2` above every earlier one. -/
theorem findKeyPresses_positions_spaced (waveform : stWaveformView)
    (res : stKeyPressCollection R) (wt : TWaveform) (thr : R) (k : Int) (hk : 1 ≤ k) :
    (positions (findKeyPresses waveform res wt thr k).1).Pairwise
      (fun p q => p + (k - k / 2) ≤ q) := by
  have hs := findKeyPresses_positions_sorted waveform res wt thr k
  refine List.Pairwise.imp_of_mem ?_ hs
  intro p q hp hq hpq
  obtain ⟨_, _, hpr, _⟩ := (findKeyPresses_mem_positions_iff waveform res wt thr k hk p).1 hp
  obtain ⟨_, hql, _, _⟩ := (findKeyPresses_mem_positions_iff waveform res wt thr k hk q).1 hq
  by_contra hlt
  have h1 := hpr q hpq (by omega)
  have h2 := hql p (by omega) hpq
  exact absurd (lt_of_lt_of_le h1 h2) (lt_irrefl _)

/-- Witness for C21: the waveform `twoPeaks` with `k = 2`; the strokes at 4 and 8 are at
least `2 - 2/2 = 1` apart. -/
theorem findKeyPresses_positions_spaced_witness :
    positions (findKeyPresses (getView twoPeaks 0) (twoStrokes ℚ 0) [] (1 : ℚ) 2).1 = [4, 8] ∧
    (positions (findKeyPresses (getView twoPeaks 0) (twoStrokes ℚ 0) [] (1 : ℚ) 2).1).Pairwise
      (fun p q => p + ((2 : Int) - 2 / 2) ≤ q) :=
  ⟨by decide!, findKeyPresses_positions_spaced (getView twoPeaks 0) (twoStrokes ℚ 0) []
    (1 : ℚ) 2 (by decide)⟩

end PeakSpacing

/-! ### C3, C6, C10, C14: samples whose products do not fit `int32_t` -/

section LargeAmplitude
variable {R : Type} [LinearOrderedField R]

theorem calcCC_eq_terms (sqrt : R → R) (v0 v1 : stWaveformView) (sum0 sum02 : Int) :
    calcCC sqrt v0 v1 sum0 sum02 =
      if 0 < (((calcCCTerms v0 v1 sum0 sum02).2.1 : Int) : R) *
          (((calcCCTerms v0 v1 sum0 sum02).2.2 : Int) : R)
      then some ((((calcCCTerms v0 v1 sum0 sum02).1 : Int) : R) /
        sqrt ((((calcCCTerms v0 v1 sum0 sum02).2.1 : Int) : R) *
          (((calcCCTerms v0 v1 sum0 sum02).2.2 : Int) : R)))
      else none := rfl

/-- The value of `calcCC` from its three integers, when the product of the denominator
factors is positive: the numerator over the positive root of the product. -/
theorem calcCC_of_terms (sqrt : R → R) (hsqrt : IsSqrt sqrt) (v0 v1 : stWaveformView)
    (sum0 sum02 : Int) (nom a b : Int) (ht : calcCCTerms v0 v1 sum0 sum02 = (nom, a, b))
    (hP : 0 < a * b) :
    ∃ r : R, 0 < r ∧ r * r = ((a * b : Int) : R) ∧
      calcCC sqrt v0 v1 sum0 sum02 = some ((nom : R) / r) := by
  have hPR : (0 : R) < (a : R) * (b : R) := by exact_mod_cast hP
  obtain ⟨h0, h1⟩ := hsqrt _ (le_of_lt hPR)
  refine ⟨sqrt ((a : R) * (b : R)), ?_, ?_, ?_⟩
  · rcases lt_or_eq_of_le h0 with h | h
    · exact h
    · rw [← h, mul_zero] at h1
      rw [← h1] at hPR
      exact absurd hPR (lt_irrefl _)
  · rw [h1]; push_cast; rfl
  · rw [calcCC_eq_terms, ht]
    simp only []
    rw [if_pos hPR]

/-- A negative numerator gives a negative correlation. -/
theorem calcCC_neg_of_terms (sqrt : R → R) (hsqrt : IsSqrt sqrt) (v0 v1 : stWaveformView)
    (sum0 sum02 : Int) (nom a b : Int) (ht : calcCCTerms v0 v1 sum0 sum02 = (nom, a, b))
    (hP : 0 < a * b) (hnom : nom < 0) :
    ∃ c : R, calcCC sqrt v0 v1 sum0 sum02 = some c ∧ c < 0 := by
  obtain ⟨r, hr, _, hc⟩ := calcCC_of_terms sqrt hsqrt v0 v1 sum0 sum02 nom a b ht hP
  have hn : (nom : R) < 0 := by exact_mod_cast hnom
  exact ⟨_, hc, div_neg_of_neg_of_pos hn hr⟩

/-- A positive numerator whose square exceeds the product of the denominator factors gives
a correlation above one. -/
theorem calcCC_gt_one_of_terms (sqrt : R → R) (hsqrt : IsSqrt sqrt) (v0 v1 : stWaveformView)
    (sum0 sum02 : Int) (nom a b : Int) (ht : calcCCTerms v0 v1 sum0 sum02 = (nom, a, b))
    (hP : 0 < a * b) (hnom : 0 < nom) (hsq : a * b < nom * nom) :
    ∃ c : R, calcCC sqrt v0 v1 sum0 sum02 = some c ∧ 1 < c := by
  obtain ⟨r, hr, hrr, hc⟩ := calcCC_of_terms sqrt hsqrt v0 v1 sum0 sum02 nom a b ht hP
  have hn : (0 : R) < (nom : R) := by exact_mod_cast hnom
  have hs : ((a * b : Int) : R) < (nom : R) * (nom : R) := by exact_mod_cast hsq
  rw [← hrr] at hs
  have hlt : r < (nom : R) := lt_of_mul_self_lt_mul_self₀ (le_of_lt hn) hs
  exact ⟨_, hc, (one_lt_div hr).2 hlt⟩

/-- A numerator whose square is below the product of the denominator factors gives a
correlation above minus one. -/
theorem calcCC_gt_neg_one_of_terms (sqrt : R → R) (hsqrt : IsSqrt sqrt)
    (v0 v1 : stWaveformView) (sum0 sum02 : Int) (nom a b : Int)
    (ht : calcCCTerms v0 v1 sum0 sum02 = (nom, a, b))
    (hP : 0 < a * b) (hsq : nom * nom < a * b) :
    ∃ c : R, calcCC sqrt v0 v1 sum0 sum02 = some c ∧ -1 < c := by
  obtain ⟨r, hr, hrr, hc⟩ := calcCC_of_terms sqrt hsqrt v0 v1 sum0 sum02 nom a b ht hP
  have hs : (nom : R) * (nom : R) < ((a * b : Int) : R) := by exact_mod_cast hsq
  rw [← hrr] at hs
  have habs : |(nom : R)| < r := by
    have := abs_lt_iff_mul_self_lt.2 hs
    rwa [abs_of_pos hr] at this
  refine ⟨_, hc, ?_⟩
  rw [lt_div_iff₀ hr]
  have := (abs_lt.1 habs).1
  linarith

/-- A negative numerator whose square is the product of the denominator factors gives the
correlation minus one. -/
theorem calcCC_eq_neg_one_of_terms (sqrt : R → R) (hsqrt : IsSqrt sqrt)
    (v0 v1 : stWaveformView) (sum0 sum02 : Int) (nom a b : Int)
    (ht : calcCCTerms v0 v1 sum0 sum02 = (nom, a, b))
    (hP : 0 < a * b) (hnom : nom < 0) (hsq : nom * nom = a * b) :
    calcCC sqrt v0 v1 sum0 sum02 = some (-1) := by
  obtain ⟨r, hr, hrr, hc⟩ := calcCC_of_terms sqrt hsqrt v0 v1 sum0 sum02 nom a b ht hP
  have hn : (nom : R) < 0 := by exact_mod_cast hnom
  have hs : (nom : R) * (nom : R) = ((a * b : Int) : R) := by exact_mod_cast hsq
  rw [← hrr] at hs
  have hrn : r = -(nom : R) := by
    have h1 : r * r = (-(nom : R)) * (-(nom : R)) := by rw [← hs]; ring
    exact (mul_self_inj_of_nonneg (le_of_lt hr) (by linarith)).1 h1
  rw [hc]
  congr 1
  rw [hrn, div_neg, div_self (ne_of_lt hn)]

/-- The correlation that `findBestCC` returns is at least every defined correlation above
`-1` among the candidate offsets. -/
theorem findBestCC_ge (sqrt : R → R) (v0 v1 : stWaveformView) (A : Int) (o : Nat)
    (ho : (o : Int) < 2 * A) (c0 : R)
    (hc0 : calcCC sqrt v0 (v1.shift (o : Int) v0.n) (calcSum v0).1 (calcSum v0).2 = some c0)
    (h : -1 < c0) : c0 ≤ (findBestCC sqrt v0 v1 A).1 := by
  rcases findBestCC_cases sqrt v0 v1 A with ⟨hall, _⟩ | ⟨ostar, _, c, _, _, hr, hmax, _⟩
  · exact absurd (hall o ho c0 hc0) (not_le.2 h)
  · rw [hr]
    exact hmax o ho c0 hc0

/-- The correlation that `findBestCC` returns is the initial `-1` or the correlation of a
candidate offset. -/
theorem findBestCC_attained (sqrt : R → R) (v0 v1 : stWaveformView) (A : Int) :
    (findBestCC sqrt v0 v1 A).1 = -1 ∨
    ∃ o : Nat, (o : Int) < 2 * A ∧
      calcCC sqrt v0 (v1.shift (o : Int) v0.n) (calcSum v0).1 (calcSum v0).2 =
        some (findBestCC sqrt v0 v1 A).1 := by
  rcases findBestCC_cases sqrt v0 v1 A with ⟨_, hr⟩ | ⟨ostar, ho, c, hc, _, hr, _, _⟩
  · left; rw [hr]
  · right
    exact ⟨ostar, ho, by rw [hr]; exact hc⟩

end LargeAmplitude

section LargeAmplitudeRuns

end LargeAmplitudeRuns

end Keytap
